import Mathlib

/-!
# Querator: the bolt-backed partition store

A shallow embedding of `internal/store/boltdb.go`: the partition operations `Produce`,
`Reserve`, `Complete`, `List`, `Add`, `Delete`, `Clear` and `Stats` over an ordered
key/value bucket, together with the identifier library they call; the queue registry
(`Get`, `Add`, `Update`, `Delete`), the lazy open of the engine files and their names;
the item comparison of `store/store.go` and the storage ids of `internal/store/mock.go`.

Conventions of the embedding:

* a Go `[]byte` is a list of byte values, compared as `bytes.Compare` does
  (lexicographically);
* a bucket of the engine is the list of its entries in ascending key order; `Put`
  and `Delete` are total (engine I/O failures and the engine's size limits are outside
  the model), and a cursor walks the entries as they stood when it was positioned;
* the `gob` encoder and decoder are a `Codec`: an encoder with a decoder that may
  fail and that reads back whatever the encoder wrote; the partition decodes every item
  into a new record, and the registry's `Get` decodes into the record of its caller, where
  a field stored as zero keeps the value the record had;
* a write transaction commits the working bucket when its body returns no error and
  leaves the stored bucket as it was otherwise;
* each operation takes the engine handle that `getDB` has opened and cached; `getDB`
  itself is modelled apart, on what `bolt.Open` finds at the path of the file.
-/

namespace Querator

/-- Go `[]byte`. -/
abbrev Bytes := List Nat

/-- Go `time.Time`, as an instant: nanoseconds on the UTC time line. -/
abbrev Time := Int

/-- The bytes of a Go string made of ASCII characters (`[]byte(s)`). -/
def stringBytes (s : String) : Bytes := s.toList.map Char.toNat

/-- The error values of the store: `transport.NewInvalidOption`, `transport.NewConflict`,
the internal errors built with `errors.Fields`, and the sentinel `ErrQueueNotExist` of the
queue registry (declared in a file that is not at hand; the error taxonomy of the spec
lists it as a kind of its own, the sentinel for registry misses). -/
inductive Error where
  | InvalidOption (msg : String)
  | Conflict (msg : String)
  | Internal (msg : String)
  | QueueNotExist
  deriving DecidableEq, Repr

/-- Modelled from the spec: `types.Item` is declared in a file that is not at hand; its
fields are the rows of the item table of the data model (`id`, `is_reserved`,
`reserve_deadline`, `dead_deadline`, `attempts`, `max_attempts`, `created_at`,
`reference`, `encoding`, `kind`, `payload`), under the names the code uses. -/
structure Item where
  ID : Bytes
  IsReserved : Bool
  ReserveDeadline : Time
  DeadDeadline : Time
  Attempts : Int
  MaxAttempts : Int
  Reference : String
  Encoding : String
  Kind : String
  Payload : Bytes
  CreatedAt : Time
  deriving DecidableEq, Repr

/-- The `gob` encoding of items: `encode` is `gob.NewEncoder(&buf).Encode(item)`, `decode`
is `gob.NewDecoder(bytes.NewReader(v)).Decode(item)` into a fresh item, which fails on
bytes that are not an encoded item. -/
structure Codec where
  encode : Item → Bytes
  decode : Bytes → Option Item
  decode_encode : ∀ item, decode (encode item) = some item

/-! ## The identifier library (`github.com/segmentio/ksuid`) -/

namespace ksuid

/-- The library constant `byteLength`: 4 bytes of timestamp and 16 of payload. -/
def byteLength : Nat := 20

/-- The library constant `stringEncodedLength`. -/
def stringEncodedLength : Nat := 27

/-- Big-endian value of a byte sequence. -/
def beNat (b : Bytes) : Nat := b.foldl (fun acc x => acc * 256 + x) 0

/-- Digit `d` of the alphabet `0-9A-Za-z`. -/
def base62Digit (d : Nat) : Char :=
  if d < 10 then Char.ofNat (48 + d)
  else if d < 36 then Char.ofNat (65 + (d - 10))
  else Char.ofNat (97 + (d - 36))

/-- The `n` least significant base-62 digits of `v`, most significant first, padded with
zero digits on the left. -/
def encodeBase62 : Nat → Nat → List Char
  | 0, _ => []
  | n + 1, v => encodeBase62 n (v / 62) ++ [base62Digit (v % 62)]

end ksuid

/-- A `ksuid.KSUID` (`[20]byte`), held as its two big-endian numbers: the 32-bit timestamp
and the 128-bit payload. -/
structure KSUID where
  timestamp : Nat
  payload : Nat
  deriving DecidableEq, Repr

/-- The 160-bit number whose big-endian bytes are the identifier. -/
def KSUID.toNat (id : KSUID) : Nat :=
  (id.timestamp % 2 ^ 32) * 2 ^ 128 + id.payload % 2 ^ 128

/-- `ksuid.FromBytes`: fails unless the slice has exactly `byteLength` bytes. -/
def ksuid.FromBytes (b : Bytes) : Except String KSUID :=
  if b.length ≠ ksuid.byteLength then .error "Valid KSUIDs are 20 bytes"
  else .ok { timestamp := ksuid.beNat (b.take 4), payload := ksuid.beNat (b.drop 4) }

/-- `KSUID.String`: the 27-character base-62 text of the identifier. -/
def KSUID.String (id : KSUID) : String :=
  String.mk (ksuid.encodeBase62 ksuid.stringEncodedLength id.toNat)

/-- `KSUID.Next`: add one to the payload; when the payload wraps to zero the timestamp is
incremented (as a `uint32`). -/
def KSUID.Next (id : KSUID) : KSUID :=
  let v := (id.payload % 2 ^ 128 + 1) % 2 ^ 128
  let t := if v = 0 then (id.timestamp % 2 ^ 32 + 1) % 2 ^ 32 else id.timestamp % 2 ^ 32
  { timestamp := t, payload := v }

/-! ## The engine: one ordered bucket -/

/-- A bucket of the engine: its entries `(key, value)` in ascending key order. -/
abbrev Bucket := List (Bytes × Bytes)

/-- `Bucket.Get`: the value stored at `key`, if any. -/
def Bucket.Get : Bucket → Bytes → Option Bytes
  | [], _ => none
  | (k, v) :: rest, key => if k = key then some v else Bucket.Get rest key

/-- `Bucket.Put`: store `value` at `key`, replacing the value of an existing entry and
keeping the entries in key order. -/
def Bucket.Put : Bucket → Bytes → Bytes → Bucket
  | [], key, value => [(key, value)]
  | (k, v) :: rest, key, value =>
    if key < k then (key, value) :: (k, v) :: rest
    else if key = k then (key, value) :: rest
    else (k, v) :: Bucket.Put rest key value

/-- `Bucket.Delete`: remove the entry at `key`; an absent key is not an error. -/
def Bucket.Delete (b : Bucket) (key : Bytes) : Bucket :=
  b.filter (fun kv => decide (kv.1 ≠ key))

/-- The engine file of a partition, opened: `queue` is the bucket named `queue`
(`bucketName`), or `none` when the file has no such bucket. -/
structure DB where
  queue : Option Bucket
  deriving DecidableEq, Repr

/-- `tx.Bucket(bucketName)`. -/
def DB.Bucket (db : DB) : Option Bucket := db.queue

/-- The error every operation returns when `tx.Bucket(bucketName)` is nil. -/
def errNoBucket : Error := Error.Internal "bucket does not exist in data file"

/-- The error returned when a stored value does not decode. -/
def errDecode : Error := Error.Internal "during Decode()"

/-- `BoltPartition`: the identity counter `uid` and the engine handle `db` that `getDB`
has opened and cached. -/
structure BoltPartition where
  uid : KSUID
  db : DB
  deriving DecidableEq, Repr

/-- `BoltPartition.validateID`: `some err` when `ksuid.FromBytes` rejects the id. -/
def BoltPartition.validateID (id : Bytes) : Option String :=
  match ksuid.FromBytes id with
  | .error _ => some "invalid storage id"
  | .ok _ => none

/-! ## Produce -/

/-- `types.Batch[T]`: the requests handed to the store in one call. -/
structure Batch (α : Type) where
  Requests : List α

/-- `types.ProduceRequest`, with the field the store reads and writes. -/
structure ProduceRequest where
  Items : List Item
  deriving DecidableEq, Repr

/-- The variables the loops of `Produce` and `Add` update: the identity counter of the
partition, the number of clock readings taken so far, and the working bucket. -/
structure ProduceState where
  uid : KSUID
  tick : Nat
  bucket : Bucket
  deriving DecidableEq, Repr

/-- The body of the inner loop of `Produce`: advance the counter, stamp the id and the
creation time on the item, encode it and put it at its id. `now n` is the reading of
the `n`-th call of `Clock.Now().UTC()` made by the operation. -/
def produceItem (c : Codec) (now : Nat → Time) (st : ProduceState) (item : Item) :
    Item × ProduceState :=
  let uid := st.uid.Next
  let item := { item with ID := stringBytes uid.String, CreatedAt := now st.tick }
  (item, { uid := uid, tick := st.tick + 1,
           bucket := Bucket.Put st.bucket item.ID (c.encode item) })

/-- The loop `for _, item := range r.Items`; the items are pointers, so the caller sees
the stamped items. -/
def produceItems (c : Codec) (now : Nat → Time) : List Item → ProduceState →
    List Item × ProduceState
  | [], st => ([], st)
  | item :: rest, st =>
    let r := produceItem c now st item
    let rs := produceItems c now rest r.2
    (r.1 :: rs.1, rs.2)

/-- The loop `for _, r := range batch.Requests`. -/
def produceRequests (c : Codec) (now : Nat → Time) : List ProduceRequest → ProduceState →
    List ProduceRequest × ProduceState
  | [], st => ([], st)
  | r :: rest, st =>
    let ri := produceItems c now r.Items st
    let rs := produceRequests c now rest ri.2
    ({ Items := ri.1 } :: rs.1, rs.2)

/-- What a call of `Produce` leaves behind: the error returned, the partition and the
requests of the batch. -/
structure ProduceResult where
  err : Option Error
  partition : BoltPartition
  requests : List ProduceRequest
  deriving DecidableEq, Repr

/-- `BoltPartition.Produce`. -/
def BoltPartition.Produce (c : Codec) (now : Nat → Time) (b : BoltPartition)
    (batch : Batch ProduceRequest) : ProduceResult :=
  match b.db.Bucket with
  | none => { err := some errNoBucket, partition := b, requests := batch.Requests }
  | some bucket =>
    let r := produceRequests c now batch.Requests { uid := b.uid, tick := 0, bucket := bucket }
    { err := none, partition := { uid := r.2.uid, db := { queue := some r.2.bucket } },
      requests := r.1 }

/-! ## Reserve -/

/-- `store.ReserveOptions`. -/
structure ReserveOptions where
  ReserveDeadline : Time
  Limit : Int
  deriving DecidableEq, Repr

/-- `types.ReserveBatch` is declared in a file that is not at hand, so its iterator is a
parameter of the model: `Iterator` is the state of the iterator that `batch.Iterator()`
returns and `Next` is `batchIter.Next(item)`, which answers whether it took the item and
moves to a new state. `Total` is the field `batch.Total`. -/
structure ReserveBatch (σ : Type) where
  Total : Int
  Iterator : σ
  Next : σ → Item → Bool × σ

/-- The variables of the loop of `Reserve`: the working bucket, the iterator, `count`, and
the calls of `batchIter.Next` made so far, each with its answer. -/
structure ReserveState (σ : Type) where
  bucket : Bucket
  iter : σ
  count : Int
  handed : List (Item × Bool)

/-- The assignments `item.ReserveDeadline = opts.ReserveDeadline; item.IsReserved = true`. -/
def Item.reserve (item : Item) (deadline : Time) : Item :=
  { item with ReserveDeadline := deadline, IsReserved := true }

/-- The loop `for k, v := c.First(); k != nil; k, v = c.Next()` of `Reserve`, over the
entries the cursor has still to visit: the error the body returns, if any, and the
variables as the loop leaves them. -/
def reserveLoop {σ : Type} (c : Codec) (batch : ReserveBatch σ) (opts : ReserveOptions) :
    List (Bytes × Bytes) → ReserveState σ → Option Error × ReserveState σ
  | [], st => (none, st)
  | (_, v) :: rest, st =>
    if st.count ≥ batch.Total then (none, st)
    else
      match c.decode v with
      | none => (some errDecode, st)
      | some item =>
        if item.IsReserved then reserveLoop c batch opts rest st
        else
          let item := item.reserve opts.ReserveDeadline
          let count := st.count + 1
          let r := batch.Next st.iter item
          if r.1 then
            reserveLoop c batch opts rest
              { bucket := Bucket.Put st.bucket item.ID (c.encode item), iter := r.2,
                count := count, handed := st.handed ++ [(item, true)] }
          else
            (none, { bucket := st.bucket, iter := r.2, count := count,
                     handed := st.handed ++ [(item, false)] })

/-- What a call of `Reserve` leaves behind: the error returned, the engine file, the
iterator, and the calls of `batchIter.Next` in the order they were made. -/
structure ReserveResult (σ : Type) where
  err : Option Error
  db : DB
  iter : σ
  handed : List (Item × Bool)

/-- The items the iterator took, in the order it took them. -/
def ReserveResult.accepted {σ : Type} (r : ReserveResult σ) : List Item :=
  (r.handed.filter (fun h => h.2)).map (fun h => h.1)

/-- `BoltPartition.Reserve`: the loop runs in one write transaction (`db.Update`), which
commits the working bucket when the loop returns no error and rolls back otherwise. The
iterator lives in memory and keeps what it was handed either way. -/
def BoltPartition.Reserve {σ : Type} (c : Codec) (b : BoltPartition) (batch : ReserveBatch σ)
    (opts : ReserveOptions) : ReserveResult σ :=
  match b.db.Bucket with
  | none => { err := some errNoBucket, db := b.db, iter := batch.Iterator, handed := [] }
  | some bucket =>
    let r := reserveLoop c batch opts bucket
      { bucket := bucket, iter := batch.Iterator, count := 0, handed := [] }
    match r.1 with
    | some e => { err := some e, db := b.db, iter := r.2.iter, handed := r.2.handed }
    | none => { err := none, db := { queue := some r.2.bucket }, iter := r.2.iter,
                handed := r.2.handed }

/-! ## Complete -/

/-- `types.CompleteRequest`, with the fields the store reads and writes. -/
structure CompleteRequest where
  Ids : List Bytes
  Err : Option Error
  deriving DecidableEq, Repr

/-- The error recorded on a request whose id does not pass `validateID`. -/
def errInvalidID : Error := Error.InvalidOption "invalid storage id"

/-- The error recorded on a request whose id is not in the bucket. -/
def errNotExist : Error := Error.InvalidOption "invalid storage id; does not exist"

/-- The error recorded on a request whose item is not reserved. -/
def errNotReserved : Error :=
  Error.Conflict "item(s) cannot be completed; not marked as reserved"

/-- The inner loop of `Complete`, `for _, id := range batch.Requests[i].Ids`, on the working
bucket. `.error e` is the `return` of an internal error; `.ok (bucket, perr)` is the
end of the loop, either through `continue nextBatch` with the error `perr` that was
assigned to the request or by running out of ids. -/
def completeIds (c : Codec) : List Bytes → Bucket → Except Error (Bucket × Option Error)
  | [], bucket => .ok (bucket, none)
  | id :: rest, bucket =>
    match BoltPartition.validateID id with
    | some _ => .ok (bucket, some errInvalidID)
    | none =>
      match Bucket.Get bucket id with
      | none => .ok (bucket, some errNotExist)
      | some value =>
        match c.decode value with
        | none => .error errDecode
        | some item =>
          if !item.IsReserved then .ok (bucket, some errNotReserved)
          else completeIds c rest (Bucket.Delete bucket id)

/-- The outer loop of `Complete`, `for i := range batch.Requests`: the internal error that
ended it (if any), the working bucket and the requests with their `Err` fields. -/
def completeRequests (c : Codec) : List CompleteRequest → Bucket →
    Option Error × Bucket × List CompleteRequest
  | [], bucket => (none, bucket, [])
  | r :: rest, bucket =>
    match completeIds c r.Ids bucket with
    | .error e => (some e, bucket, r :: rest)
    | .ok (bucket1, perr) =>
      let r1 : CompleteRequest :=
        match perr with
        | some e => { r with Err := some e }
        | none => r
      let rs := completeRequests c rest bucket1
      (rs.1, rs.2.1, r1 :: rs.2.2)

/-- What a call of `Complete` leaves behind: the error returned, the engine file and the
requests of the batch. -/
structure CompleteResult where
  err : Option Error
  db : DB
  requests : List CompleteRequest
  deriving DecidableEq, Repr

/-- `BoltPartition.Complete`: the loops run in one write transaction, committed when they
end without an internal error and rolled back otherwise; the `Err` fields are written
in memory and stay written either way. -/
def BoltPartition.Complete (c : Codec) (b : BoltPartition) (batch : Batch CompleteRequest) :
    CompleteResult :=
  match b.db.Bucket with
  | none => { err := some errNoBucket, db := b.db, requests := batch.Requests }
  | some bucket =>
    let r := completeRequests c batch.Requests bucket
    match r.1 with
    | some e => { err := some e, db := b.db, requests := r.2.2 }
    | none => { err := none, db := { queue := some r.2.1 }, requests := r.2.2 }

/-! ## Stats -/

/-- Go `time.Duration`: a signed 64-bit count of nanoseconds. -/
abbrev Duration := Int

/-- Two-complement wrap-around of a 64-bit signed integer. -/
def wrapInt64 (x : Int) : Int := (x + 2 ^ 63) % 2 ^ 64 - 2 ^ 63

/-- `Time.Sub`: the difference `t - u`, saturated to the range of a `Duration`. -/
def Time.Sub (t u : Time) : Duration :=
  if t - u > 2 ^ 63 - 1 then 2 ^ 63 - 1
  else if t - u < -(2 ^ 63) then -(2 ^ 63)
  else t - u

/-- `types.QueueStats`. -/
structure QueueStats where
  Total : Int
  TotalReserved : Int
  AverageAge : Duration
  AverageReservedAge : Duration
  ProduceWaiting : Int
  ReserveWaiting : Int
  CompleteWaiting : Int
  ReserveBlocked : Int
  deriving DecidableEq, Repr

/-- The body of the loop of `Stats` for one decoded item. -/
def statsItem (now : Time) (stats : QueueStats) (item : Item) : QueueStats :=
  let stats := { stats with
    Total := wrapInt64 (stats.Total + 1),
    AverageAge := wrapInt64 (stats.AverageAge + Time.Sub now item.CreatedAt) }
  if item.IsReserved then
    { stats with
      AverageReservedAge := wrapInt64 (stats.AverageReservedAge + Time.Sub item.ReserveDeadline now),
      TotalReserved := wrapInt64 (stats.TotalReserved + 1) }
  else stats

/-- The loop `for k, v := c.First(); k != nil; k, v = c.Next()` of `Stats`. -/
def statsLoop (c : Codec) (now : Time) : List (Bytes × Bytes) → QueueStats →
    Option Error × QueueStats
  | [], stats => (none, stats)
  | (_, v) :: rest, stats =>
    match c.decode v with
    | none => (some errDecode, stats)
    | some item => statsLoop c now rest (statsItem now stats item)

/-- The two divisions that end `Stats`. -/
def statsAverages (stats : QueueStats) : QueueStats :=
  let stats := if stats.Total ≠ 0 then
      { stats with AverageAge := wrapInt64 (Int.tdiv stats.AverageAge stats.Total) }
    else stats
  if stats.TotalReserved ≠ 0 then
    { stats with
      AverageReservedAge := wrapInt64 (Int.tdiv stats.AverageReservedAge stats.TotalReserved) }
  else stats

/-- `BoltPartition.Stats`, in a read transaction; `now` is the reading of
`Clock.Now().UTC()` taken on entry and `stats` the record the caller passes in. -/
def BoltPartition.Stats (c : Codec) (now : Time) (b : BoltPartition) (stats : QueueStats) :
    Option Error × QueueStats :=
  match b.db.Bucket with
  | none => (some errNoBucket, stats)
  | some bucket =>
    let r := statsLoop c now bucket stats
    match r.1 with
    | some e => (some e, r.2)
    | none => (none, statsAverages r.2)

/-! ## Add, Delete, Clear -/

/-- What a call of `Add` leaves behind: the error returned, the partition and the items,
which the caller holds by pointer. -/
structure AddResult where
  err : Option Error
  partition : BoltPartition
  items : List Item
  deriving DecidableEq, Repr

/-- `BoltPartition.Add`: the loop of `Produce` over a flat list of items. -/
def BoltPartition.Add (c : Codec) (now : Nat → Time) (b : BoltPartition) (items : List Item) :
    AddResult :=
  match b.db.Bucket with
  | none => { err := some errNoBucket, partition := b, items := items }
  | some bucket =>
    let r := produceItems c now items { uid := b.uid, tick := 0, bucket := bucket }
    { err := none, partition := { uid := r.2.uid, db := { queue := some r.2.bucket } },
      items := r.1 }

/-- The loop `for _, id := range ids` of `Delete`: an id that does not pass `validateID`
ends the transaction with an error. -/
def deleteLoop : List Bytes → Bucket → Except Error Bucket
  | [], bucket => .ok bucket
  | id :: rest, bucket =>
    match BoltPartition.validateID id with
    | some _ => .error errInvalidID
    | none => deleteLoop rest (Bucket.Delete bucket id)

/-- `BoltPartition.Delete`, in one write transaction: the error returned and the engine
file. -/
def BoltPartition.Delete (b : BoltPartition) (ids : List Bytes) : Option Error × DB :=
  match b.db.Bucket with
  | none => (some errNoBucket, b.db)
  | some bucket =>
    match deleteLoop ids bucket with
    | .error e => (some e, b.db)
    | .ok bucket1 => (none, { queue := some bucket1 })

/-- The loop of the non-destructive `Clear` over the entries the cursor has still to
visit: reserved items are skipped, the others deleted. -/
def clearLoop (c : Codec) : List (Bytes × Bytes) → Bucket → Except Error Bucket
  | [], bucket => .ok bucket
  | (k, v) :: rest, bucket =>
    match c.decode v with
    | none => .error errDecode
    | some item =>
      if item.IsReserved then clearLoop c rest bucket
      else clearLoop c rest (Bucket.Delete bucket k)

/-- `BoltPartition.Clear`, in one write transaction. The destructive form deletes the
bucket, which fails when there is none, and creates it again. -/
def BoltPartition.Clear (c : Codec) (b : BoltPartition) (destructive : Bool) :
    Option Error × DB :=
  if destructive then
    match b.db.queue with
    | none => (some (Error.Internal "during destructive DeleteBucket()"), b.db)
    | some _ => (none, { queue := some [] })
  else
    match b.db.Bucket with
    | none => (some errNoBucket, b.db)
    | some bucket =>
      match clearLoop c bucket bucket with
      | .error e => (some e, b.db)
      | .ok bucket1 => (none, { queue := some bucket1 })

/-- The partitions reachable through the operations of the store: a partition opened on
a new file has an empty `queue` bucket, and each operation leads from a reachable
partition to the one it leaves behind. -/
inductive Reachable (c : Codec) : BoltPartition → Prop
  | fresh (uid : KSUID) : Reachable c { uid := uid, db := { queue := some [] } }
  | produce {b : BoltPartition} (now : Nat → Time) (batch : Batch ProduceRequest) :
      Reachable c b → Reachable c (BoltPartition.Produce c now b batch).partition
  | add {b : BoltPartition} (now : Nat → Time) (items : List Item) :
      Reachable c b → Reachable c (BoltPartition.Add c now b items).partition
  | reserve {σ : Type} {b : BoltPartition} (batch : ReserveBatch σ) (opts : ReserveOptions) :
      Reachable c b →
      Reachable c { uid := b.uid, db := (BoltPartition.Reserve c b batch opts).db }
  | complete {b : BoltPartition} (batch : Batch CompleteRequest) :
      Reachable c b →
      Reachable c { uid := b.uid, db := (BoltPartition.Complete c b batch).db }
  | delete {b : BoltPartition} (ids : List Bytes) :
      Reachable c b → Reachable c { uid := b.uid, db := (BoltPartition.Delete b ids).2 }
  | clear {b : BoltPartition} (destructive : Bool) :
      Reachable c b →
      Reachable c { uid := b.uid, db := (BoltPartition.Clear c b destructive).2 }

/-! ## A plain codec

A length-prefixed encoding of items, used to run the operations on concrete partitions. -/

namespace plain

/-- An integer as one number: even for the non-negative ones, odd for the negative. -/
def putInt : Int → Nat
  | Int.ofNat n => 2 * n
  | Int.negSucc n => 2 * n + 1

/-- Inverse of `putInt`. -/
def getInt (n : Nat) : Int :=
  if n % 2 = 0 then Int.ofNat (n / 2) else Int.negSucc (n / 2)

/-- A byte sequence, preceded by its length and followed by `tail`. -/
def putBytes (b : Bytes) (tail : Bytes) : Bytes := b.length :: (b ++ tail)

/-- Read a length-prefixed byte sequence and return it with what follows it. -/
def getBytes : Bytes → Option (Bytes × Bytes)
  | [] => none
  | n :: rest => if n ≤ rest.length then some (rest.take n, rest.drop n) else none

/-- A text, as its length-prefixed characters. -/
def putString (s : String) (tail : Bytes) : Bytes := putBytes (s.toList.map Char.toNat) tail

/-- Read a length-prefixed text and return it with what follows it. -/
def getString (b : Bytes) : Option (String × Bytes) :=
  match getBytes b with
  | some (x, rest) => some (String.mk (x.map Char.ofNat), rest)
  | none => none

/-- The fields of the item, one after the other. -/
def encode (item : Item) : Bytes :=
  putBytes item.ID
    ((if item.IsReserved then 1 else 0) :: putInt item.ReserveDeadline ::
      putInt item.DeadDeadline :: putInt item.Attempts :: putInt item.MaxAttempts ::
      putString item.Reference (putString item.Encoding (putString item.Kind
        (putBytes item.Payload [putInt item.CreatedAt]))))

/-- Read back the fields written by `encode`; anything else is rejected. -/
def decode (b : Bytes) : Option Item :=
  match getBytes b with
  | some (id, r :: rd :: dd :: att :: mx :: b1) =>
    match getString b1 with
    | some (ref, b2) =>
      match getString b2 with
      | some (enc, b3) =>
        match getString b3 with
        | some (kind, b4) =>
          match getBytes b4 with
          | some (payload, [ca]) =>
            some { ID := id, IsReserved := decide (r = 1), ReserveDeadline := getInt rd,
                   DeadDeadline := getInt dd, Attempts := getInt att, MaxAttempts := getInt mx,
                   Reference := ref, Encoding := enc, Kind := kind, Payload := payload,
                   CreatedAt := getInt ca }
          | _ => none
        | none => none
      | none => none
    | none => none
  | _ => none

end plain

/-- The plain codec: `plain.decode` reads back what `plain.encode` wrote. -/
def plainCodec : Codec where
  encode := plain.encode
  decode := plain.decode
  decode_encode := by
    have hb : ∀ b tail : Bytes, plain.getBytes (plain.putBytes b tail) = some (b, tail) := by
      intro b tail
      simp [plain.getBytes, plain.putBytes]
    have hs : ∀ (s : String) (tail : Bytes),
        plain.getString (plain.putString s tail) = some (s, tail) := by
      intro s tail
      simp [plain.getString, plain.putString, hb, Function.comp_def]
    have hi : ∀ z : Int, plain.getInt (plain.putInt z) = z := by
      intro z
      cases z with
      | ofNat n => simp [plain.getInt, plain.putInt]
      | negSucc n =>
        have h1 : (2 * n + 1) % 2 = 1 := by omega
        have h2 : (2 * n + 1) / 2 = n := by omega
        simp [plain.getInt, plain.putInt, h1, h2]
    intro item
    cases item with
    | mk id r rd dd att mx ref enc kind payload ca =>
      cases r <;> simp [plain.encode, plain.decode, hb, hs, hi]

/-! ## Partition states and the vocabulary of the properties -/

/-- The entry holds the encoding of an item whose id is the key of the entry. -/
def entryOK (c : Codec) (kv : Bytes × Bytes) : Bool :=
  match c.decode kv.2 with
  | some item => decide (item.ID = kv.1)
  | none => false

/-- A partition state: the keys of the bucket are strictly ascending (the engine keeps
them so) and every entry holds an item filed under its own id. -/
def Bucket.WF (c : Codec) (b : Bucket) : Prop :=
  (b.map Prod.fst).Pairwise (fun x y => x < y) ∧ ∀ kv ∈ b, entryOK c kv = true

/-- The engine file of the partition has its `queue` bucket, and the bucket is a
partition state. -/
def BoltPartition.WF (c : Codec) (b : BoltPartition) : Prop :=
  ∃ bucket, b.db.queue = some bucket ∧ Bucket.WF c bucket

/-- The entry holds an item that is not reserved. -/
def isUnreserved (c : Codec) (kv : Bytes × Bytes) : Bool :=
  match c.decode kv.2 with
  | some item => !item.IsReserved
  | none => false

/-- The entry holds an item that is reserved. -/
def isReserved (c : Codec) (kv : Bytes × Bytes) : Bool :=
  match c.decode kv.2 with
  | some item => item.IsReserved
  | none => false

/-- The first `n` unreserved entries of the bucket, in key order. -/
def firstUnreserved (c : Codec) (b : Bucket) (n : Nat) : List (Bytes × Bytes) :=
  (b.filter (isUnreserved c)).take n

/-- The value that `Reserve` writes over `v`: the item of `v` with the reservation flag
set and the deadline replaced. -/
def reservedValue (c : Codec) (deadline : Time) (v : Bytes) : Bytes :=
  match c.decode v with
  | some item => c.encode (item.reserve deadline)
  | none => v

/-- The bucket with its first `n` unreserved entries overwritten by `reservedValue`. -/
def markFirst (c : Codec) (deadline : Time) : List (Bytes × Bytes) → Nat → List (Bytes × Bytes)
  | [], _ => []
  | (k, v) :: rest, n =>
    if isUnreserved c (k, v) then
      match n with
      | 0 => (k, v) :: rest
      | m + 1 => (k, reservedValue c deadline v) :: markFirst c deadline rest m
    else (k, v) :: markFirst c deadline rest n

/-- The items of the first `n` unreserved entries, as `Reserve` presents them to the
iterator: flag set, deadline replaced. -/
def offered (c : Codec) (deadline : Time) (b : Bucket) (n : Nat) : List Item :=
  (firstUnreserved c b n).filterMap
    (fun kv => (c.decode kv.2).map (fun item => item.reserve deadline))

/-- The iterator takes each of the next `n` items it is offered, whatever they are. -/
def acceptsFirst {σ : Type} (next : σ → Item → Bool × σ) : Nat → σ → Prop
  | 0, _ => True
  | n + 1, s => ∀ item, (next s item).1 = true ∧ acceptsFirst next n (next s item).2

/-- The entries of `before` that hold an unreserved item and whose key holds a reserved
item in `after`: the items that went from unreserved to reserved. -/
def becameReserved (c : Codec) (before after : Bucket) : List (Bytes × Bytes) :=
  before.filter (fun kv => isUnreserved c kv &&
    match Bucket.Get after kv.1 with
    | some v => isReserved c (kv.1, v)
    | none => false)

instance (c : Codec) (b : Bucket) : Decidable (Bucket.WF c b) := by
  unfold Bucket.WF
  infer_instance

/-! ## Sample data -/

/-- An item with the given id, reservation flag and reference, and nothing else set. -/
def sampleItem (id : Bytes) (reserved : Bool) (ref : String) : Item :=
  { ID := id, IsReserved := reserved, ReserveDeadline := 0, DeadDeadline := 0, Attempts := 0,
    MaxAttempts := 0, Reference := ref, Encoding := "", Kind := "", Payload := [],
    CreatedAt := 0 }

/-- The entry that files `sampleItem id reserved ref` under `id` with the plain codec. -/
def sampleEntry (id : Bytes) (reserved : Bool) (ref : String) : Bytes × Bytes :=
  (id, plainCodec.encode (sampleItem id reserved ref))

/-- Three items: `a` and `c` unreserved, `b` reserved. -/
def sampleBucket : Bucket :=
  [sampleEntry [1] false "a", sampleEntry [2] true "b", sampleEntry [3] false "c"]

/-- A partition holding `sampleBucket`. -/
def samplePartition : BoltPartition :=
  { uid := { timestamp := 0, payload := 0 }, db := { queue := some sampleBucket } }

/-- A batch with the given total whose iterator has `slots` free slots and takes an item
while one is free. -/
def slotBatch (total : Int) (slots : Nat) : ReserveBatch Nat :=
  { Total := total, Iterator := slots, Next := fun s _ => (decide (0 < s), s - 1) }

/-- A partition opened on a new file, after one `Produce` of three items. -/
def producedPartition : BoltPartition :=
  (BoltPartition.Produce plainCodec (fun n => (n : Int))
    { uid := { timestamp := 0, payload := 0 }, db := { queue := some [] } }
    { Requests := [{ Items := [sampleItem [] false "a", sampleItem [] false "b",
                               sampleItem [] false "c"] }] }).partition

/-! ## The vocabulary of the properties of `Complete` -/

/-- Every value of the bucket decodes. -/
def Bucket.Decodable (c : Codec) (b : Bucket) : Prop :=
  ∀ kv ∈ b, (c.decode kv.2).isSome = true

instance (c : Codec) (b : Bucket) : Decidable (Bucket.Decodable c b) := by
  unfold Bucket.Decodable
  infer_instance

/-- How an id stands with respect to a bucket: ill-formed (it does not pass `validateID`),
well-formed but absent, present but not reserved, or completable. -/
inductive IdStatus where
  | illFormed
  | absent
  | notReserved
  | completable
  deriving DecidableEq, Repr

/-- The standing of `id` in bucket `b`. -/
def idStatus (c : Codec) (b : Bucket) (id : Bytes) : IdStatus :=
  match BoltPartition.validateID id with
  | some _ => IdStatus.illFormed
  | none =>
    match Bucket.Get b id with
    | none => IdStatus.absent
    | some v => if isReserved c (id, v) then IdStatus.completable else IdStatus.notReserved

/-- The error kind that goes with each standing: invalid option for an ill-formed id and
for an absent one, conflict for an item that is not reserved. -/
def IdStatus.error : IdStatus → Option Error
  | IdStatus.illFormed => some errInvalidID
  | IdStatus.absent => some errNotExist
  | IdStatus.notReserved => some errNotReserved
  | IdStatus.completable => none

/-- The bucket with the entries of the given ids removed, one after the other. -/
def deleteAll (b : Bucket) (ids : List Bytes) : Bucket :=
  ids.foldl Bucket.Delete b

/-- Each id of the list is completable when its turn comes, that is in the bucket from
which the ids before it have been removed. -/
def allCompletable (c : Codec) (b : Bucket) (ids : List Bytes) : Prop :=
  ∀ pre id post, ids = pre ++ id :: post → idStatus c (deleteAll b pre) id = IdStatus.completable

/-- The ids of a request that get completed: the longest run of completable ids at the
head of the list, the standing of each id being taken when its turn comes. -/
def completedIds (c : Codec) : Bucket → List Bytes → List Bytes
  | _, [] => []
  | b, id :: rest =>
    if idStatus c b id = IdStatus.completable then
      id :: completedIds c (Bucket.Delete b id) rest
    else []

/-- The kind of an error. -/
inductive ErrorKind where
  | invalidOption
  | conflict
  | internal
  | queueNotExist
  deriving DecidableEq, Repr

/-- The kind of an error value. -/
def Error.kind : Error → ErrorKind
  | Error.InvalidOption _ => ErrorKind.invalidOption
  | Error.Conflict _ => ErrorKind.conflict
  | Error.Internal _ => ErrorKind.internal
  | Error.QueueNotExist => ErrorKind.queueNotExist

/-- A 20-byte id ending in `n`. -/
def sampleID (n : Nat) : Bytes := List.replicate 19 0 ++ [n]

/-- Two reserved items filed under 20-byte ids. -/
def sampleBucket20 : Bucket :=
  [sampleEntry (sampleID 1) true "a", sampleEntry (sampleID 2) true "b"]

/-- A partition holding `sampleBucket20`. -/
def samplePartition20 : BoltPartition :=
  { uid := { timestamp := 0, payload := 0 }, db := { queue := some sampleBucket20 } }

/-- The bytes of the text `not-a-ksuid`. -/
def notAKsuid : Bytes := stringBytes "not-a-ksuid"

/-- The ids listed by the requests of a batch, in batch order. -/
def allIds : List CompleteRequest → List Bytes
  | [] => []
  | r :: rest => r.Ids ++ allIds rest

/-- The ids a batch completes: for each request in batch order, its completed ids, the
bucket being the one the requests before it have left. -/
def completedBatch (c : Codec) : Bucket → List CompleteRequest → List Bytes
  | _, [] => []
  | b, r :: rest =>
    completedIds c b r.Ids ++ completedBatch c (deleteAll b (completedIds c b r.Ids)) rest

/-- A stats record with every field zero. -/
def zeroStats : QueueStats :=
  { Total := 0, TotalReserved := 0, AverageAge := 0, AverageReservedAge := 0,
    ProduceWaiting := 0, ReserveWaiting := 0, CompleteWaiting := 0, ReserveBlocked := 0 }

/-- The id `Produce` gives the first item of `producedPartition`: the 27 characters
`000000000000000000000000001`. -/
def producedID1 : Bytes := stringBytes "000000000000000000000000001"

/-- The id `Produce` gives the second item of `producedPartition`. -/
def producedID2 : Bytes := stringBytes "000000000000000000000000002"

/-- The partition `producedPartition` after reserving two items with deadline 7. -/
def reservedPartition : BoltPartition :=
  { uid := producedPartition.uid,
    db := (BoltPartition.Reserve plainCodec producedPartition (slotBatch 2 2)
            { ReserveDeadline := 7, Limit := 0 }).db }

/-- The ids of the items that reserve call handed out. -/
def reservedIds : List Bytes :=
  (BoltPartition.Reserve plainCodec producedPartition (slotBatch 2 2)
    { ReserveDeadline := 7, Limit := 0 }).accepted.map (fun x => x.ID)

/-- The partition `reservedPartition` after `Complete` with the ids handed out. -/
def completedPartition : BoltPartition :=
  { uid := reservedPartition.uid,
    db := (BoltPartition.Complete plainCodec reservedPartition
            { Requests := [{ Ids := reservedIds, Err := none }] }).db }


/-! ## List -/

/-- `types.ListOptions`; a nil pivot is `none`. -/
structure ListOptions where
  Pivot : Option Bytes
  Limit : Int
  deriving DecidableEq, Repr

/-- `Cursor.Seek`: the entries from the first one whose key is not below `key` onwards;
the cursor stands on the head of that list, and on nothing when the list is empty. -/
def Bucket.Seek (b : Bucket) (key : Bytes) : List (Bytes × Bytes) :=
  b.dropWhile (fun kv => decide (kv.1 < key))

/-- The error `List` returns when the seek runs past the last key. -/
def errPivotNotExist : Error := Error.InvalidOption "invalid pivot; does not exist"

/-- The loop `for k, v = c.Next(); k != nil; k, v = c.Next()` of `List`, over the entries
the cursor has still to visit: the error returned, if any, and the output slice. -/
def listLoop (c : Codec) (limit : Int) : List (Bytes × Bytes) → Int → List Item →
    Option Error × List Item
  | [], _, items => (none, items)
  | (_, v) :: rest, count, items =>
    if count ≥ limit then (none, items)
    else
      match c.decode v with
      | none => (some errDecode, items)
      | some item => listLoop c limit rest (count + 1) (items ++ [item])

/-- The body of the read transaction of `List`, from the position the cursor was put on:
the first entry is decoded and appended, then the loop runs. -/
def listFrom (c : Codec) (limit : Int) (start : List (Bytes × Bytes)) (items : List Item) :
    Option Error × List Item :=
  match start with
  | [] => (none, items)
  | (_, v) :: rest =>
    match c.decode v with
    | none => (some errDecode, items)
    | some item => listLoop c limit rest 1 (items ++ [item])

/-- `BoltPartition.List`: the error returned and the output slice `*items`, which the
caller passes in and `List` appends to. -/
def BoltPartition.List (c : Codec) (b : BoltPartition) (items : List Item)
    (opts : ListOptions) : Option Error × List Item :=
  match opts.Pivot with
  | some pivot =>
    match BoltPartition.validateID pivot with
    | some _ => (some errInvalidID, items)
    | none =>
      match b.db.Bucket with
      | none => (some errNoBucket, items)
      | some bucket =>
        match Bucket.Seek bucket pivot with
        | [] => (some errPivotNotExist, items)
        | start => listFrom c opts.Limit start items
  | none =>
    match b.db.Bucket with
    | none => (some errNoBucket, items)
    | some bucket => listFrom c opts.Limit bucket items

/-! ## The vocabulary of the properties of `List`, `Clear`, `Delete` and `Stats` -/

/-- The items held by a list of entries, in the order of the entries. -/
def decodeAll (c : Codec) (l : List (Bytes × Bytes)) : List Item :=
  l.filterMap (fun kv => c.decode kv.2)

/-- The value lies in the range of a signed 64-bit integer. -/
def fitsInt64 (x : Int) : Prop := -(2 ^ 63) ≤ x ∧ x ≤ 2 ^ 63 - 1

instance (x : Int) : Decidable (fitsInt64 x) := by
  unfold fitsInt64
  infer_instance

/-- Each term, and each running sum starting from `acc`, lies in the range of a signed
64-bit integer. -/
def sumsFit : Int → List Int → Prop
  | _, [] => True
  | acc, t :: ts => fitsInt64 t ∧ fitsInt64 (acc + t) ∧ sumsFit (acc + t) ts

instance sumsFitDecidable : ∀ (acc : Int) (l : List Int), Decidable (sumsFit acc l)
  | _, [] => isTrue trivial
  | acc, t :: ts =>
    have := sumsFitDecidable (acc + t) ts
    by unfold sumsFit; infer_instance

/-- The ages `now - created_at` of the items. -/
def ageTerms (now : Time) (items : List Item) : List Int :=
  items.map (fun item => now - item.CreatedAt)

/-- The terms `reserve_deadline - now` of the reserved items. -/
def reservedTerms (now : Time) (items : List Item) : List Int :=
  (items.filter (fun item => item.IsReserved)).map (fun item => item.ReserveDeadline - now)

/-- A partition with one reserved item whose deadline lies `2 ^ 64` nanoseconds in the
past of instant 0. -/
def expiredPartition : BoltPartition :=
  { uid := { timestamp := 0, payload := 0 },
    db := { queue := some [([1], plainCodec.encode
      { sampleItem [1] true "a" with ReserveDeadline := -(2 ^ 64) })] } }

/-- A partition opened on a new file, after one `Produce` of five items. -/
def producedFive : BoltPartition :=
  (BoltPartition.Produce plainCodec (fun n => (n : Int))
    { uid := { timestamp := 0, payload := 0 }, db := { queue := some [] } }
    { Requests := [{ Items := [sampleItem [] false "first", sampleItem [] false "second",
                               sampleItem [] false "third", sampleItem [] false "fourth",
                               sampleItem [] false "fifth"] }] }).partition

/-- The id `Produce` gives the third item of `producedFive`. -/
def producedID3 : Bytes := stringBytes "000000000000000000000000003"


/-- A partition opened on a new file, after one `Produce` of two items at instant 0. -/
def agedPartition : BoltPartition :=
  (BoltPartition.Produce plainCodec (fun _ => 0)
    { uid := { timestamp := 0, payload := 0 }, db := { queue := some [] } }
    { Requests := [{ Items := [sampleItem [] false "a", sampleItem [] false "b"] }] }).partition

/-! ## Sequences of `Produce` and `Add` calls -/

/-- The items of the requests of a batch, in batch order. -/
def allItems : List ProduceRequest → List Item
  | [] => []
  | r :: rest => r.Items ++ allItems rest

/-- A call of `Produce` or of `Add`, with the clock readings it gets. -/
inductive WriteCall where
  | produce (now : Nat → Time) (batch : Batch ProduceRequest)
  | add (now : Nat → Time) (items : List Item)

/-- The items the caller supplies, in the order the call goes through them. -/
def WriteCall.supplied : WriteCall → List Item
  | WriteCall.produce _ batch => allItems batch.Requests
  | WriteCall.add _ items => items

/-- The clock readings of the call. -/
def WriteCall.now : WriteCall → Nat → Time
  | WriteCall.produce now _ => now
  | WriteCall.add now _ => now

/-- One call on the partition: the partition it leaves and the items as the caller sees
them afterwards, in the order the call went through them. -/
def runCall (c : Codec) (b : BoltPartition) : WriteCall → BoltPartition × List Item
  | WriteCall.produce now batch =>
    ((BoltPartition.Produce c now b batch).partition,
      allItems (BoltPartition.Produce c now b batch).requests)
  | WriteCall.add now items =>
    ((BoltPartition.Add c now b items).partition, (BoltPartition.Add c now b items).items)

/-- A sequence of calls on the partition: the partition it leaves and the ids the calls
assigned, in the order they were assigned. -/
def runCalls (c : Codec) : BoltPartition → List WriteCall → BoltPartition × List Bytes
  | b, [] => (b, [])
  | b, w :: ws =>
    ((runCalls c (runCall c b w).1 ws).1,
      (runCall c b w).2.map (fun x => x.ID) ++ (runCalls c (runCall c b w).1 ws).2)

/-- The number of items a sequence of calls supplies. -/
def suppliedCount : List WriteCall → Nat
  | [] => 0
  | w :: ws => w.supplied.length + suppliedCount ws

/-- The stored item `y` has the fields the caller supplied in `x`; the id and the
creation time are the store's to set. -/
def Item.sameSupplied (x y : Item) : Prop :=
  y.Reference = x.Reference ∧ y.Encoding = x.Encoding ∧ y.Kind = x.Kind ∧
  y.Payload = x.Payload ∧ y.Attempts = x.Attempts ∧ y.MaxAttempts = x.MaxAttempts ∧
  y.DeadDeadline = x.DeadDeadline ∧ y.IsReserved = x.IsReserved ∧
  y.ReserveDeadline = x.ReserveDeadline

/-- A partition opened on a new file, with its counter at zero. -/
def freshPartition : BoltPartition :=
  { uid := { timestamp := 0, payload := 0 }, db := { queue := some [] } }

/-- Two calls: a `Produce` of the items `a` and `b`, then an `Add` of the item `c`. -/
def sampleCalls : List WriteCall :=
  [WriteCall.produce (fun n => (n : Int))
      { Requests := [{ Items := [sampleItem [] false "a"] }, { Items := [sampleItem [] false "b"] }] },
   WriteCall.add (fun n => (n : Int) + 5) [sampleItem [] true "c"]]


/-! ## The item comparison of the public store package (`store/store.go`) -/

/-- `time.Time.Compare`: the two instants compared, `-1`, `0` or `+1`. -/
def Time.Compare (t u : Time) : Int :=
  if t < u then -1 else if u < t then 1 else 0

/-- `bytes.Equal`: the two slices have the same length and the same bytes; a nil slice
(`none`) is equal to an empty one. -/
def bytes.Equal (a b : Option Bytes) : Bool :=
  decide (a.getD [] = b.getD [])

/-- `store.QueueItem`; `Body` is `none` for a nil slice. -/
structure QueueItem where
  ID : String
  IsReserved : Bool
  ReserveDeadline : Time
  DeadDeadline : Time
  Attempts : Int
  MaxAttempts : Int
  Reference : String
  Encoding : String
  Kind : String
  Body : Option Bytes
  deriving DecidableEq, Repr

/-- `QueueItem.Compare`, test by test in the order of the source. -/
def QueueItem.Compare (l r : QueueItem) : Bool :=
  if l.ID ≠ r.ID then false
  else if l.IsReserved ≠ r.IsReserved then false
  else if Time.Compare l.DeadDeadline r.DeadDeadline ≠ 0 then false
  else if Time.Compare l.ReserveDeadline r.ReserveDeadline ≠ 0 then false
  else if l.Attempts ≠ r.Attempts then false
  else if l.Reference ≠ r.Reference then false
  else if l.Encoding ≠ r.Encoding then false
  else if l.Kind ≠ r.Kind then false
  else if l.Body ≠ none ∧ bytes.Equal l.Body r.Body = false then false
  else true

/-- An item with the given body, every other field fixed. -/
def sampleQueueItem (body : Option Bytes) : QueueItem :=
  { ID := "id-1", IsReserved := false, ReserveDeadline := 0, DeadDeadline := 0, Attempts := 0,
    MaxAttempts := 0, Reference := "ref", Encoding := "", Kind := "", Body := body }

/-! ## The storage ids of the mock backend (`internal/store/mock.go`) -/

/-- The byte `~`. -/
def tilde : Nat := 126

/-- `bytes.Split(s, sep)` for a separator of one byte, as `ParseID` calls it: the pieces
of `s` between the occurrences of `sep`, one more than there are occurrences. -/
def bytes.Split : Bytes → Nat → List Bytes
  | [], _ => [[]]
  | x :: rest, sep =>
    if x = sep then [] :: bytes.Split rest sep
    else
      match bytes.Split rest sep with
      | [] => [[x]]
      | p :: ps => (x :: p) :: ps

/-- `StorageID`, with the two fields `ParseID` assigns: the queue name, a Go string held
as its bytes, and the id within the queue. -/
structure StorageID where
  Queue : Bytes
  ID : Bytes
  deriving DecidableEq, Repr

/-- The error of `ParseID`. -/
def errStorageIDFormat : String := "expected format <queue_name>~<storage_id>"

/-- `MockBackend.ParseID`: the error, if any, and `*id` as the call leaves it. -/
def MockBackend.ParseID (parse : Bytes) (id : StorageID) : Option String × StorageID :=
  match bytes.Split parse tilde with
  | [p0, p1] => (none, { Queue := p0, ID := p1 })
  | _ => (some errStorageIDFormat, id)

/-- `MockBackend.BuildStorageID`: `append([]byte(queue+"~"), id...)`. -/
def MockBackend.BuildStorageID (queue : Bytes) (id : Bytes) : Bytes :=
  (queue ++ [tilde]) ++ id

/-! ## The engine files -/

/-- Modelled from the spec: `types.PartitionInfo` is declared in a file that is not at
hand; a partition is identified by its queue name, a Go string held as its bytes, and its
partition index, under the names `getDB` reads them by. -/
structure PartitionInfo where
  QueueName : Bytes
  Partition : Int
  deriving DecidableEq, Repr

/-- The decimal digits of `n` written in front of `acc`, each as its ASCII byte; the first
argument bounds the number of digits. -/
def fmt.digitsAux : Nat → Nat → Bytes → Bytes
  | 0, _, acc => acc
  | fuel + 1, n, acc =>
    if n = 0 then acc else fmt.digitsAux fuel (n / 10) ((n % 10 + 48) :: acc)

/-- The decimal digits of `n`, most significant first, as ASCII bytes; no digit for `0`. -/
def fmt.digits (n : Nat) : Bytes := fmt.digitsAux n n []

/-- The number a run of decimal digits stands for. -/
def fmt.value (l : Bytes) : Nat := l.foldl (fun acc d => acc * 10 + (d - 48)) 0

/-- The digits of `n` padded with `0` on the left to at least `width` digits. -/
def fmt.zeroPad (width n : Nat) : Bytes :=
  List.replicate (width - (fmt.digits n).length) 48 ++ fmt.digits n

/-- The verb `%06d` of `fmt.Sprintf`: the number in decimal, padded with zeros to six
characters, the sign of a negative number counting as one of the six. -/
def fmt.d06 (n : Int) : Bytes :=
  if n < 0 then 45 :: fmt.zeroPad 5 n.natAbs else fmt.zeroPad 6 n.toNat

/-- The name of the engine file of a partition:
`fmt.Sprintf("%s-%06d.db", b.info.QueueName, b.info.Partition)`. -/
def BoltPartition.fileName (info : PartitionInfo) : Bytes :=
  info.QueueName ++ [45] ++ fmt.d06 info.Partition ++ stringBytes ".db"

/-- The name of the engine file of the queue registry. -/
def BoltQueueStore.fileName : Bytes := stringBytes "~queue-storage.db"

/-! ## Lazy open -/

deriving instance DecidableEq for Except

/-- What `bolt.Open` finds at the path of an engine file: no file, something it cannot
open (the lock is not acquired in time, an I/O error, not an engine file), or an engine
file with its content. -/
inductive FileState where
  | absent
  | unusable (err : String)
  | present (db : DB)
  deriving DecidableEq, Repr

/-- `bolt.Open(file, 0600, opts)`: the handle on the file, a file that does not exist
being created without any bucket. -/
def bolt.Open : FileState → Except String DB
  | FileState.absent => .ok { queue := none }
  | FileState.unusable err => .error err
  | FileState.present db => .ok db

/-- The engine error `bolt.ErrBucketExists`. -/
def bolt.ErrBucketExists : String := "bucket already exists"

/-- `tx.CreateBucket(bucketName)` in a write transaction: `ErrBucketExists` when the file
has the bucket, the file with the bucket, empty, otherwise. -/
def bolt.CreateBucket (db : DB) : Except String DB :=
  match db.queue with
  | some _ => .error bolt.ErrBucketExists
  | none => .ok { queue := some [] }

/-- The error of `getDB` when `bolt.Open` fails, wrapping the cause. -/
def errOpeningDB (cause : String) : Error := Error.Internal ("while opening db: " ++ cause)

/-- The error of `getDB` when the transaction that creates the bucket fails, wrapping the
cause (`%w`). -/
def errCreatingBucket (cause : String) : Error :=
  Error.Internal ("while creating bucket: " ++ cause)

/-- `BoltPartition.getDB`: `db` is the field `b.db` (`none` for nil), `file` is what is at
the path of the partition. The result is the handle or the error, then `b.db` and the file
as the call leaves them; the transaction that fails is rolled back. -/
def BoltPartition.getDB (db : Option DB) (file : FileState) :
    Except Error DB × Option DB × FileState :=
  match db with
  | some d => (.ok d, some d, file)
  | none =>
    match bolt.Open file with
    | .error err => (.error (errOpeningDB err), none, file)
    | .ok d =>
      match bolt.CreateBucket d with
      | .error err => (.error (errCreatingBucket err), none, FileState.present d)
      | .ok d1 => (.ok d1, some d1, FileState.present d1)

/-- An operation called on a partition instance: every operation starts with
`db, err := b.getDB()` and returns `err` when it is not nil, before anything else; otherwise
it goes on with the handle, as `op` does on the opened partition. The result is the error
and what the operation returns when it gets to run. -/
def BoltPartition.call {α : Type} (uid : KSUID) (db : Option DB) (file : FileState)
    (op : BoltPartition → Option Error × α) : Option Error × Option α :=
  match (BoltPartition.getDB db file).1 with
  | .error err => (some err, none)
  | .ok d =>
    let r := op { uid := uid, db := d }
    (r.1, some r.2)

/-- `BoltQueueStore.getDB`: as for a partition, except that `ErrBucketExists` from the
creation of the bucket is let through; the receiver is a copy, so that the handle is
returned and not kept. -/
def BoltQueueStore.getDB (db : Option DB) (file : FileState) : Except Error DB × FileState :=
  match db with
  | some d => (.ok d, file)
  | none =>
    match bolt.Open file with
    | .error err => (.error (errOpeningDB err), file)
    | .ok d =>
      match bolt.CreateBucket d with
      | .error err =>
        if err ≠ bolt.ErrBucketExists then (.error (errCreatingBucket err), FileState.present d)
        else (.ok d, FileState.present d)
      | .ok d1 => (.ok d1, FileState.present d1)

/-! ## The queue registry (`BoltQueueStore`) -/

/-- Modelled from the spec: `types.QueueInfo` is declared in a file that is not at hand;
its fields are the rows of the `QueueInfo` table of the data model: the name, a Go string
held as its bytes, the two timeouts, and the fields the table calls opaque carry-through
(partition count, dead-letter target, retry policy), held as one opaque value. -/
structure QueueInfo where
  Name : Bytes
  ReserveTimeout : Duration
  DeadTimeout : Duration
  Carried : Bytes
  deriving DecidableEq, Repr

/-- Modelled from the spec: `QueueInfo.Update` is declared in a file that is not at hand;
the spec describes it as a field-wise merge in which the non-zero fields of `r` overwrite
those of the receiver. -/
def QueueInfo.Update (l r : QueueInfo) : QueueInfo :=
  { Name := if r.Name ≠ [] then r.Name else l.Name,
    ReserveTimeout := if r.ReserveTimeout ≠ 0 then r.ReserveTimeout else l.ReserveTimeout,
    DeadTimeout := if r.DeadTimeout ≠ 0 then r.DeadTimeout else l.DeadTimeout,
    Carried := if r.Carried ≠ [] then r.Carried else l.Carried }

/-- The zero value of `types.QueueInfo`, as `var found types.QueueInfo` declares it. -/
def QueueInfo.zero : QueueInfo :=
  { Name := [], ReserveTimeout := 0, DeadTimeout := 0, Carried := [] }

/-- What `gob` leaves in the record `dest` after decoding the encoding of `stored` into
it: the encoder does not transmit a field whose value is the zero value of its type, and
the decoder assigns the transmitted fields only, so that a field stored as zero keeps the
value `dest` had. -/
def QueueInfo.gobInto (dest stored : QueueInfo) : QueueInfo :=
  { Name := if stored.Name ≠ [] then stored.Name else dest.Name,
    ReserveTimeout :=
      if stored.ReserveTimeout ≠ 0 then stored.ReserveTimeout else dest.ReserveTimeout,
    DeadTimeout := if stored.DeadTimeout ≠ 0 then stored.DeadTimeout else dest.DeadTimeout,
    Carried := if stored.Carried ≠ [] then stored.Carried else dest.Carried }

/-- The `gob` encoding of queue records: `encode` is `gob.NewEncoder(&buf).Encode(info)`,
`decodeInto v dest` is `gob.NewDecoder(bytes.NewReader(v)).Decode(&dest)`, the record
`dest` as the decoder leaves it, or `none` on bytes that are not an encoded record. -/
structure QueueCodec where
  encode : QueueInfo → Bytes
  decodeInto : Bytes → QueueInfo → Option QueueInfo
  decodeInto_encode : ∀ info dest, decodeInto (encode info) dest = some (QueueInfo.gobInto dest info)

/-- Decoding into a record just declared, `var found types.QueueInfo`. -/
def QueueCodec.decode (c : QueueCodec) (v : Bytes) : Option QueueInfo :=
  c.decodeInto v QueueInfo.zero

/-- `QueuesValidation`, the struct `BoltQueueStore` embeds: it is declared in a file that
is not at hand, and each of its methods is taken as it comes, `none` standing for a nil
error. -/
structure QueuesValidation where
  validateGet : Bytes → Option Error
  validateAdd : QueueInfo → Option Error
  validateUpdate : QueueInfo → Option Error
  validateDelete : Bytes → Option Error

/-- `BoltQueueStore`: the embedded validation and the engine handle that `getDB` hands
out. -/
structure BoltQueueStore where
  validation : QueuesValidation
  db : DB

/-- The store with the engine file as a write transaction has left it. -/
def BoltQueueStore.withDB (b : BoltQueueStore) (db : DB) : BoltQueueStore :=
  { validation := b.validation, db := db }

/-- The error of `Add` on a name that is in the registry. -/
def errQueueExists : Error := Error.InvalidOption "invalid queue; already exists"

/-- The error of `Update` when the merged record has a reserve timeout above its dead
timeout. -/
def errReserveTimeout : Error :=
  Error.InvalidOption
    "reserve timeout is too long; cannot be greater than the dead timeout"

/-- The error of `Add` and `Update` when the engine refuses the key: `Bucket.Put` returns
`ErrKeyRequired` on an empty key. -/
def errPutKeyRequired : Error := Error.Internal "during Put(): key required"

/-- `BoltQueueStore.Get`: the error, if any, and the caller's record `*queue` as the call
leaves it. The stored value is decoded into the caller's record, whatever it holds; the
record stays as it was passed when the call fails. -/
def BoltQueueStore.Get (c : QueueCodec) (b : BoltQueueStore) (name : Bytes) (queue : QueueInfo) :
    Option Error × QueueInfo :=
  match b.validation.validateGet name with
  | some err => (some err, queue)
  | none =>
    match b.db.Bucket with
    | none => (some errNoBucket, queue)
    | some bucket =>
      match Bucket.Get bucket name with
      | none => (some Error.QueueNotExist, queue)
      | some v =>
        match c.decodeInto v queue with
        | none => (some errDecode, queue)
        | some queue1 => (none, queue1)

/-- `BoltQueueStore.Add`: the error, if any, and the engine file as the write transaction
leaves it. -/
def BoltQueueStore.Add (c : QueueCodec) (b : BoltQueueStore) (info : QueueInfo) :
    Option Error × DB :=
  match b.validation.validateAdd info with
  | some err => (some err, b.db)
  | none =>
    match b.db.Bucket with
    | none => (some errNoBucket, b.db)
    | some bucket =>
      if (Bucket.Get bucket info.Name).isSome then (some errQueueExists, b.db)
      else if info.Name = [] then (some errPutKeyRequired, b.db)
      else (none, { queue := some (Bucket.Put bucket info.Name (c.encode info)) })

/-- `BoltQueueStore.Update`: the error, if any, and the engine file as the write
transaction leaves it; `update` is the method `QueueInfo.Update` that merges `info` into
the record found. -/
def BoltQueueStore.Update (c : QueueCodec) (update : QueueInfo → QueueInfo → QueueInfo)
    (b : BoltQueueStore) (info : QueueInfo) : Option Error × DB :=
  match b.validation.validateUpdate info with
  | some err => (some err, b.db)
  | none =>
    match b.db.Bucket with
    | none => (some errNoBucket, b.db)
    | some bucket =>
      match Bucket.Get bucket info.Name with
      | none => (some Error.QueueNotExist, b.db)
      | some v =>
        match c.decode v with
        | none => (some errDecode, b.db)
        | some found0 =>
          let found := update found0 info
          if found.ReserveTimeout > found.DeadTimeout then (some errReserveTimeout, b.db)
          else if info.Name = [] then (some errPutKeyRequired, b.db)
          else (none, { queue := some (Bucket.Put bucket info.Name (c.encode found)) })

/-- `BoltQueueStore.Delete`: the error, if any, and the engine file as the write
transaction leaves it. -/
def BoltQueueStore.Delete (b : BoltQueueStore) (name : Bytes) : Option Error × DB :=
  match b.validation.validateDelete name with
  | some err => (some err, b.db)
  | none =>
    match b.db.Bucket with
    | none => (some errNoBucket, b.db)
    | some bucket => (none, { queue := some (Bucket.Delete bucket name) })

/-! ### Sequences of registry calls -/

/-- A call that writes to the registry. -/
inductive QueueCall where
  | add (info : QueueInfo)
  | update (info : QueueInfo)
  | delete (name : Bytes)
  deriving DecidableEq, Repr

/-- The registry after one call. -/
def runQueueCall (c : QueueCodec) (update : QueueInfo → QueueInfo → QueueInfo)
    (b : BoltQueueStore) : QueueCall → BoltQueueStore
  | QueueCall.add info => b.withDB (BoltQueueStore.Add c b info).2
  | QueueCall.update info => b.withDB (BoltQueueStore.Update c update b info).2
  | QueueCall.delete name => b.withDB (BoltQueueStore.Delete b name).2

/-- The registry after a sequence of calls, first call first. -/
def runQueueCalls (c : QueueCodec) (update : QueueInfo → QueueInfo → QueueInfo) :
    BoltQueueStore → List QueueCall → BoltQueueStore
  | b, [] => b
  | b, call :: rest => runQueueCalls c update (runQueueCall c update b call) rest

/-- The registry in the words of the spec, one call further: the record stored under each
name. `add` stores the record when it is valid and the name is not present; `update`
stores the merged record when the request is valid, the name is present and the merged
record has its reserve timeout within its dead timeout; `delete` of a valid name removes
the record. A valid name is not empty. -/
def storedStep (v : QueuesValidation) (update : QueueInfo → QueueInfo → QueueInfo)
    (view : Bytes → Option QueueInfo) : QueueCall → Bytes → Option QueueInfo
  | QueueCall.add info =>
    if v.validateAdd info = none ∧ info.Name ≠ [] ∧ view info.Name = none then
      Function.update view info.Name (some info)
    else view
  | QueueCall.update info =>
    match view info.Name with
    | none => view
    | some found =>
      if v.validateUpdate info = none ∧ info.Name ≠ [] ∧
          (update found info).ReserveTimeout ≤ (update found info).DeadTimeout then
        Function.update view info.Name (some (update found info))
      else view
  | QueueCall.delete name =>
    if v.validateDelete name = none then Function.update view name none else view

/-- The registry in the words of the spec after a sequence of calls, starting from the
records `view`: the record most recently stored under each name. -/
def storedAfter (v : QueuesValidation) (update : QueueInfo → QueueInfo → QueueInfo) :
    (Bytes → Option QueueInfo) → List QueueCall → Bytes → Option QueueInfo
  | view, [] => view
  | view, call :: rest => storedAfter v update (storedStep v update view call) rest

/-- Modelled from the spec: the validation of the registry, of which the spec says that
`get` validates that the name is not empty and that a name is non-empty text; every other
check of the methods is left out. -/
def specValidation : QueuesValidation where
  validateGet := fun name =>
    if name = [] then some (Error.InvalidOption "invalid queue_name; cannot be empty") else none
  validateAdd := fun info =>
    if info.Name = [] then some (Error.InvalidOption "invalid queue_name; cannot be empty")
    else none
  validateUpdate := fun info =>
    if info.Name = [] then some (Error.InvalidOption "invalid queue_name; cannot be empty")
    else none
  validateDelete := fun name =>
    if name = [] then some (Error.InvalidOption "invalid queue_name; cannot be empty") else none

namespace plain

/-- The plain encoding of a queue record. -/
def encodeQueue (info : QueueInfo) : Bytes :=
  putBytes info.Name [putInt info.ReserveTimeout, putInt info.DeadTimeout] ++ info.Carried

/-- The plain decoding of a queue record. -/
def decodeQueue (b : Bytes) : Option QueueInfo :=
  match getBytes b with
  | some (name, rt :: dt :: carried) =>
    some { Name := name, ReserveTimeout := getInt rt, DeadTimeout := getInt dt,
           Carried := carried }
  | _ => none

end plain

/-- The plain codec of queue records. -/
def plainQueueCodec : QueueCodec where
  encode := plain.encodeQueue
  decodeInto := fun v dest => (plain.decodeQueue v).map (QueueInfo.gobInto dest)
  decodeInto_encode := by
    intro info dest
    have hi : ∀ z : Int, plain.getInt (plain.putInt z) = z := by
      intro z
      cases z with
      | ofNat n => simp [plain.getInt, plain.putInt]
      | negSucc n =>
        have h1 : (2 * n + 1) % 2 = 1 := by omega
        have h2 : (2 * n + 1) / 2 = n := by omega
        simp [plain.getInt, plain.putInt, h1, h2]
    cases info with
    | mk name rt dt carried =>
      simp [plain.encodeQueue, plain.decodeQueue, plain.getBytes, plain.putBytes, hi]

/-- A number of seconds as a `time.Duration`, in nanoseconds. -/
def seconds (n : Int) : Duration := n * 1000000000

/-- The queue `q` of scenario S7: reserve timeout 30s, dead timeout 60s. -/
def sampleQueue : QueueInfo :=
  { Name := stringBytes "q", ReserveTimeout := seconds 30, DeadTimeout := seconds 60,
    Carried := [] }

/-- A registry opened on a new file. -/
def freshRegistry : BoltQueueStore :=
  { validation := specValidation, db := { queue := some [] } }

/-- The registry after `add` of the queue `q`. -/
def sampleRegistry : BoltQueueStore :=
  runQueueCall plainQueueCodec QueueInfo.Update freshRegistry (QueueCall.add sampleQueue)

/-- The update of scenario S7: the queue `q` with reserve timeout 90s, the other fields
zero. -/
def sampleUpdate : QueueInfo :=
  { Name := stringBytes "q", ReserveTimeout := seconds 90, DeadTimeout := 0, Carried := [] }

/-- A queue `r` with reserve timeout 10s and dead timeout 20s. -/
def otherQueue : QueueInfo :=
  { Name := stringBytes "r", ReserveTimeout := seconds 10, DeadTimeout := seconds 20,
    Carried := [] }

/-- An update of the queue `q` that raises its dead timeout to 120s. -/
def raiseDeadTimeout : QueueInfo :=
  { Name := stringBytes "q", ReserveTimeout := 0, DeadTimeout := seconds 120, Carried := [] }

/-- Four calls: `add` of `q`, `add` of `r`, an `update` of `q` and `delete` of `r`. -/
def sampleQueueCalls : List QueueCall :=
  [QueueCall.add sampleQueue, QueueCall.add otherQueue, QueueCall.update raiseDeadTimeout,
   QueueCall.delete (stringBytes "r")]

/-- A queue `z` stored with both timeouts zero. -/
def zeroTimeoutsQueue : QueueInfo :=
  { Name := stringBytes "z", ReserveTimeout := 0, DeadTimeout := 0, Carried := [] }

/-- A record a caller of `Get` holds from an earlier use: the queue `old` with timeouts 5s
and 6s. -/
def staleRecord : QueueInfo :=
  { Name := stringBytes "old", ReserveTimeout := seconds 5, DeadTimeout := seconds 6,
    Carried := [] }

/-! # Theorems -/

/-! ## The engine -/

theorem Bucket.Put_mid (pre : Bucket) (k v w : Bytes) (rest : Bucket)
    (h : ∀ x ∈ pre, x.1 < k) :
    Bucket.Put (pre ++ (k, v) :: rest) k w = pre ++ (k, w) :: rest := by
  induction pre with
  | nil => simp [Bucket.Put]
  | cons x pre ih =>
    obtain ⟨k0, v0⟩ := x
    have h0 : k0 < k := h (k0, v0) (by simp)
    have h1 : ¬ k < k0 := lt_asymm h0
    have h2 : ¬ k = k0 := fun e => (lt_irrefl k0) (e ▸ h0)
    have ih1 := ih (fun x hx => h x (by simp [hx]))
    simp [Bucket.Put, h1, h2, ih1]

theorem markFirst_keys (c : Codec) (d : Time) (b : Bucket) (n : Nat) :
    (markFirst c d b n).map Prod.fst = b.map Prod.fst := by
  induction b generalizing n with
  | nil => simp [markFirst]
  | cons x b ih =>
    obtain ⟨k, v⟩ := x
    unfold markFirst
    split
    · cases n with
      | zero => simp
      | succ m => simp [ih]
    · simp [ih]

theorem offered_cons_unreserved (c : Codec) (d : Time) (k v : Bytes) (item : Item)
    (rest : Bucket) (n : Nat) (hd : c.decode v = some item) (hr : item.IsReserved = false) :
    offered c d ((k, v) :: rest) (n + 1) = item.reserve d :: offered c d rest n := by
  simp [offered, firstUnreserved, isUnreserved, hd, hr]

theorem offered_cons_reserved (c : Codec) (d : Time) (k v : Bytes) (item : Item)
    (rest : Bucket) (n : Nat) (hd : c.decode v = some item) (hr : item.IsReserved = true) :
    offered c d ((k, v) :: rest) n = offered c d rest n := by
  simp [offered, firstUnreserved, isUnreserved, hd, hr]

theorem offered_zero (c : Codec) (d : Time) (b : Bucket) : offered c d b 0 = [] := by
  simp [offered, firstUnreserved]

theorem markFirst_zero (c : Codec) (d : Time) (b : Bucket) : markFirst c d b 0 = b := by
  induction b with
  | nil => simp [markFirst]
  | cons x b ih =>
    obtain ⟨k, v⟩ := x
    unfold markFirst
    split <;> simp [ih]

theorem entryOK_decode (c : Codec) (kv : Bytes × Bytes) (h : entryOK c kv = true) :
    ∃ item, c.decode kv.2 = some item ∧ item.ID = kv.1 := by
  unfold entryOK at h
  split at h
  · rename_i item hd
    exact ⟨item, hd, by simpa using h⟩
  · simp at h

theorem keys_lt_of_sorted (pre : Bucket) (k v : Bytes) (rest : Bucket)
    (h : ((pre ++ (k, v) :: rest).map Prod.fst).Pairwise (fun x y => x < y)) :
    ∀ x ∈ pre, x.1 < k := by
  intro x hx
  rw [List.map_append, List.pairwise_append] at h
  exact h.2.2 x.1 (List.mem_map_of_mem _ hx) k (by simp)

theorem reserveLoop_spec {σ : Type} (c : Codec) (batch : ReserveBatch σ) (opts : ReserveOptions) :
    ∀ (rest pre : Bucket) (it : σ) (cnt : Int) (tr : List (Item × Bool)),
      ((pre ++ rest).map Prod.fst).Pairwise (fun x y => x < y) →
      (∀ kv ∈ rest, entryOK c kv = true) →
      ∃ j m : Nat, j ≤ m ∧ m ≤ j + 1 ∧ (m = 0 ∨ cnt + (m : Int) ≤ batch.Total) ∧
        (offered c opts.ReserveDeadline rest m).length = m ∧
        (reserveLoop c batch opts rest
          { bucket := pre ++ rest, iter := it, count := cnt, handed := tr }).1 = none ∧
        (reserveLoop c batch opts rest
          { bucket := pre ++ rest, iter := it, count := cnt, handed := tr }).2.bucket
            = pre ++ markFirst c opts.ReserveDeadline rest j ∧
        ((reserveLoop c batch opts rest
          { bucket := pre ++ rest, iter := it, count := cnt, handed := tr }).2.handed.filter
            (fun h => h.2)).map (fun h => h.1)
            = (tr.filter (fun h => h.2)).map (fun h => h.1)
                ++ offered c opts.ReserveDeadline rest j ∧
        (reserveLoop c batch opts rest
          { bucket := pre ++ rest, iter := it, count := cnt, handed := tr }).2.handed.map
            (fun h => h.1)
            = tr.map (fun h => h.1) ++ offered c opts.ReserveDeadline rest m := by
  intro rest
  induction rest with
  | nil =>
    intro pre it cnt tr _ _
    exact ⟨0, 0, le_refl _, by omega, Or.inl rfl, by simp [offered_zero],
      by simp [reserveLoop], by simp [reserveLoop, markFirst], by simp [reserveLoop, offered_zero],
      by simp [reserveLoop, offered_zero]⟩
  | cons x rest ih =>
    intro pre it cnt tr hs hok
    obtain ⟨k, v⟩ := x
    obtain ⟨item, hd, hid⟩ := entryOK_decode c (k, v) (hok (k, v) (by simp))
    simp only at hd hid
    have hok1 : ∀ kv ∈ rest, entryOK c kv = true := fun kv hkv => hok kv (by simp [hkv])
    by_cases hc : cnt ≥ batch.Total
    · exact ⟨0, 0, le_refl _, by omega, Or.inl rfl, by simp [offered_zero],
        by simp [reserveLoop, hc], by simp [reserveLoop, hc, markFirst_zero],
        by simp [reserveLoop, hc, offered_zero], by simp [reserveLoop, hc, offered_zero]⟩
    · cases hr : item.IsReserved with
      | true =>
        have hs1 : (((pre ++ [(k, v)]) ++ rest).map Prod.fst).Pairwise (fun x y => x < y) := by
          simpa using hs
        obtain ⟨j, m, hjm, hmj, hcnt, hlen, h1, h2, h3, h4⟩ :=
          ih (pre ++ [(k, v)]) it cnt tr hs1 hok1
        simp only [List.append_assoc, List.singleton_append] at h1 h2 h3 h4
        have hun : isUnreserved c (k, v) = false := by simp [isUnreserved, hd, hr]
        refine ⟨j, m, hjm, hmj, hcnt, ?_, ?_, ?_, ?_, ?_⟩
        · rw [offered_cons_reserved c _ k v item rest m hd hr]; exact hlen
        · simp [reserveLoop, hc, hd, hr, h1]
        · simp [reserveLoop, hc, hd, hr, h2, markFirst, hun]
        · simp only [reserveLoop, hc, hd, hr, if_true, if_false]
          rw [offered_cons_reserved c _ k v item rest j hd hr]
          exact h3
        · simp only [reserveLoop, hc, hd, hr, if_true, if_false]
          rw [offered_cons_reserved c _ k v item rest m hd hr]
          exact h4
      | false =>
        have hun : isUnreserved c (k, v) = true := by simp [isUnreserved, hd, hr]
        have hrid : (item.reserve opts.ReserveDeadline).ID = k := by simpa [Item.reserve] using hid
        cases ha : (batch.Next it (item.reserve opts.ReserveDeadline)).1 with
        | true =>
          have hput : Bucket.Put (pre ++ (k, v) :: rest) k
              (c.encode (item.reserve opts.ReserveDeadline))
              = pre ++ (k, c.encode (item.reserve opts.ReserveDeadline)) :: rest :=
            Bucket.Put_mid pre k v _ rest (keys_lt_of_sorted pre k v rest hs)
          have hs1 : (((pre ++ [(k, c.encode (item.reserve opts.ReserveDeadline))]) ++ rest).map
              Prod.fst).Pairwise (fun x y => x < y) := by simpa using hs
          obtain ⟨j, m, hjm, hmj, hcnt, hlen, h1, h2, h3, h4⟩ :=
            ih (pre ++ [(k, c.encode (item.reserve opts.ReserveDeadline))])
              (batch.Next it (item.reserve opts.ReserveDeadline)).2 (cnt + 1)
              (tr ++ [(item.reserve opts.ReserveDeadline, true)]) hs1 hok1
          simp only [List.append_assoc, List.singleton_append] at h1 h2 h3 h4
          refine ⟨j + 1, m + 1, by omega, by omega, Or.inr ?_, ?_, ?_, ?_, ?_, ?_⟩
          · rcases hcnt with h0 | h0
            · subst h0; push_cast; omega
            · push_cast; omega
          · rw [offered_cons_unreserved c _ k v item rest m hd hr]; simp [hlen]
          · simp only [reserveLoop, hc, hd, hr, ha, hrid, hput, if_true, if_false]
            simpa using h1
          · simp only [reserveLoop, hc, hd, hr, ha, hrid, hput, if_true, if_false]
            simp [h2, markFirst, hun, reservedValue, hd]
          · simp only [reserveLoop, hc, hd, hr, ha, hrid, hput, if_true, if_false]
            rw [offered_cons_unreserved c _ k v item rest j hd hr]
            simpa using h3
          · simp only [reserveLoop, hc, hd, hr, ha, hrid, hput, if_true, if_false]
            rw [offered_cons_unreserved c _ k v item rest m hd hr]
            simpa using h4
        | false =>
          refine ⟨0, 1, by omega, by omega, Or.inr ?_, ?_, ?_, ?_, ?_, ?_⟩
          · push_cast; omega
          · rw [offered_cons_unreserved c _ k v item rest 0 hd hr]; simp [offered_zero]
          · simp [reserveLoop, hc, hd, hr, ha]
          · simp [reserveLoop, hc, hd, hr, ha, markFirst, hun]
          · simp [reserveLoop, hc, hd, hr, ha, offered_zero]
          · simp only [reserveLoop, hc, hd, hr, ha, if_true, if_false]
            rw [offered_cons_unreserved c _ k v item rest 0 hd hr]
            simp [offered_zero]

/-! ## Partition states are preserved -/

theorem Bucket.mem_Put (b : Bucket) (k v : Bytes) (x : Bytes × Bytes)
    (hx : x ∈ Bucket.Put b k v) : x = (k, v) ∨ x ∈ b := by
  induction b with
  | nil => simpa [Bucket.Put] using hx
  | cons y b ih =>
    obtain ⟨k0, v0⟩ := y
    unfold Bucket.Put at hx
    split at hx
    · simpa using hx
    · split at hx
      · rcases List.mem_cons.mp hx with h | h
        · exact Or.inl h
        · exact Or.inr (List.mem_cons_of_mem _ h)
      · rcases List.mem_cons.mp hx with h | h
        · exact Or.inr (by simp [h])
        · rcases ih h with h1 | h1
          · exact Or.inl h1
          · exact Or.inr (List.mem_cons_of_mem _ h1)

theorem Bucket.Put_sorted (b : Bucket) (k v : Bytes)
    (hs : (b.map Prod.fst).Pairwise (fun x y => x < y)) :
    ((Bucket.Put b k v).map Prod.fst).Pairwise (fun x y => x < y) := by
  induction b with
  | nil => simp [Bucket.Put]
  | cons y b ih =>
    obtain ⟨k0, v0⟩ := y
    rw [List.map_cons, List.pairwise_cons] at hs
    unfold Bucket.Put
    split
    · rename_i hlt
      rw [List.map_cons, List.pairwise_cons]
      refine ⟨?_, by simpa [List.pairwise_cons] using hs⟩
      intro a ha
      rcases List.mem_map.mp ha with ⟨x, hx, rfl⟩
      rcases List.mem_cons.mp hx with h | h
      · subst h; exact hlt
      · exact lt_trans hlt (hs.1 x.1 (List.mem_map_of_mem _ h))
    · split
      · rename_i heq
        subst heq
        simpa [List.pairwise_cons] using hs
      · rename_i hnlt hne
        have hgt : k0 < k := by
          rcases lt_trichotomy k k0 with h | h | h
          · exact absurd h hnlt
          · exact absurd h hne
          · exact h
        rw [List.map_cons, List.pairwise_cons]
        refine ⟨?_, ih hs.2⟩
        intro a ha
        rcases List.mem_map.mp ha with ⟨x, hx, rfl⟩
        rcases Bucket.mem_Put b k v x hx with h | h
        · subst h; exact hgt
        · exact hs.1 x.1 (List.mem_map_of_mem _ h)

theorem Bucket.WF_nil (c : Codec) : Bucket.WF c [] := by
  simp [Bucket.WF]

theorem Bucket.WF_Put (c : Codec) (b : Bucket) (k v : Bytes) (h : Bucket.WF c b)
    (hkv : entryOK c (k, v) = true) : Bucket.WF c (Bucket.Put b k v) := by
  refine ⟨Bucket.Put_sorted b k v h.1, ?_⟩
  intro x hx
  rcases Bucket.mem_Put b k v x hx with h1 | h1
  · subst h1; exact hkv
  · exact h.2 x h1

theorem Bucket.WF_Delete (c : Codec) (b : Bucket) (k : Bytes) (h : Bucket.WF c b) :
    Bucket.WF c (Bucket.Delete b k) := by
  refine ⟨?_, ?_⟩
  · exact h.1.sublist ((List.filter_sublist b).map Prod.fst)
  · intro x hx
    exact h.2 x (List.mem_of_mem_filter hx)

theorem produceItems_WF (c : Codec) (now : Nat → Time) (items : List Item) :
    ∀ st : ProduceState, Bucket.WF c st.bucket →
      Bucket.WF c (produceItems c now items st).2.bucket := by
  induction items with
  | nil => intro st h; simpa [produceItems] using h
  | cons item items ih =>
    intro st h
    simp only [produceItems]
    apply ih
    simp only [produceItem]
    apply Bucket.WF_Put c _ _ _ h
    simp [entryOK, c.decode_encode]

theorem produceRequests_WF (c : Codec) (now : Nat → Time) (reqs : List ProduceRequest) :
    ∀ st : ProduceState, Bucket.WF c st.bucket →
      Bucket.WF c (produceRequests c now reqs st).2.bucket := by
  induction reqs with
  | nil => intro st h; simpa [produceRequests] using h
  | cons r reqs ih =>
    intro st h
    simp only [produceRequests]
    exact ih _ (produceItems_WF c now r.Items st h)

theorem markFirst_entryOK (c : Codec) (d : Time) (b : Bucket) :
    ∀ n, (∀ kv ∈ b, entryOK c kv = true) → ∀ kv ∈ markFirst c d b n, entryOK c kv = true := by
  induction b with
  | nil => intro n _ kv hkv; simp [markFirst] at hkv
  | cons x b ih =>
    intro n hok kv hkv
    obtain ⟨k, v⟩ := x
    have hok1 : ∀ kv ∈ b, entryOK c kv = true := fun kv h => hok kv (by simp [h])
    unfold markFirst at hkv
    split at hkv
    · cases n with
      | zero => exact hok kv hkv
      | succ m =>
        simp only at hkv
        rcases List.mem_cons.mp hkv with h | h
        · subst h
          obtain ⟨item, hd, hid⟩ := entryOK_decode c (k, v) (hok (k, v) (by simp))
          simp only at hd hid
          simp [entryOK, reservedValue, hd, c.decode_encode, Item.reserve, hid]
        · exact ih m hok1 kv h
    · rcases List.mem_cons.mp hkv with h | h
      · subst h; exact hok _ (by simp)
      · exact ih n hok1 kv h

theorem markFirst_WF (c : Codec) (d : Time) (b : Bucket) (n : Nat) (h : Bucket.WF c b) :
    Bucket.WF c (markFirst c d b n) :=
  ⟨by rw [markFirst_keys]; exact h.1, markFirst_entryOK c d b n h.2⟩

theorem completeIds_WF (c : Codec) (ids : List Bytes) :
    ∀ (b b1 : Bucket) (perr : Option Error), Bucket.WF c b →
      completeIds c ids b = .ok (b1, perr) → Bucket.WF c b1 := by
  induction ids with
  | nil =>
    intro b b1 perr h he
    simp only [completeIds, Except.ok.injEq, Prod.mk.injEq] at he
    exact he.1 ▸ h
  | cons id ids ih =>
    intro b b1 perr h he
    unfold completeIds at he
    split at he
    · simp only [Except.ok.injEq, Prod.mk.injEq] at he; exact he.1 ▸ h
    · split at he
      · simp only [Except.ok.injEq, Prod.mk.injEq] at he; exact he.1 ▸ h
      · split at he
        · simp at he
        · split at he
          · simp only [Except.ok.injEq, Prod.mk.injEq] at he; exact he.1 ▸ h
          · exact ih _ b1 perr (Bucket.WF_Delete c b id h) he

theorem completeRequests_WF (c : Codec) (reqs : List CompleteRequest) :
    ∀ b : Bucket, Bucket.WF c b → Bucket.WF c (completeRequests c reqs b).2.1 := by
  induction reqs with
  | nil => intro b h; simpa [completeRequests] using h
  | cons r reqs ih =>
    intro b h
    unfold completeRequests
    split
    · exact h
    · rename_i b1 perr he
      exact ih b1 (completeIds_WF c r.Ids b b1 perr h he)

theorem deleteLoop_WF (c : Codec) (ids : List Bytes) :
    ∀ (b b1 : Bucket), Bucket.WF c b → deleteLoop ids b = .ok b1 → Bucket.WF c b1 := by
  induction ids with
  | nil =>
    intro b b1 h he
    simp only [deleteLoop, Except.ok.injEq] at he
    exact he ▸ h
  | cons id ids ih =>
    intro b b1 h he
    unfold deleteLoop at he
    split at he
    · simp at he
    · exact ih _ b1 (Bucket.WF_Delete c b id h) he

theorem clearLoop_WF (c : Codec) (rest : List (Bytes × Bytes)) :
    ∀ (b b1 : Bucket), Bucket.WF c b → clearLoop c rest b = .ok b1 → Bucket.WF c b1 := by
  induction rest with
  | nil =>
    intro b b1 h he
    simp only [clearLoop, Except.ok.injEq] at he
    exact he ▸ h
  | cons x rest ih =>
    intro b b1 h he
    obtain ⟨k, v⟩ := x
    unfold clearLoop at he
    split at he
    · simp at he
    · split at he
      · exact ih b b1 h he
      · exact ih _ b1 (Bucket.WF_Delete c b k h) he

theorem Reserve_spec {σ : Type} (c : Codec) (b : BoltPartition) (batch : ReserveBatch σ)
    (opts : ReserveOptions) (bucket : Bucket) (hb : b.db.queue = some bucket)
    (hwf : Bucket.WF c bucket) :
    ∃ j m : Nat, j ≤ m ∧ m ≤ j + 1 ∧ (m = 0 ∨ (m : Int) ≤ batch.Total) ∧
      (offered c opts.ReserveDeadline bucket m).length = m ∧
      (BoltPartition.Reserve c b batch opts).err = none ∧
      (BoltPartition.Reserve c b batch opts).db
        = { queue := some (markFirst c opts.ReserveDeadline bucket j) } ∧
      (BoltPartition.Reserve c b batch opts).accepted = offered c opts.ReserveDeadline bucket j ∧
      (BoltPartition.Reserve c b batch opts).handed.map (fun h => h.1)
        = offered c opts.ReserveDeadline bucket m := by
  obtain ⟨j, m, hjm, hmj, hcnt, hlen, h1, h2, h3, h4⟩ :=
    reserveLoop_spec c batch opts bucket [] batch.Iterator 0 [] (by simpa using hwf.1) hwf.2
  simp only [List.nil_append, List.filter_nil, List.map_nil, zero_add] at h1 h2 h3 h4 hcnt
  refine ⟨j, m, hjm, hmj, hcnt, hlen, ?_, ?_, ?_, ?_⟩
  · simp [BoltPartition.Reserve, DB.Bucket, hb, h1]
  · simp [BoltPartition.Reserve, DB.Bucket, hb, h1, h2]
  · simp only [ReserveResult.accepted, BoltPartition.Reserve, DB.Bucket, hb, h1]
    exact h3
  · simp only [BoltPartition.Reserve, DB.Bucket, hb, h1]
    exact h4

theorem reachable_WF (c : Codec) (b : BoltPartition) (h : Reachable c b) :
    BoltPartition.WF c b := by
  induction h with
  | fresh uid => exact ⟨[], rfl, Bucket.WF_nil c⟩
  | @produce b now batch _ ih =>
    obtain ⟨bucket, hb, hwf⟩ := ih
    refine ⟨_, ?_, produceRequests_WF c now batch.Requests
      { uid := b.uid, tick := 0, bucket := bucket } hwf⟩
    simp [BoltPartition.Produce, DB.Bucket, hb]
  | @add b now items _ ih =>
    obtain ⟨bucket, hb, hwf⟩ := ih
    refine ⟨_, ?_, produceItems_WF c now items
      { uid := b.uid, tick := 0, bucket := bucket } hwf⟩
    simp [BoltPartition.Add, DB.Bucket, hb]
  | @reserve σ b batch opts _ ih =>
    obtain ⟨bucket, hb, hwf⟩ := ih
    obtain ⟨j, m, _, _, _, _, _, h2, _, _⟩ := Reserve_spec c b batch opts bucket hb hwf
    exact ⟨_, by simp [h2], markFirst_WF c opts.ReserveDeadline bucket j hwf⟩
  | @complete b batch _ ih =>
    obtain ⟨bucket, hb, hwf⟩ := ih
    have hw := completeRequests_WF c batch.Requests bucket hwf
    cases he : (completeRequests c batch.Requests bucket).1 with
    | none => exact ⟨_, by simp [BoltPartition.Complete, DB.Bucket, hb, he], hw⟩
    | some e => exact ⟨bucket, by simp [BoltPartition.Complete, DB.Bucket, hb, he], hwf⟩
  | @delete b ids _ ih =>
    obtain ⟨bucket, hb, hwf⟩ := ih
    cases he : deleteLoop ids bucket with
    | error e => exact ⟨bucket, by simp [BoltPartition.Delete, DB.Bucket, hb, he], hwf⟩
    | ok b1 =>
      exact ⟨b1, by simp [BoltPartition.Delete, DB.Bucket, hb, he],
        deleteLoop_WF c ids bucket b1 hwf he⟩
  | @clear b destructive _ ih =>
    obtain ⟨bucket, hb, hwf⟩ := ih
    cases destructive with
    | true => exact ⟨[], by simp [BoltPartition.Clear, hb], Bucket.WF_nil c⟩
    | false =>
      cases he : clearLoop c bucket bucket with
      | error e => exact ⟨bucket, by simp [BoltPartition.Clear, DB.Bucket, hb, he], hwf⟩
      | ok b1 =>
        exact ⟨b1, by simp [BoltPartition.Clear, DB.Bucket, hb, he],
          clearLoop_WF c bucket bucket b1 hwf he⟩

/-! ## What `Reserve` changes -/

theorem Item.reserve_ID (item : Item) (d : Time) : (item.reserve d).ID = item.ID := rfl

theorem filter_mem_sublist {α : Type} (l1 l : List α) (hsub : l1.Sublist l)
    (hnd : l.Nodup) : ∀ p : α → Bool, (∀ x, p x = true ↔ x ∈ l1) → l.filter p = l1 := by
  induction hsub with
  | slnil => intro p _; rfl
  | @cons l1 l a hs ih =>
    intro p hp
    rw [List.nodup_cons] at hnd
    have ha : ¬ p a = true := fun h => hnd.1 (hs.subset ((hp a).mp h))
    rw [List.filter_cons_of_neg ha]
    exact ih hnd.2 p hp
  | @cons₂ l1 l a hs ih =>
    intro p hp
    rw [List.nodup_cons] at hnd
    have ha : p a = true := (hp a).mpr (by simp)
    rw [List.filter_cons_of_pos ha]
    have hq : l.filter p = l1 := by
      classical
      have h1 : l.filter p = l.filter (fun x => decide (x ∈ l1)) := by
        apply List.filter_congr
        intro x hx
        have hne : x ≠ a := fun e => hnd.1 (e ▸ hx)
        have := hp x
        simp only [List.mem_cons, hne, false_or] at this
        cases hpx : p x
        · have : x ∉ l1 := fun h => by simp [this.mpr h] at hpx
          simp [this]
        · simp [this.mp hpx]
      rw [h1]
      exact ih hnd.2 _ (fun x => by simp)
    rw [hq]

theorem Bucket.Get_of_mem (b : Bucket) (hs : (b.map Prod.fst).Pairwise (fun x y => x < y))
    (kv : Bytes × Bytes) (h : kv ∈ b) : Bucket.Get b kv.1 = some kv.2 := by
  induction b with
  | nil => simp at h
  | cons x b ih =>
    obtain ⟨k, v⟩ := x
    rw [List.map_cons, List.pairwise_cons] at hs
    rcases List.mem_cons.mp h with h1 | h1
    · subst h1; simp [Bucket.Get]
    · have hlt : k < kv.1 := hs.1 kv.1 (List.mem_map_of_mem _ h1)
      have hne : ¬ k = kv.1 := fun e => lt_irrefl k (by rw [e] at hlt ⊢; exact hlt)
      simp [Bucket.Get, hne, ih hs.2 h1]

theorem firstUnreserved_cons_unreserved (c : Codec) (kv : Bytes × Bytes) (rest : Bucket)
    (n : Nat) (h : isUnreserved c kv = true) :
    firstUnreserved c (kv :: rest) (n + 1) = kv :: firstUnreserved c rest n := by
  simp [firstUnreserved, h]

theorem firstUnreserved_cons_reserved (c : Codec) (kv : Bytes × Bytes) (rest : Bucket)
    (n : Nat) (h : isUnreserved c kv = false) :
    firstUnreserved c (kv :: rest) n = firstUnreserved c rest n := by
  simp [firstUnreserved, h]

theorem firstUnreserved_sublist (c : Codec) (b : Bucket) (n : Nat) :
    (firstUnreserved c b n).Sublist b :=
  (List.take_sublist _ _).trans (List.filter_sublist b)

theorem firstUnreserved_unreserved (c : Codec) (b : Bucket) (n : Nat) (kv : Bytes × Bytes)
    (h : kv ∈ firstUnreserved c b n) : isUnreserved c kv = true :=
  (List.mem_filter.mp (List.mem_of_mem_take h)).2

theorem offered_ids (c : Codec) (d : Time) (b : Bucket) (n : Nat)
    (hok : ∀ kv ∈ b, entryOK c kv = true) :
    (offered c d b n).map (fun x => x.ID) = (firstUnreserved c b n).map Prod.fst := by
  have hsub : ∀ kv ∈ firstUnreserved c b n, entryOK c kv = true :=
    fun kv h => hok kv ((firstUnreserved_sublist c b n).subset h)
  unfold offered
  generalize firstUnreserved c b n = l at hsub
  induction l with
  | nil => simp
  | cons x l ih =>
    obtain ⟨item, hd, hid⟩ := entryOK_decode c x (hsub x (by simp))
    have ih1 := ih (fun kv h => hsub kv (by simp [h]))
    simp only [List.filterMap_cons, hd, Option.map_some', List.map_cons, ih1]
    rw [Item.reserve_ID, hid]

theorem mem_offered (c : Codec) (d : Time) (b : Bucket) (n : Nat) (x : Item)
    (h : x ∈ offered c d b n) :
    ∃ kv item, kv ∈ firstUnreserved c b n ∧ c.decode kv.2 = some item ∧ x = item.reserve d := by
  unfold offered at h
  rcases List.mem_filterMap.mp h with ⟨kv, hkv, hx⟩
  cases hd : c.decode kv.2 with
  | none => simp [hd] at hx
  | some item =>
    refine ⟨kv, item, hkv, hd, ?_⟩
    simpa [hd] using hx.symm

theorem offered_of_mem (c : Codec) (d : Time) (b : Bucket) (n : Nat) (kv : Bytes × Bytes)
    (item : Item) (h : kv ∈ firstUnreserved c b n) (hd : c.decode kv.2 = some item) :
    item.reserve d ∈ offered c d b n := by
  unfold offered
  exact List.mem_filterMap.mpr ⟨kv, h, by simp [hd]⟩

theorem markFirst_keeps (c : Codec) (d : Time) (b : Bucket) :
    ∀ n, ∀ kv ∈ b, kv.1 ∉ (firstUnreserved c b n).map Prod.fst → kv ∈ markFirst c d b n := by
  induction b with
  | nil => intro n kv h; simp at h
  | cons x b ih =>
    intro n kv hkv hnot
    obtain ⟨k, v⟩ := x
    unfold markFirst
    cases hun : isUnreserved c (k, v) with
    | true =>
      cases n with
      | zero => simpa using hkv
      | succ m =>
        rw [firstUnreserved_cons_unreserved c (k, v) b m hun] at hnot
        simp only [List.map_cons, List.mem_cons, not_or] at hnot
        rcases List.mem_cons.mp hkv with h | h
        · exact absurd (by rw [h]) hnot.1
        · simpa using Or.inr (ih m kv h hnot.2)
    | false =>
      rw [firstUnreserved_cons_reserved c (k, v) b n hun] at hnot
      rcases List.mem_cons.mp hkv with h | h
      · simp [h]
      · simpa using Or.inr (ih n kv h hnot)

theorem markFirst_marks (c : Codec) (d : Time) (b : Bucket) :
    ∀ n, ∀ kv ∈ firstUnreserved c b n, (kv.1, reservedValue c d kv.2) ∈ markFirst c d b n := by
  induction b with
  | nil => intro n kv h; simp [firstUnreserved] at h
  | cons x b ih =>
    intro n kv hkv
    obtain ⟨k, v⟩ := x
    unfold markFirst
    cases hun : isUnreserved c (k, v) with
    | true =>
      cases n with
      | zero => simp [firstUnreserved] at hkv
      | succ m =>
        rw [firstUnreserved_cons_unreserved c (k, v) b m hun] at hkv
        rcases List.mem_cons.mp hkv with h | h
        · subst h; simp
        · simpa using Or.inr (ih m kv h)
    | false =>
      rw [firstUnreserved_cons_reserved c (k, v) b n hun] at hkv
      simpa using Or.inr (ih n kv hkv)

theorem becameReserved_markFirst (c : Codec) (d : Time) (b : Bucket) (n : Nat)
    (hwf : Bucket.WF c b) :
    becameReserved c b (markFirst c d b n) = firstUnreserved c b n := by
  have hwf1 : Bucket.WF c (markFirst c d b n) := markFirst_WF c d b n hwf
  have hget : ∀ kv ∈ b, Bucket.Get (markFirst c d b n) kv.1 =
      some (if kv.1 ∈ (firstUnreserved c b n).map Prod.fst then reservedValue c d kv.2
            else kv.2) := by
    intro kv hkv
    by_cases hin : kv.1 ∈ (firstUnreserved c b n).map Prod.fst
    · rcases List.mem_map.mp hin with ⟨kv1, hkv1, hk⟩
      have hmem1 : kv1 ∈ b := (firstUnreserved_sublist c b n).subset hkv1
      have heq : kv1 = kv := by
        have h1 := Bucket.Get_of_mem b hwf.1 kv1 hmem1
        have h2 := Bucket.Get_of_mem b hwf.1 kv hkv
        rw [hk, h2] at h1
        exact Prod.ext hk (Option.some.inj h1).symm
      subst heq
      have := Bucket.Get_of_mem _ hwf1.1 _ (markFirst_marks c d b n kv1 hkv1)
      simpa [hin] using this
    · have := Bucket.Get_of_mem _ hwf1.1 _ (markFirst_keeps c d b n kv hkv hin)
      simpa [hin] using this
  unfold becameReserved
  have hfilter : b.filter (fun kv => isUnreserved c kv &&
      match Bucket.Get (markFirst c d b n) kv.1 with
      | some v => isReserved c (kv.1, v)
      | none => false)
      = b.filter (fun kv => decide (kv ∈ firstUnreserved c b n)) := by
    apply List.filter_congr
    intro kv hkv
    rw [hget kv hkv]
    obtain ⟨item, hd, hid⟩ := entryOK_decode c kv (hwf.2 kv hkv)
    by_cases hin : kv ∈ firstUnreserved c b n
    · have hun := firstUnreserved_unreserved c b n kv hin
      have hin1 : kv.1 ∈ (firstUnreserved c b n).map Prod.fst := List.mem_map_of_mem _ hin
      simp [hin, hin1, hun, isReserved, reservedValue, hd, c.decode_encode, Item.reserve]
    · by_cases hin1 : kv.1 ∈ (firstUnreserved c b n).map Prod.fst
      · exfalso
        rcases List.mem_map.mp hin1 with ⟨kv1, hkv1, hk⟩
        have hmem1 : kv1 ∈ b := (firstUnreserved_sublist c b n).subset hkv1
        have h1 := Bucket.Get_of_mem b hwf.1 kv1 hmem1
        have h2 := Bucket.Get_of_mem b hwf.1 kv hkv
        rw [hk, h2] at h1
        exact hin (Prod.ext hk (Option.some.inj h1).symm ▸ hkv1)
      · simp only [hin, hin1, if_false, decide_False]
        cases hr : item.IsReserved <;> simp [isUnreserved, isReserved, hd, hr]
  rw [hfilter]
  have hnd : b.Nodup := by
    have : (b.map Prod.fst).Nodup := hwf.1.imp (fun h => ne_of_lt h)
    exact List.Nodup.of_map _ this
  exact filter_mem_sublist _ b (firstUnreserved_sublist c b n) hnd _ (fun x => by simp)

theorem Bucket.eq_of_key_eq (b : Bucket) (hs : (b.map Prod.fst).Pairwise (fun x y => x < y))
    (kv kv1 : Bytes × Bytes) (h : kv ∈ b) (h1 : kv1 ∈ b) (hk : kv.1 = kv1.1) : kv = kv1 := by
  have e := Bucket.Get_of_mem b hs kv h
  have e1 := Bucket.Get_of_mem b hs kv1 h1
  rw [hk, e1] at e
  exact Prod.ext hk (Option.some.inj e).symm

theorem firstUnreserved_keys_sorted (c : Codec) (b : Bucket) (n : Nat)
    (hs : (b.map Prod.fst).Pairwise (fun x y => x < y)) :
    ((firstUnreserved c b n).map Prod.fst).Pairwise (fun x y => x < y) :=
  hs.sublist ((firstUnreserved_sublist c b n).map Prod.fst)

theorem reserveLoop_accepting {σ : Type} (c : Codec) (batch : ReserveBatch σ)
    (opts : ReserveOptions) :
    ∀ (rest pre : Bucket) (it : σ) (cnt : Int) (tr : List (Item × Bool)) (n : Nat),
      ((pre ++ rest).map Prod.fst).Pairwise (fun x y => x < y) →
      (∀ kv ∈ rest, entryOK c kv = true) →
      batch.Total = cnt + (n : Int) →
      acceptsFirst batch.Next n it →
      (reserveLoop c batch opts rest
          { bucket := pre ++ rest, iter := it, count := cnt, handed := tr }).1 = none ∧
      (reserveLoop c batch opts rest
          { bucket := pre ++ rest, iter := it, count := cnt, handed := tr }).2.bucket
            = pre ++ markFirst c opts.ReserveDeadline rest n := by
  intro rest
  induction rest with
  | nil => intro pre it cnt tr n _ _ _ _; simp [reserveLoop, markFirst]
  | cons x rest ih =>
    intro pre it cnt tr n hs hok hn hacc
    obtain ⟨k, v⟩ := x
    obtain ⟨item, hd, hid⟩ := entryOK_decode c (k, v) (hok (k, v) (by simp))
    simp only at hd hid
    have hok1 : ∀ kv ∈ rest, entryOK c kv = true := fun kv hkv => hok kv (by simp [hkv])
    cases n with
    | zero =>
      have hc : cnt ≥ batch.Total := by rw [hn]; simp
      simp [reserveLoop, hc, markFirst_zero]
    | succ n =>
      have hc : ¬ cnt ≥ batch.Total := by rw [hn]; push_cast; omega
      cases hr : item.IsReserved with
      | true =>
        have hs1 : (((pre ++ [(k, v)]) ++ rest).map Prod.fst).Pairwise (fun x y => x < y) := by
          simpa using hs
        obtain ⟨h1, h2⟩ := ih (pre ++ [(k, v)]) it cnt tr (n + 1) hs1 hok1 hn hacc
        simp only [List.append_assoc, List.singleton_append] at h1 h2
        have hun : isUnreserved c (k, v) = false := by simp [isUnreserved, hd, hr]
        exact ⟨by simp [reserveLoop, hc, hd, hr, h1],
          by simp [reserveLoop, hc, hd, hr, h2, markFirst, hun]⟩
      | false =>
        have hun : isUnreserved c (k, v) = true := by simp [isUnreserved, hd, hr]
        have hrid : (item.reserve opts.ReserveDeadline).ID = k := by
          rw [Item.reserve_ID]; exact hid
        obtain ⟨ha, hacc1⟩ := hacc (item.reserve opts.ReserveDeadline)
        have hput : Bucket.Put (pre ++ (k, v) :: rest) k
            (c.encode (item.reserve opts.ReserveDeadline))
            = pre ++ (k, c.encode (item.reserve opts.ReserveDeadline)) :: rest :=
          Bucket.Put_mid pre k v _ rest (keys_lt_of_sorted pre k v rest hs)
        have hs1 : (((pre ++ [(k, c.encode (item.reserve opts.ReserveDeadline))]) ++ rest).map
            Prod.fst).Pairwise (fun x y => x < y) := by simpa using hs
        obtain ⟨h1, h2⟩ := ih (pre ++ [(k, c.encode (item.reserve opts.ReserveDeadline))])
          (batch.Next it (item.reserve opts.ReserveDeadline)).2 (cnt + 1)
          (tr ++ [(item.reserve opts.ReserveDeadline, true)]) n hs1 hok1
          (by rw [hn]; push_cast; omega) hacc1
        simp only [List.append_assoc, List.singleton_append] at h1 h2
        refine ⟨?_, ?_⟩
        · simp only [reserveLoop, hc, hd, hr, ha, hrid, hput, if_true, if_false]
          simpa using h1
        · simp only [reserveLoop, hc, hd, hr, ha, hrid, hput, if_true, if_false]
          simp [h2, markFirst, hun, reservedValue, hd]

theorem Reserve_handed_sorted {σ : Type} (c : Codec) (b : BoltPartition)
    (batch : ReserveBatch σ) (opts : ReserveOptions) (bucket : Bucket)
    (hb : b.db.queue = some bucket) (hwf : Bucket.WF c bucket) :
    ((BoltPartition.Reserve c b batch opts).handed.map (fun h => h.1.ID)).Pairwise
      (fun x y => x < y) := by
  obtain ⟨j, m, _, _, _, _, _, _, _, h4⟩ := Reserve_spec c b batch opts bucket hb hwf
  have : (BoltPartition.Reserve c b batch opts).handed.map (fun h => h.1.ID)
      = ((BoltPartition.Reserve c b batch opts).handed.map (fun h => h.1)).map
          (fun x => x.ID) := by simp
  rw [this, h4, offered_ids c _ bucket m hwf.2]
  exact firstUnreserved_keys_sorted c bucket m hwf.1

theorem Reserve_frame_spec {σ : Type} (c : Codec) (b : BoltPartition) (batch : ReserveBatch σ)
    (opts : ReserveOptions) (bucket : Bucket) (hb : b.db.queue = some bucket)
    (hwf : Bucket.WF c bucket) :
    ∃ after, (BoltPartition.Reserve c b batch opts).err = none ∧
      (BoltPartition.Reserve c b batch opts).db.queue = some after ∧
      Bucket.WF c after ∧
      after.map Prod.fst = bucket.map Prod.fst ∧
      (∀ kv ∈ bucket, (∀ x ∈ (BoltPartition.Reserve c b batch opts).accepted, x.ID ≠ kv.1) →
        kv ∈ after) ∧
      (∀ x ∈ (BoltPartition.Reserve c b batch opts).accepted, ∃ v old, (x.ID, v) ∈ bucket ∧
        c.decode v = some old ∧ isUnreserved c (x.ID, v) = true ∧
        (x.ID, c.encode x) ∈ after ∧ x = old.reserve opts.ReserveDeadline) := by
  obtain ⟨j, m, _, _, _, _, h1, h2, h3, _⟩ := Reserve_spec c b batch opts bucket hb hwf
  refine ⟨markFirst c opts.ReserveDeadline bucket j, h1, by simp [h2],
    markFirst_WF c _ bucket j hwf, markFirst_keys c _ bucket j, ?_, ?_⟩
  · intro kv hkv hne
    apply markFirst_keeps c _ bucket j kv hkv
    intro hin
    rw [← offered_ids c opts.ReserveDeadline bucket j hwf.2, ← h3] at hin
    rcases List.mem_map.mp hin with ⟨x, hx, hxk⟩
    exact hne x hx hxk
  · intro x hx
    rw [h3] at hx
    obtain ⟨kv, old, hkv, hd, hxe⟩ := mem_offered c _ bucket j x hx
    have hmem : kv ∈ bucket := (firstUnreserved_sublist c bucket j).subset hkv
    obtain ⟨item, hd1, hid⟩ := entryOK_decode c kv (hwf.2 kv hmem)
    rw [hd] at hd1
    have hio : old = item := Option.some.inj hd1
    have hxid : x.ID = kv.1 := by rw [hxe, Item.reserve_ID, hio, hid]
    have hmark := markFirst_marks c opts.ReserveDeadline bucket j kv hkv
    refine ⟨kv.2, old, ?_, hd, ?_, ?_, hxe⟩
    · rw [hxid]; exact hmem
    · rw [hxid]; exact firstUnreserved_unreserved c bucket j kv hkv
    · rw [hxid, hxe]
      simpa [reservedValue, hd] using hmark

/-! ## Complete -/

theorem Bucket.Get_Delete (b : Bucket) (k id : Bytes) :
    Bucket.Get (Bucket.Delete b k) id = if id = k then none else Bucket.Get b id := by
  induction b with
  | nil => simp [Bucket.Delete, Bucket.Get]
  | cons x b ih =>
    obtain ⟨k0, v0⟩ := x
    unfold Bucket.Delete at ih ⊢
    by_cases h0 : k0 = k
    · subst h0
      by_cases hid : id = k0
      · subst hid
        simpa [List.filter_cons, Bucket.Get] using ih
      · have hne : ¬ k0 = id := fun e => hid e.symm
        simpa [List.filter_cons, Bucket.Get, hid, hne] using ih
    · by_cases hid : id = k
      · subst hid
        simpa [List.filter_cons, Bucket.Get, h0] using ih
      · by_cases h1 : k0 = id
        · subst h1
          simp [List.filter_cons, Bucket.Get, h0]
        · simpa [List.filter_cons, Bucket.Get, h0, h1, hid] using ih

theorem Bucket.Get_deleteAll (ids : List Bytes) :
    ∀ (b : Bucket) (id : Bytes),
      Bucket.Get (deleteAll b ids) id = if id ∈ ids then none else Bucket.Get b id := by
  induction ids with
  | nil => intro b id; simp [deleteAll]
  | cons k ids ih =>
    intro b id
    have h := ih (Bucket.Delete b k) id
    simp only [deleteAll, List.foldl_cons] at h ⊢
    rw [h, Bucket.Get_Delete]
    by_cases h1 : id ∈ ids
    · simp [h1]
    · by_cases h2 : id = k
      · simp [h2]
      · simp [h1, h2]

theorem deleteAll_append (b : Bucket) (l1 l2 : List Bytes) :
    deleteAll b (l1 ++ l2) = deleteAll (deleteAll b l1) l2 := by
  simp [deleteAll, List.foldl_append]

theorem deleteAll_cons (b : Bucket) (id : Bytes) (l : List Bytes) :
    deleteAll b (id :: l) = deleteAll (Bucket.Delete b id) l := by
  simp [deleteAll]

theorem Bucket.mem_of_Get (b : Bucket) (id v : Bytes) (h : Bucket.Get b id = some v) :
    (id, v) ∈ b := by
  induction b with
  | nil => simp [Bucket.Get] at h
  | cons x b ih =>
    obtain ⟨k0, v0⟩ := x
    unfold Bucket.Get at h
    split at h
    · rename_i hk
      simp only [Option.some.injEq] at h
      simp [hk, h]
    · exact List.mem_cons_of_mem _ (ih h)

theorem Bucket.Decodable_Delete (c : Codec) (b : Bucket) (k : Bytes)
    (h : Bucket.Decodable c b) : Bucket.Decodable c (Bucket.Delete b k) :=
  fun kv hkv => h kv (List.mem_of_mem_filter hkv)

theorem Bucket.Decodable_deleteAll (c : Codec) (ids : List Bytes) :
    ∀ b : Bucket, Bucket.Decodable c b → Bucket.Decodable c (deleteAll b ids) := by
  induction ids with
  | nil => intro b h; simpa [deleteAll] using h
  | cons k ids ih =>
    intro b h
    rw [deleteAll_cons]
    exact ih _ (Bucket.Decodable_Delete c b k h)

theorem Bucket.WF_Decodable (c : Codec) (b : Bucket) (h : Bucket.WF c b) :
    Bucket.Decodable c b := by
  intro kv hkv
  obtain ⟨item, hd, _⟩ := entryOK_decode c kv (h.2 kv hkv)
  simp [hd]

theorem allCompletable_nil (c : Codec) (b : Bucket) : allCompletable c b [] := by
  intro pre id post h
  simp at h

theorem allCompletable_cons (c : Codec) (b : Bucket) (id : Bytes) (rest : List Bytes) :
    allCompletable c b (id :: rest) ↔
      idStatus c b id = IdStatus.completable ∧ allCompletable c (Bucket.Delete b id) rest := by
  constructor
  · intro h
    refine ⟨?_, ?_⟩
    · simpa [deleteAll] using h [] id rest rfl
    · intro pre id1 post he
      have := h (id :: pre) id1 post (by simp [he])
      simpa [deleteAll_cons] using this
  · rintro ⟨h0, h1⟩ pre id1 post he
    cases pre with
    | nil =>
      simp only [List.nil_append, List.cons.injEq] at he
      rw [← he.1]
      simpa [deleteAll] using h0
    | cons p pre =>
      simp only [List.cons_append, List.cons.injEq] at he
      rw [← he.1, deleteAll_cons]
      exact h1 pre id1 post he.2

/-- The four ways the body of the inner loop of `Complete` can go, by the standing of the
id, on a bucket whose values decode. -/
theorem completeIds_cons (c : Codec) (b : Bucket) (id : Bytes) (rest : List Bytes)
    (hdec : Bucket.Decodable c b) :
    completeIds c (id :: rest) b =
      if idStatus c b id = IdStatus.completable then completeIds c rest (Bucket.Delete b id)
      else .ok (b, (idStatus c b id).error) := by
  simp only [completeIds, idStatus]
  cases hv : BoltPartition.validateID id with
  | some e => simp [IdStatus.error]
  | none =>
    cases hg : Bucket.Get b id with
    | none => simp [IdStatus.error]
    | some v =>
      have hmem := Bucket.mem_of_Get b id v hg
      have hsome := hdec (id, v) hmem
      cases hd : c.decode v with
      | none => simp [hd] at hsome
      | some item =>
        cases hr : item.IsReserved <;> simp [isReserved, hd, hr, IdStatus.error]

theorem completeIds_spec (c : Codec) (ids : List Bytes) :
    ∀ b : Bucket, Bucket.Decodable c b →
      ∃ perr, completeIds c ids b = .ok (deleteAll b (completedIds c b ids), perr) ∧
        (allCompletable c b ids → perr = none) ∧
        (∀ pre id post, ids = pre ++ id :: post → allCompletable c b pre →
          idStatus c (deleteAll b pre) id ≠ IdStatus.completable →
          perr = (idStatus c (deleteAll b pre) id).error) := by
  induction ids with
  | nil =>
    intro b _
    refine ⟨none, by simp [completeIds, completedIds, deleteAll], fun _ => rfl, ?_⟩
    intro pre id post h
    simp at h
  | cons id ids ih =>
    intro b hdec
    rw [completeIds_cons c b id ids hdec]
    by_cases hs : idStatus c b id = IdStatus.completable
    · obtain ⟨perr, h1, h2, h3⟩ := ih (Bucket.Delete b id) (Bucket.Decodable_Delete c b id hdec)
      refine ⟨perr, ?_, ?_, ?_⟩
      · simp only [hs, if_true, completedIds, deleteAll_cons]
        exact h1
      · intro hall
        exact h2 ((allCompletable_cons c b id ids).mp hall).2
      · intro pre id1 post he hall hne
        cases pre with
        | nil =>
          simp only [List.nil_append, List.cons.injEq] at he
          rw [← he.1] at hne
          exact absurd hs (by simpa [deleteAll] using hne)
        | cons p pre =>
          simp only [List.cons_append, List.cons.injEq] at he
          rw [← he.1] at hall hne ⊢
          rw [deleteAll_cons] at hne ⊢
          exact h3 pre id1 post he.2 ((allCompletable_cons c b id pre).mp hall).2 hne
    · refine ⟨(idStatus c b id).error, ?_, ?_, ?_⟩
      · simp [hs, completedIds, deleteAll]
      · intro hall
        exact absurd ((allCompletable_cons c b id ids).mp hall).1 hs
      · intro pre id1 post he hall hne
        cases pre with
        | nil =>
          simp only [List.nil_append, List.cons.injEq] at he
          rw [← he.1]
          simp [deleteAll]
        | cons p pre =>
          simp only [List.cons_append, List.cons.injEq] at he
          rw [← he.1] at hall
          exact absurd ((allCompletable_cons c b id pre).mp hall).1 hs

/-- The request as `Complete` leaves it: `Err` is overwritten when the inner loop recorded
an error. -/
theorem completeRequests_cons (c : Codec) (r : CompleteRequest) (rest : List CompleteRequest)
    (b b1 : Bucket) (perr : Option Error) (h : completeIds c r.Ids b = .ok (b1, perr)) :
    completeRequests c (r :: rest) b =
      ((completeRequests c rest b1).1, (completeRequests c rest b1).2.1,
        { Ids := r.Ids, Err := if perr.isSome then perr else r.Err } ::
          (completeRequests c rest b1).2.2) := by
  simp only [completeRequests, h]
  cases perr <;> simp

theorem completeRequests_length (c : Codec) (reqs : List CompleteRequest) :
    ∀ b : Bucket, (completeRequests c reqs b).2.2.length = reqs.length := by
  induction reqs with
  | nil => intro b; simp [completeRequests]
  | cons r reqs ih =>
    intro b
    unfold completeRequests
    split
    · simp
    · simp [ih]

theorem completeRequests_spec (c : Codec) (reqs : List CompleteRequest) :
    ∀ b : Bucket, Bucket.Decodable c b →
      (completeRequests c reqs b).1 = none ∧
      (completeRequests c reqs b).2.1 = deleteAll b (completedBatch c b reqs) := by
  induction reqs with
  | nil => intro b _; simp [completeRequests, completedBatch, deleteAll]
  | cons r reqs ih =>
    intro b hdec
    obtain ⟨perr, h1, _, _⟩ := completeIds_spec c r.Ids b hdec
    rw [completeRequests_cons c r reqs b _ perr h1]
    obtain ⟨i1, i2⟩ := ih _ (Bucket.Decodable_deleteAll c (completedIds c b r.Ids) b hdec)
    exact ⟨i1, by simp only [i2, completedBatch, deleteAll_append]⟩

theorem completeRequests_Decodable (c : Codec) (reqs : List CompleteRequest) (b : Bucket)
    (hdec : Bucket.Decodable c b) : Bucket.Decodable c (completeRequests c reqs b).2.1 := by
  rw [(completeRequests_spec c reqs b hdec).2]
  exact Bucket.Decodable_deleteAll c _ b hdec

theorem completeRequests_append (c : Codec) (l1 l2 : List CompleteRequest) :
    ∀ b : Bucket, Bucket.Decodable c b →
      completeRequests c (l1 ++ l2) b =
        ((completeRequests c l2 (completeRequests c l1 b).2.1).1,
          (completeRequests c l2 (completeRequests c l1 b).2.1).2.1,
          (completeRequests c l1 b).2.2 ++ (completeRequests c l2 (completeRequests c l1 b).2.1).2.2) := by
  induction l1 with
  | nil => intro b _; simp [completeRequests]
  | cons r l1 ih =>
    intro b hdec
    obtain ⟨perr, h1, _, _⟩ := completeIds_spec c r.Ids b hdec
    have hdec1 := Bucket.Decodable_deleteAll c (completedIds c b r.Ids) b hdec
    rw [List.cons_append, completeRequests_cons c r (l1 ++ l2) b _ perr h1,
      completeRequests_cons c r l1 b _ perr h1, ih _ hdec1]
    simp

theorem completedBatch_subset (c : Codec) (reqs : List CompleteRequest) :
    ∀ (b : Bucket) (id : Bytes), id ∈ completedBatch c b reqs → id ∈ allIds reqs := by
  have hsub : ∀ (ids : List Bytes) (b : Bucket) (id : Bytes),
      id ∈ completedIds c b ids → id ∈ ids := by
    intro ids
    induction ids with
    | nil => intro b id h; simp [completedIds] at h
    | cons x ids ih =>
      intro b id h
      unfold completedIds at h
      split at h
      · rcases List.mem_cons.mp h with h1 | h1
        · simp [h1]
        · exact List.mem_cons_of_mem _ (ih _ id h1)
      · simp at h
  induction reqs with
  | nil => intro b id h; simp [completedBatch] at h
  | cons r reqs ih =>
    intro b id h
    simp only [completedBatch, List.mem_append] at h
    simp only [allIds, List.mem_append]
    rcases h with h1 | h1
    · exact Or.inl (hsub _ _ _ h1)
    · exact Or.inr (ih _ id h1)

/-- How `Complete` leaves the request at a given place of the batch, on a bucket whose
values decode. -/
theorem Complete_request_view (c : Codec) (b : BoltPartition) (batch : Batch CompleteRequest)
    (bucket : Bucket) (hb : b.db.queue = some bucket) (hdec : Bucket.Decodable c bucket)
    (before : List CompleteRequest) (r : CompleteRequest) (rest : List CompleteRequest)
    (hsplit : batch.Requests = before ++ r :: rest) :
    ∃ perr before1 rest1,
      completeIds c r.Ids (completeRequests c before bucket).2.1
        = .ok (deleteAll (completeRequests c before bucket).2.1
            (completedIds c (completeRequests c before bucket).2.1 r.Ids), perr) ∧
      (BoltPartition.Complete c b batch).requests
        = before1 ++ { Ids := r.Ids, Err := if perr.isSome then perr else r.Err } :: rest1 ∧
      before1.length = before.length := by
  have hdecB := completeRequests_Decodable c before bucket hdec
  obtain ⟨perr, h1, _, _⟩ := completeIds_spec c r.Ids _ hdecB
  have hnone := (completeRequests_spec c batch.Requests bucket hdec).1
  refine ⟨perr, (completeRequests c before bucket).2.2,
    (completeRequests c rest (deleteAll (completeRequests c before bucket).2.1
      (completedIds c (completeRequests c before bucket).2.1 r.Ids))).2.2, h1, ?_,
    completeRequests_length c before bucket⟩
  simp only [BoltPartition.Complete, DB.Bucket, hb, hnone]
  rw [hsplit, completeRequests_append c before (r :: rest) bucket hdec,
    completeRequests_cons c r rest _ _ perr h1]

theorem Complete_commits (c : Codec) (b : BoltPartition) (batch : Batch CompleteRequest)
    (bucket : Bucket) (hb : b.db.queue = some bucket) (hdec : Bucket.Decodable c bucket) :
    (BoltPartition.Complete c b batch).err = none ∧
    (BoltPartition.Complete c b batch).db.queue
      = some (deleteAll bucket (completedBatch c bucket batch.Requests)) := by
  obtain ⟨h1, h2⟩ := completeRequests_spec c batch.Requests bucket hdec
  simp [BoltPartition.Complete, DB.Bucket, hb, h1, h2]

theorem allIds_append (l1 l2 : List CompleteRequest) :
    allIds (l1 ++ l2) = allIds l1 ++ allIds l2 := by
  induction l1 with
  | nil => simp [allIds]
  | cons r l1 ih => simp [allIds, ih]

theorem completedBatch_append (c : Codec) (l1 l2 : List CompleteRequest) :
    ∀ b : Bucket, completedBatch c b (l1 ++ l2) =
      completedBatch c b l1 ++ completedBatch c (deleteAll b (completedBatch c b l1)) l2 := by
  induction l1 with
  | nil => intro b; simp [completedBatch, deleteAll]
  | cons r l1 ih =>
    intro b
    simp [completedBatch, ih, deleteAll_append]

theorem completedIds_of_all (c : Codec) (ids : List Bytes) :
    ∀ b : Bucket, allCompletable c b ids → completedIds c b ids = ids := by
  induction ids with
  | nil => intro b _; simp [completedIds]
  | cons id ids ih =>
    intro b h
    obtain ⟨h0, h1⟩ := (allCompletable_cons c b id ids).mp h
    simp [completedIds, h0, ih _ h1]

theorem idStatus_completable_iff (c : Codec) (b : Bucket) (id : Bytes) :
    idStatus c b id = IdStatus.completable ↔
      BoltPartition.validateID id = none ∧
        ∃ v, Bucket.Get b id = some v ∧ isReserved c (id, v) = true := by
  unfold idStatus
  cases hv : BoltPartition.validateID id with
  | some e => simp
  | none =>
    cases hg : Bucket.Get b id with
    | none => simp
    | some v => cases hr : isReserved c (id, v) <;> simp [hr]

/-! ## The length of the ids -/

theorem ksuid.encodeBase62_length (n v : Nat) : (ksuid.encodeBase62 n v).length = n := by
  induction n generalizing v with
  | zero => rfl
  | succ n ih => simp [ksuid.encodeBase62, ih]

theorem KSUID.String_length (id : KSUID) : (stringBytes id.String).length = 27 := by
  simp [stringBytes, KSUID.String, ksuid.encodeBase62_length, ksuid.stringEncodedLength]

theorem validateID_iff (id : Bytes) : BoltPartition.validateID id = none ↔ id.length = 20 := by
  unfold BoltPartition.validateID ksuid.FromBytes ksuid.byteLength
  by_cases h : id.length = 20 <;> simp [h]


/-! ## List -/

theorem decodeAll_cons (c : Codec) (k v : Bytes) (rest : List (Bytes × Bytes)) (item : Item)
    (h : c.decode v = some item) : decodeAll c ((k, v) :: rest) = item :: decodeAll c rest := by
  simp [decodeAll, List.filterMap_cons, h]

theorem listLoop_spec (c : Codec) (limit : Int) (rest : List (Bytes × Bytes)) :
    ∀ (count : Int) (items : List Item), Bucket.Decodable c rest →
      listLoop c limit rest count items
        = (none, items ++ decodeAll c (rest.take (limit - count).toNat)) := by
  induction rest with
  | nil => intro count items _; simp [listLoop, decodeAll]
  | cons x rest ih =>
    intro count items hdec
    obtain ⟨k, v⟩ := x
    have hdec1 : Bucket.Decodable c rest := fun kv h => hdec kv (List.mem_cons_of_mem _ h)
    have hsome := hdec (k, v) (by simp)
    cases hd : c.decode v with
    | none => simp [hd] at hsome
    | some item =>
      by_cases hc : count ≥ limit
      · have h0 : (limit - count).toNat = 0 := by omega
        simp [listLoop, hc, h0, decodeAll]
      · have h1 : (limit - count).toNat = (limit - (count + 1)).toNat + 1 := by omega
        simp only [listLoop, hc, if_false, hd]
        rw [ih (count + 1) (items ++ [item]) hdec1, h1, List.take_succ_cons,
          decodeAll_cons c k v _ item hd]
        simp

theorem listFrom_spec (c : Codec) (limit : Int) (start : List (Bytes × Bytes))
    (items : List Item) (hdec : Bucket.Decodable c start) :
    listFrom c limit start items
      = (none, items ++ decodeAll c (start.take (max 1 limit).toNat)) := by
  cases start with
  | nil => simp [listFrom, decodeAll]
  | cons x rest =>
    obtain ⟨k, v⟩ := x
    have hdec1 : Bucket.Decodable c rest := fun kv h => hdec kv (List.mem_cons_of_mem _ h)
    have hsome := hdec (k, v) (by simp)
    cases hd : c.decode v with
    | none => simp [hd] at hsome
    | some item =>
      have h1 : (max 1 limit).toNat = (limit - 1).toNat + 1 := by omega
      simp only [listFrom, hd]
      rw [listLoop_spec c limit rest 1 _ hdec1, h1, List.take_succ_cons,
        decodeAll_cons c k v _ item hd]
      simp

theorem decodeAll_length (c : Codec) (l : List (Bytes × Bytes)) (hdec : Bucket.Decodable c l) :
    (decodeAll c l).length = l.length := by
  induction l with
  | nil => simp [decodeAll]
  | cons x l ih =>
    obtain ⟨k, v⟩ := x
    have hsome := hdec (k, v) (by simp)
    cases hd : c.decode v with
    | none => simp [hd] at hsome
    | some item =>
      rw [decodeAll_cons c k v l item hd]
      simp [ih (fun kv h => hdec kv (List.mem_cons_of_mem _ h))]

/-- `List` without a pivot, on a bucket whose values decode: the first `max 1 limit`
items are appended. -/
theorem List_from_start (c : Codec) (b : BoltPartition) (bucket : Bucket) (items : List Item)
    (limit : Int) (hb : b.db.queue = some bucket) (hdec : Bucket.Decodable c bucket) :
    BoltPartition.List c b items { Pivot := none, Limit := limit }
      = (none, items ++ decodeAll c (bucket.take (max 1 limit).toNat)) := by
  simp [BoltPartition.List, DB.Bucket, hb, listFrom_spec c limit bucket items hdec]

/-- `List` with a pivot that passes `validateID`, on a bucket whose values decode: the
first `max 1 limit` items from the first key not below the pivot are appended; the call
fails when no key is at or above the pivot. -/
theorem List_from_pivot (c : Codec) (b : BoltPartition) (bucket : Bucket) (items : List Item)
    (pivot : Bytes) (limit : Int) (hb : b.db.queue = some bucket)
    (hdec : Bucket.Decodable c bucket) (hv : BoltPartition.validateID pivot = none) :
    BoltPartition.List c b items { Pivot := some pivot, Limit := limit }
      = if Bucket.Seek bucket pivot = [] then (some errPivotNotExist, items)
        else (none, items ++ decodeAll c ((Bucket.Seek bucket pivot).take (max 1 limit).toNat)) := by
  have hdecS : Bucket.Decodable c (Bucket.Seek bucket pivot) :=
    fun kv h => hdec kv ((List.dropWhile_sublist _).subset h)
  cases hs : Bucket.Seek bucket pivot with
  | nil => simp [BoltPartition.List, DB.Bucket, hb, hv, hs]
  | cons x rest =>
    rw [hs] at hdecS
    simp [BoltPartition.List, DB.Bucket, hb, hv, hs, listFrom_spec c limit _ items hdecS]

theorem decodeAll_length_le (c : Codec) (l : List (Bytes × Bytes)) :
    (decodeAll c l).length ≤ l.length := by
  unfold decodeAll
  exact List.length_filterMap_le _ l

/-- With a limit of at least 1 and no pivot, `List` appends at most `limit` items. -/
theorem List_appended_le (c : Codec) (b : BoltPartition) (bucket : Bucket) (items : List Item)
    (limit : Int) (hb : b.db.queue = some bucket) (hdec : Bucket.Decodable c bucket)
    (hlimit : 1 ≤ limit) :
    ((BoltPartition.List c b items { Pivot := none, Limit := limit }).2.length : Int)
      ≤ items.length + limit := by
  rw [List_from_start c b bucket items limit hb hdec]
  have h1 := decodeAll_length_le c (bucket.take (max 1 limit).toNat)
  have h2 : (bucket.take (max 1 limit).toNat).length ≤ (max 1 limit).toNat :=
    List.length_take_le _ _
  simp only [List.length_append, Nat.cast_add]
  omega

/-! ## Clear and Delete -/

theorem deleteAll_eq_filter (ids : List Bytes) :
    ∀ b : Bucket, deleteAll b ids = b.filter (fun kv => decide (kv.1 ∉ ids)) := by
  induction ids with
  | nil => intro b; simp [deleteAll]
  | cons id ids ih =>
    intro b
    rw [deleteAll_cons, ih, Bucket.Delete, List.filter_filter]
    apply List.filter_congr
    intro kv _
    by_cases h1 : kv.1 = id <;> by_cases h2 : kv.1 ∈ ids <;> simp [h1, h2]

theorem clearLoop_spec (c : Codec) (rest : List (Bytes × Bytes)) :
    ∀ b : Bucket, Bucket.Decodable c rest →
      clearLoop c rest b
        = .ok (deleteAll b ((rest.filter (isUnreserved c)).map Prod.fst)) := by
  induction rest with
  | nil => intro b _; simp [clearLoop, deleteAll]
  | cons x rest ih =>
    intro b hdec
    obtain ⟨k, v⟩ := x
    have hdec1 : Bucket.Decodable c rest := fun kv h => hdec kv (List.mem_cons_of_mem _ h)
    have hsome := hdec (k, v) (by simp)
    cases hd : c.decode v with
    | none => simp [hd] at hsome
    | some item =>
      cases hr : item.IsReserved with
      | true =>
        have hun : isUnreserved c (k, v) = false := by simp [isUnreserved, hd, hr]
        simp [clearLoop, hd, hr, ih b hdec1, List.filter_cons, hun]
      | false =>
        have hun : isUnreserved c (k, v) = true := by simp [isUnreserved, hd, hr]
        simp [clearLoop, hd, hr, ih _ hdec1, List.filter_cons, hun, deleteAll_cons]

theorem deleteLoop_spec (ids : List Bytes) :
    ∀ b : Bucket, (∀ id ∈ ids, BoltPartition.validateID id = none) →
      deleteLoop ids b = .ok (deleteAll b ids) := by
  induction ids with
  | nil => intro b _; simp [deleteLoop, deleteAll]
  | cons id ids ih =>
    intro b h
    have h0 := h id (by simp)
    simp [deleteLoop, h0, ih _ (fun x hx => h x (List.mem_cons_of_mem _ hx)), deleteAll_cons]

theorem deleteLoop_invalid (ids : List Bytes) :
    ∀ b : Bucket, (∃ id ∈ ids, BoltPartition.validateID id ≠ none) →
      deleteLoop ids b = .error errInvalidID := by
  induction ids with
  | nil => intro b h; simp at h
  | cons id ids ih =>
    intro b h
    cases hv : BoltPartition.validateID id with
    | some e => simp [deleteLoop, hv]
    | none =>
      have h1 : ∃ x ∈ ids, BoltPartition.validateID x ≠ none := by
        obtain ⟨x, hx, hne⟩ := h
        rcases List.mem_cons.mp hx with e | e
        · rw [e] at hne; exact absurd hv hne
        · exact ⟨x, e, hne⟩
      simp [deleteLoop, hv, ih _ h1]

/-! ## Stats -/

theorem wrapInt64_of_fits (x : Int) (h : fitsInt64 x) : wrapInt64 x = x := by
  unfold fitsInt64 at h
  unfold wrapInt64
  omega

theorem Time.Sub_of_fits (t u : Int) (h : fitsInt64 (t - u)) : Time.Sub t u = t - u := by
  have key : ∀ x : Int, fitsInt64 x →
      (if x > 2 ^ 63 - 1 then 2 ^ 63 - 1 else if x < -(2 ^ 63) then -(2 ^ 63) else x) = x := by
    intro x hx
    unfold fitsInt64 at hx
    split_ifs <;> omega
  exact key (t - u) h

theorem fitsInt64_tdiv (a b : Int) (ha : fitsInt64 a) (hb : 0 < b) :
    fitsInt64 (Int.tdiv a b) := by
  unfold fitsInt64 at ha ⊢
  rcases Int.le_total 0 a with h | h
  · have h1 : 0 ≤ Int.tdiv a b := Int.tdiv_nonneg h (le_of_lt hb)
    have h2 : Int.tdiv a b ≤ a := by
      rw [Int.tdiv_eq_ediv h (le_of_lt hb)]
      exact Int.ediv_le_self b h
    omega
  · have hn : 0 ≤ -a := by omega
    have h1 : 0 ≤ Int.tdiv (-a) b := Int.tdiv_nonneg hn (le_of_lt hb)
    have h2 : Int.tdiv (-a) b ≤ -a := by
      rw [Int.tdiv_eq_ediv hn (le_of_lt hb)]
      exact Int.ediv_le_self b hn
    rw [Int.neg_tdiv] at h1 h2
    omega

theorem statsLoop_spec (c : Codec) (now : Time) (rest : List (Bytes × Bytes)) :
    ∀ st : QueueStats, Bucket.Decodable c rest →
      0 ≤ st.Total → st.Total + rest.length < 2 ^ 63 →
      0 ≤ st.TotalReserved → st.TotalReserved + rest.length < 2 ^ 63 →
      sumsFit st.AverageAge (ageTerms now (decodeAll c rest)) →
      sumsFit st.AverageReservedAge (reservedTerms now (decodeAll c rest)) →
      statsLoop c now rest st = (none,
        { st with
          Total := st.Total + rest.length,
          TotalReserved := st.TotalReserved
            + ((decodeAll c rest).filter (fun item => item.IsReserved)).length,
          AverageAge := st.AverageAge + (ageTerms now (decodeAll c rest)).sum,
          AverageReservedAge := st.AverageReservedAge
            + (reservedTerms now (decodeAll c rest)).sum }) := by
  induction rest with
  | nil =>
    intro st _ _ _ _ _ _ _
    simp [statsLoop, decodeAll, ageTerms, reservedTerms]
  | cons x rest ih =>
    intro st hdec ht0 ht1 hr0 hr1 hage hres
    obtain ⟨k, v⟩ := x
    have hdec1 : Bucket.Decodable c rest := fun kv h => hdec kv (List.mem_cons_of_mem _ h)
    have hsome := hdec (k, v) (by simp)
    simp only [List.length_cons, Nat.cast_add, Nat.cast_one] at ht1 hr1
    cases hd : c.decode v with
    | none => simp [hd] at hsome
    | some item =>
      rw [decodeAll_cons c k v rest item hd] at hage hres ⊢
      simp only [ageTerms, List.map_cons, sumsFit] at hage
      obtain ⟨ha1, ha2, ha3⟩ := hage
      have hT : wrapInt64 (st.Total + 1) = st.Total + 1 :=
        wrapInt64_of_fits _ (by unfold fitsInt64; omega)
      have hA : wrapInt64 (st.AverageAge + Time.Sub now item.CreatedAt)
          = st.AverageAge + (now - item.CreatedAt) := by
        rw [Time.Sub_of_fits _ _ ha1]
        exact wrapInt64_of_fits _ ha2
      cases hr : item.IsReserved with
      | false =>
        have hres1 : sumsFit st.AverageReservedAge (reservedTerms now (decodeAll c rest)) := by
          simpa [reservedTerms, List.filter_cons, hr] using hres
        have hS : statsItem now st item
            = { st with Total := st.Total + 1,
                        AverageAge := st.AverageAge + (now - item.CreatedAt) } := by
          simp [statsItem, hr, hT, hA]
        have := ih (statsItem now st item) hdec1
          (by rw [hS]; show 0 ≤ st.Total + 1; omega)
          (by rw [hS]; show st.Total + 1 + (rest.length : Int) < 2 ^ 63; omega)
          (by rw [hS]; exact hr0)
          (by rw [hS]; show st.TotalReserved + (rest.length : Int) < 2 ^ 63; omega)
          (by rw [hS]; exact ha3)
          (by rw [hS]; exact hres1)
        simp only [statsLoop, hd]
        rw [this, hS]
        simp only [ageTerms, reservedTerms, List.filter_cons, hr, List.map_cons, List.sum_cons,
          List.length_cons, Nat.cast_add, Nat.cast_one, Bool.false_eq_true, if_false]
        congr 1
        rw [QueueStats.mk.injEq]
        refine ⟨by ring, rfl, by ring, rfl, rfl, rfl, rfl, rfl⟩
      | true =>
        simp only [reservedTerms, List.filter_cons, hr, if_true, List.map_cons, sumsFit] at hres
        obtain ⟨hb1, hb2, hb3⟩ := hres
        have hR : wrapInt64 (st.TotalReserved + 1) = st.TotalReserved + 1 :=
          wrapInt64_of_fits _ (by unfold fitsInt64; omega)
        have hB : wrapInt64 (st.AverageReservedAge + Time.Sub item.ReserveDeadline now)
            = st.AverageReservedAge + (item.ReserveDeadline - now) := by
          rw [Time.Sub_of_fits _ _ hb1]
          exact wrapInt64_of_fits _ hb2
        have hS : statsItem now st item
            = { st with Total := st.Total + 1,
                        AverageAge := st.AverageAge + (now - item.CreatedAt),
                        TotalReserved := st.TotalReserved + 1,
                        AverageReservedAge :=
                          st.AverageReservedAge + (item.ReserveDeadline - now) } := by
          simp [statsItem, hr, hT, hA, hR, hB]
        have := ih (statsItem now st item) hdec1
          (by rw [hS]; show 0 ≤ st.Total + 1; omega)
          (by rw [hS]; show st.Total + 1 + (rest.length : Int) < 2 ^ 63; omega)
          (by rw [hS]; show 0 ≤ st.TotalReserved + 1; omega)
          (by rw [hS]; show st.TotalReserved + 1 + (rest.length : Int) < 2 ^ 63; omega)
          (by rw [hS]; exact ha3)
          (by rw [hS]; exact hb3)
        simp only [statsLoop, hd]
        rw [this, hS]
        simp only [ageTerms, reservedTerms, List.filter_cons, hr, List.map_cons, List.sum_cons,
          List.length_cons, Nat.cast_add, Nat.cast_one, if_true]
        congr 1
        rw [QueueStats.mk.injEq]
        refine ⟨by ring, by ring, by ring, by ring, rfl, rfl, rfl, rfl⟩

theorem sumsFit_sum (l : List Int) : ∀ acc : Int, fitsInt64 acc → sumsFit acc l →
    fitsInt64 (acc + l.sum) := by
  induction l with
  | nil => intro acc h _; simpa using h
  | cons t l ih =>
    intro acc _ h
    obtain ⟨_, h2, h3⟩ := h
    have := ih (acc + t) h2 h3
    rw [List.sum_cons, ← Int.add_assoc]
    exact this

theorem statsAverages_Total (s : QueueStats) : (statsAverages s).Total = s.Total := by
  simp only [statsAverages]; split_ifs <;> rfl

theorem statsAverages_TotalReserved (s : QueueStats) :
    (statsAverages s).TotalReserved = s.TotalReserved := by
  simp only [statsAverages]; split_ifs <;> rfl

theorem statsAverages_AverageAge (s : QueueStats) (h : s.Total ≠ 0) :
    (statsAverages s).AverageAge = wrapInt64 (Int.tdiv s.AverageAge s.Total) := by
  simp only [statsAverages, h, ne_eq, not_false_eq_true, if_true]; split_ifs <;> rfl

theorem statsAverages_AverageReservedAge (s : QueueStats) (h : s.TotalReserved ≠ 0) :
    (statsAverages s).AverageReservedAge
      = wrapInt64 (Int.tdiv s.AverageReservedAge s.TotalReserved) := by
  have h1 : (if s.Total ≠ 0 then
      ({ s with AverageAge := wrapInt64 (Int.tdiv s.AverageAge s.Total) } : QueueStats)
      else s).TotalReserved = s.TotalReserved := by split_ifs <;> rfl
  have h2 : (if s.Total ≠ 0 then
      ({ s with AverageAge := wrapInt64 (Int.tdiv s.AverageAge s.Total) } : QueueStats)
      else s).AverageReservedAge = s.AverageReservedAge := by split_ifs <;> rfl
  simp only [statsAverages]
  rw [if_pos (by rw [h1]; exact h)]
  simp only [h1, h2]

/-! ## The order of the ids -/

theorem KSUID.toNat_lt (u : KSUID) : u.toNat < 2 ^ 160 := by
  unfold KSUID.toNat
  have h1 : u.timestamp % 2 ^ 32 < 2 ^ 32 := Nat.mod_lt _ (by norm_num)
  have h2 : u.payload % 2 ^ 128 < 2 ^ 128 := Nat.mod_lt _ (by norm_num)
  omega

theorem KSUID.Next_toNat (u : KSUID) (h : u.toNat + 1 < 2 ^ 160) :
    u.Next.toNat = u.toNat + 1 := by
  unfold KSUID.toNat at h ⊢
  unfold KSUID.Next
  have h1 : u.timestamp % 2 ^ 32 < 2 ^ 32 := Nat.mod_lt _ (by norm_num)
  have h2 : u.payload % 2 ^ 128 < 2 ^ 128 := Nat.mod_lt _ (by norm_num)
  simp only
  split_ifs with h0 <;> omega

theorem ksuid.base62Digit_toNat (d : Nat) (h : d < 62) :
    (ksuid.base62Digit d).toNat =
      if d < 10 then 48 + d else if d < 36 then 55 + d else 61 + d := by
  interval_cases d <;> rfl

theorem ksuid.base62Digit_mono (a b : Nat) (hab : a < b) (hb : b < 62) :
    (ksuid.base62Digit a).toNat < (ksuid.base62Digit b).toNat := by
  rw [ksuid.base62Digit_toNat a (by omega), ksuid.base62Digit_toNat b hb]
  split_ifs <;> omega

theorem lex_append_of_length_eq (l1 l2 s t : Bytes) (h : l1 < l2)
    (hlen : l1.length = l2.length) : l1 ++ s < l2 ++ t := by
  induction l1 generalizing l2 with
  | nil =>
    cases l2 with
    | nil => exact absurd h (lt_irrefl _)
    | cons b l2 => simp at hlen
  | cons a l1 ih =>
    cases l2 with
    | nil => simp at hlen
    | cons b l2 =>
      simp only [List.length_cons, Nat.add_right_cancel_iff] at hlen
      cases h with
      | cons h1 => exact List.Lex.cons (ih l2 h1 hlen)
      | rel h1 => exact List.Lex.rel h1

theorem ksuid.encodeBase62_mono (n : Nat) :
    ∀ a b : Nat, a < b → b < 62 ^ n →
      (ksuid.encodeBase62 n a).map Char.toNat < (ksuid.encodeBase62 n b).map Char.toNat := by
  induction n with
  | zero => intro a b hab hb; simp at hb; omega
  | succ n ih =>
    intro a b hab hb
    simp only [ksuid.encodeBase62, List.map_append, List.map_cons, List.map_nil]
    have hb1 : b / 62 < 62 ^ n := by
      rw [Nat.div_lt_iff_lt_mul (by norm_num)]
      rw [pow_succ] at hb
      exact hb
    rcases Nat.lt_or_ge (a / 62) (b / 62) with hlt | hge
    · apply lex_append_of_length_eq _ _ _ _ (ih _ _ hlt hb1)
      simp [ksuid.encodeBase62_length]
    · have heq : a / 62 = b / 62 := by
        have : a / 62 ≤ b / 62 := Nat.div_le_div_right (le_of_lt hab)
        omega
      have hmod : a % 62 < b % 62 := by omega
      rw [heq]
      apply List.Lex.append_left
      exact List.Lex.rel (ksuid.base62Digit_mono _ _ hmod (Nat.mod_lt _ (by norm_num)))

theorem KSUID.String_mono (u w : KSUID) (h : u.toNat < w.toNat) :
    stringBytes u.String < stringBytes w.String := by
  have hw : w.toNat < 62 ^ 27 := lt_trans (KSUID.toNat_lt w) (by norm_num)
  simpa [stringBytes, KSUID.String, ksuid.stringEncodedLength]
    using ksuid.encodeBase62_mono 27 _ _ h hw

theorem KSUID.Next_lt (u : KSUID) (h : u.toNat + 1 < 2 ^ 160) :
    stringBytes u.String < stringBytes u.Next.String :=
  KSUID.String_mono u u.Next (by rw [KSUID.Next_toNat u h]; omega)

/-! ## What `Produce` and `Add` write -/

theorem Bucket.Put_append (b : Bucket) (k v : Bytes) (h : ∀ kv ∈ b, kv.1 < k) :
    Bucket.Put b k v = b ++ [(k, v)] := by
  induction b with
  | nil => simp [Bucket.Put]
  | cons x b ih =>
    obtain ⟨k0, v0⟩ := x
    have h0 : k0 < k := h (k0, v0) (by simp)
    have h1 : ¬ k < k0 := lt_asymm h0
    have h2 : ¬ k = k0 := fun e => (lt_irrefl k0) (e ▸ h0)
    simp [Bucket.Put, h1, h2, ih (fun kv hkv => h kv (List.mem_cons_of_mem _ hkv))]

theorem produceItems_append (c : Codec) (now : Nat → Time) (l1 l2 : List Item) :
    ∀ st : ProduceState, produceItems c now (l1 ++ l2) st =
      ((produceItems c now l1 st).1 ++ (produceItems c now l2 (produceItems c now l1 st).2).1,
        (produceItems c now l2 (produceItems c now l1 st).2).2) := by
  induction l1 with
  | nil => intro st; simp [produceItems]
  | cons x l1 ih => intro st; simp [produceItems, ih]

theorem produceRequests_flat (c : Codec) (now : Nat → Time) (reqs : List ProduceRequest) :
    ∀ st : ProduceState,
      allItems (produceRequests c now reqs st).1 = (produceItems c now (allItems reqs) st).1 ∧
      (produceRequests c now reqs st).2 = (produceItems c now (allItems reqs) st).2 := by
  induction reqs with
  | nil => intro st; simp [produceRequests, allItems, produceItems]
  | cons r reqs ih =>
    intro st
    obtain ⟨h1, h2⟩ := ih (produceItems c now r.Items st).2
    simp [produceRequests, allItems, produceItems_append, h1, h2]

theorem produceItems_spec (c : Codec) (now : Nat → Time) (items : List Item) :
    ∀ st : ProduceState, st.uid.toNat + items.length < 2 ^ 160 →
      (∀ kv ∈ st.bucket, kv.1 ≤ stringBytes st.uid.String) →
      (produceItems c now items st).2.uid.toNat = st.uid.toNat + items.length ∧
      (produceItems c now items st).2.bucket
        = st.bucket ++ (produceItems c now items st).1.map (fun x => (x.ID, c.encode x)) ∧
      ((produceItems c now items st).1.map (fun x => x.ID)).Pairwise (fun x y => x < y) ∧
      (∀ x ∈ (produceItems c now items st).1, stringBytes st.uid.String < x.ID) ∧
      (∀ x ∈ (produceItems c now items st).1,
        x.ID ≤ stringBytes (produceItems c now items st).2.uid.String) ∧
      List.Forall₂ Item.sameSupplied items (produceItems c now items st).1 ∧
      (produceItems c now items st).1.map (fun x => x.CreatedAt)
        = (List.range items.length).map (fun i => now (st.tick + i)) := by
  induction items with
  | nil =>
    intro st _ _
    simp [produceItems]
  | cons item items ih =>
    intro st hwrap hkeys
    simp only [List.length_cons] at hwrap
    have hnext : stringBytes st.uid.String < stringBytes st.uid.Next.String :=
      KSUID.Next_lt st.uid (by omega)
    have hnat : st.uid.Next.toNat = st.uid.toNat + 1 := KSUID.Next_toNat st.uid (by omega)
    have hput : (produceItem c now st item).2.bucket
        = st.bucket ++ [((produceItem c now st item).1.ID, c.encode (produceItem c now st item).1)] := by
      simp only [produceItem]
      exact Bucket.Put_append _ _ _ (fun kv hkv => lt_of_le_of_lt (hkeys kv hkv) hnext)
    have huid : (produceItem c now st item).2.uid = st.uid.Next := by simp only [produceItem]
    have htick : (produceItem c now st item).2.tick = st.tick + 1 := by simp only [produceItem]
    have hid : (produceItem c now st item).1.ID = stringBytes st.uid.Next.String := by
      simp only [produceItem]
    obtain ⟨i1, i2, i3, i4, i5, i6, i7⟩ := ih (produceItem c now st item).2
      (by rw [huid, hnat]; omega)
      (by
        intro kv hkv
        rw [hput] at hkv
        rw [huid]
        rcases List.mem_append.mp hkv with h | h
        · exact le_of_lt (lt_of_le_of_lt (hkeys kv h) hnext)
        · simp only [List.mem_singleton] at h
          rw [h, hid])
    rw [huid] at i1 i4
    simp only [produceItems, List.map_cons, List.pairwise_cons, List.mem_cons, List.length_cons]
    refine ⟨by rw [i1, hnat]; omega, ?_, ⟨?_, i3⟩, ?_, ?_, ?_, ?_⟩
    · rw [i2, hput]; simp
    · intro a ha
      rcases List.mem_map.mp ha with ⟨x, hx, rfl⟩
      rw [hid]
      exact i4 x hx
    · intro x hx
      rcases hx with h | h
      · rw [h, hid]; exact hnext
      · exact lt_trans hnext (i4 x h)
    · intro x hx
      rcases hx with h | h
      · rw [h, hid]
        cases hl : (produceItems c now items (produceItem c now st item).2).1 with
        | nil =>
          have : items = [] := by
            have := i6.length_eq
            rw [hl] at this
            simpa using this
          subst this
          simp [produceItems, huid]
        | cons y ys =>
          have hy := i4 y (by rw [hl]; simp)
          have hy2 := i5 y (by rw [hl]; simp)
          exact le_of_lt (lt_of_lt_of_le hy hy2)
      · exact i5 x h
    · refine List.Forall₂.cons ?_ i6
      simp [Item.sameSupplied, produceItem]
    · rw [i7, htick, List.range_succ_eq_map]
      simp [produceItem, Function.comp_def, Nat.add_assoc, Nat.add_comm 1]

theorem runCall_spec (c : Codec) (b : BoltPartition) (bucket : Bucket) (w : WriteCall)
    (hb : b.db.queue = some bucket)
    (hkeys : ∀ kv ∈ bucket, kv.1 ≤ stringBytes b.uid.String)
    (hwrap : b.uid.toNat + w.supplied.length < 2 ^ 160) :
    (runCall c b w).1.uid.toNat = b.uid.toNat + w.supplied.length ∧
    (runCall c b w).1.db.queue
      = some (bucket ++ (runCall c b w).2.map (fun x => (x.ID, c.encode x))) ∧
    ((runCall c b w).2.map (fun x => x.ID)).Pairwise (fun x y => x < y) ∧
    (∀ x ∈ (runCall c b w).2, stringBytes b.uid.String < x.ID) ∧
    (∀ x ∈ (runCall c b w).2, x.ID ≤ stringBytes (runCall c b w).1.uid.String) ∧
    List.Forall₂ Item.sameSupplied w.supplied (runCall c b w).2 ∧
    (runCall c b w).2.map (fun x => x.CreatedAt)
      = (List.range w.supplied.length).map w.now := by
  cases w with
  | produce now batch =>
    have hflat := produceRequests_flat c now batch.Requests
      { uid := b.uid, tick := 0, bucket := bucket }
    have hspec := produceItems_spec c now (allItems batch.Requests)
      { uid := b.uid, tick := 0, bucket := bucket } hwrap hkeys
    simp only [runCall, BoltPartition.Produce, DB.Bucket, hb, WriteCall.supplied, WriteCall.now,
      hflat.1, hflat.2]
    simpa using hspec
  | add now items =>
    have hspec := produceItems_spec c now items
      { uid := b.uid, tick := 0, bucket := bucket } hwrap hkeys
    simp only [runCall, BoltPartition.Add, DB.Bucket, hb, WriteCall.supplied, WriteCall.now]
    simpa using hspec

theorem runCalls_spec (c : Codec) (ws : List WriteCall) :
    ∀ (b : BoltPartition) (bucket : Bucket), b.db.queue = some bucket →
      (∀ kv ∈ bucket, kv.1 ≤ stringBytes b.uid.String) →
      b.uid.toNat + suppliedCount ws < 2 ^ 160 →
      ((runCalls c b ws).2).Pairwise (fun x y => x < y) ∧
      (∀ id ∈ (runCalls c b ws).2, stringBytes b.uid.String < id) ∧
      ∃ entries, (runCalls c b ws).1.db.queue = some (bucket ++ entries) ∧
        entries.map Prod.fst = (runCalls c b ws).2 ∧
        (∀ kv ∈ entries, entryOK c kv = true) := by
  induction ws with
  | nil =>
    intro b bucket hb _ _
    exact ⟨by simp [runCalls], by simp [runCalls], [], by simp [runCalls, hb], by simp [runCalls],
      by simp⟩
  | cons w ws ih =>
    intro b bucket hb hkeys hwrap
    simp only [suppliedCount] at hwrap
    obtain ⟨h1, h2, h3, h4, h5, _, _⟩ := runCall_spec c b bucket w hb hkeys (by omega)
    have hkeys1 : ∀ kv ∈ bucket ++ (runCall c b w).2.map (fun x => (x.ID, c.encode x)),
        kv.1 ≤ stringBytes (runCall c b w).1.uid.String := by
      intro kv hkv
      rcases List.mem_append.mp hkv with h | h
      · have hle := hkeys kv h
        cases hl : (runCall c b w).2 with
        | nil =>
          have hlen : w.supplied.length = 0 := by
            have := ‹List.Forall₂ Item.sameSupplied w.supplied (runCall c b w).2›.length_eq
            rw [hl] at this
            simpa using this
          have hu : (runCall c b w).1.uid.toNat = b.uid.toNat := by omega
          have heqs : b.uid.String = (runCall c b w).1.uid.String := by
            simp [KSUID.String, hu]
          rw [← heqs]; exact hle
        | cons y ys =>
          have hy := h4 y (by rw [hl]; simp)
          have hy2 := h5 y (by rw [hl]; simp)
          exact le_of_lt (lt_of_le_of_lt hle (lt_of_lt_of_le hy hy2))
      · rcases List.mem_map.mp h with ⟨x, hx, rfl⟩
        exact h5 x hx
    obtain ⟨i1, i2, entries, i3, i4, i5⟩ := ih (runCall c b w).1 _ h2 hkeys1
      (by rw [h1]; omega)
    have hmono : ∀ x ∈ (runCall c b w).2, ∀ id ∈ (runCalls c (runCall c b w).1 ws).2,
        x.ID < id := fun x hx id hid => lt_of_le_of_lt (h5 x hx) (i2 id hid)
    refine ⟨?_, ?_, (runCall c b w).2.map (fun x => (x.ID, c.encode x)) ++ entries, ?_, ?_, ?_⟩
    · simp only [runCalls, List.pairwise_append]
      refine ⟨h3, i1, ?_⟩
      intro a ha id hid
      rcases List.mem_map.mp ha with ⟨x, hx, rfl⟩
      exact hmono x hx id hid
    · intro id hid
      simp only [runCalls, List.mem_append] at hid
      rcases hid with h | h
      · rcases List.mem_map.mp h with ⟨x, hx, rfl⟩
        exact h4 x hx
      · cases hl : (runCall c b w).2 with
        | nil =>
          have hlen : w.supplied.length = 0 := by
            have := ‹List.Forall₂ Item.sameSupplied w.supplied (runCall c b w).2›.length_eq
            rw [hl] at this
            simpa using this
          have hu : (runCall c b w).1.uid.toNat = b.uid.toNat := by omega
          have heqs : b.uid.String = (runCall c b w).1.uid.String := by
            simp [KSUID.String, hu]
          rw [heqs]
          exact i2 id h
        | cons y ys =>
          have hy := h4 y (by rw [hl]; simp)
          have hy2 := h5 y (by rw [hl]; simp)
          exact lt_trans hy (lt_of_le_of_lt hy2 (i2 id h))
    · simp only [runCalls]
      rw [i3, List.append_assoc]
    · simp only [runCalls, List.map_append, List.map_map, i4]
      rfl
    · intro kv hkv
      rcases List.mem_append.mp hkv with h | h
      · rcases List.mem_map.mp h with ⟨x, _, rfl⟩
        simp [entryOK, c.decode_encode]
      · exact i5 kv h

theorem decodeAll_ids (c : Codec) (l : List (Bytes × Bytes))
    (h : ∀ kv ∈ l, entryOK c kv = true) :
    (decodeAll c l).map (fun x => x.ID) = l.map Prod.fst := by
  induction l with
  | nil => simp [decodeAll]
  | cons x l ih =>
    obtain ⟨k, v⟩ := x
    obtain ⟨item, hd, hid⟩ := entryOK_decode c (k, v) (h (k, v) (by simp))
    simp only at hd hid
    rw [decodeAll_cons c k v l item hd]
    simp [hid, ih (fun kv hkv => h kv (List.mem_cons_of_mem _ hkv))]

theorem decodeAll_append (c : Codec) (l1 l2 : List (Bytes × Bytes)) :
    decodeAll c (l1 ++ l2) = decodeAll c l1 ++ decodeAll c l2 := by
  simp [decodeAll, List.filterMap_append]

theorem decodeAll_encoded (c : Codec) (items : List Item) :
    decodeAll c (items.map (fun x => (x.ID, c.encode x))) = items := by
  induction items with
  | nil => simp [decodeAll]
  | cons x items ih =>
    simp only [List.map_cons]
    rw [decodeAll_cons c _ _ _ x (c.decode_encode x), ih]

/-! ## `bytes.Split` -/

theorem bytes.Split_ne_nil (s : Bytes) (sep : Nat) : bytes.Split s sep ≠ [] := by
  induction s with
  | nil => simp [bytes.Split]
  | cons x rest ih =>
    unfold bytes.Split
    split
    · simp
    · split <;> simp

/-- A slice without the separator is one piece. -/
theorem bytes.Split_of_not_mem (s : Bytes) (sep : Nat) (h : sep ∉ s) :
    bytes.Split s sep = [s] := by
  induction s with
  | nil => simp [bytes.Split]
  | cons x rest ih =>
    have hx : x ≠ sep := fun e => h (by simp [e])
    have hr : sep ∉ rest := fun e => h (by simp [e])
    simp [bytes.Split, hx, ih hr]

/-- The first piece ends at the first separator. -/
theorem bytes.Split_append (s t : Bytes) (sep : Nat) (h : sep ∉ s) :
    bytes.Split (s ++ sep :: t) sep = s :: bytes.Split t sep := by
  induction s with
  | nil => simp [bytes.Split]
  | cons x rest ih =>
    have hx : x ≠ sep := fun e => h (by simp [e])
    have hr : sep ∉ rest := fun e => h (by simp [e])
    simp [bytes.Split, hx, ih hr]

/-- There is one piece more than there are separators. -/
theorem bytes.Split_length (s : Bytes) (sep : Nat) :
    (bytes.Split s sep).length = s.count sep + 1 := by
  induction s with
  | nil => simp [bytes.Split]
  | cons x rest ih =>
    unfold bytes.Split
    by_cases hx : x = sep
    · subst hx
      simp [ih]
    · have hne := bytes.Split_ne_nil rest sep
      rw [if_neg hx]
      cases hs : bytes.Split rest sep with
      | nil => exact absurd hs hne
      | cons p ps =>
        rw [hs] at ih
        simp only [List.length_cons] at ih ⊢
        rw [List.count_cons_of_ne (fun e => hx e.symm)]
        exact ih

/-- `ParseID` fails on every slice that does not split in two. -/
theorem MockBackend.ParseID_of_length (parse : Bytes) (id : StorageID)
    (h : (bytes.Split parse tilde).length ≠ 2) :
    MockBackend.ParseID parse id = (some errStorageIDFormat, id) := by
  unfold MockBackend.ParseID
  split
  · rename_i p0 p1 heq
    rw [heq] at h
    simp at h
  · rfl

/-! ## Decimal digits and file names -/

theorem fmt.digitsAux_append (fuel : Nat) :
    ∀ (n : Nat) (acc : Bytes), fmt.digitsAux fuel n acc = fmt.digitsAux fuel n [] ++ acc := by
  induction fuel with
  | zero => intro n acc; simp [fmt.digitsAux]
  | succ fuel ih =>
    intro n acc
    unfold fmt.digitsAux
    split
    · simp
    · rw [ih (n / 10) ((n % 10 + 48) :: acc), ih (n / 10) [n % 10 + 48]]
      simp

theorem fmt.value_append (l : Bytes) (d : Nat) :
    fmt.value (l ++ [d]) = fmt.value l * 10 + (d - 48) := by
  simp [fmt.value, List.foldl_append]

theorem fmt.value_digitsAux (fuel : Nat) :
    ∀ n : Nat, n ≤ fuel → fmt.value (fmt.digitsAux fuel n []) = n := by
  induction fuel with
  | zero =>
    intro n h
    have : n = 0 := by omega
    simp [fmt.digitsAux, fmt.value, this]
  | succ fuel ih =>
    intro n h
    unfold fmt.digitsAux
    split
    · rename_i h0
      simp [fmt.value, h0]
    · rename_i h0
      rw [fmt.digitsAux_append, fmt.value_append, ih (n / 10) (by omega)]
      omega

theorem fmt.value_digits (n : Nat) : fmt.value (fmt.digits n) = n :=
  fmt.value_digitsAux n n (Nat.le_refl n)

theorem fmt.digitsAux_range (fuel : Nat) :
    ∀ (n : Nat), ∀ d ∈ fmt.digitsAux fuel n [], 48 ≤ d ∧ d ≤ 57 := by
  induction fuel with
  | zero => intro n d hd; simp [fmt.digitsAux] at hd
  | succ fuel ih =>
    intro n d hd
    unfold fmt.digitsAux at hd
    split at hd
    · simp at hd
    · rw [fmt.digitsAux_append] at hd
      rcases List.mem_append.mp hd with h | h
      · exact ih _ d h
      · simp only [List.mem_singleton] at h
        omega

theorem fmt.digitsAux_length (fuel : Nat) :
    ∀ (n k : Nat), n < 10 ^ k → (fmt.digitsAux fuel n []).length ≤ k := by
  induction fuel with
  | zero => intro n k _; simp [fmt.digitsAux]
  | succ fuel ih =>
    intro n k hk
    unfold fmt.digitsAux
    split
    · simp
    · rename_i h0
      rw [fmt.digitsAux_append]
      cases k with
      | zero => simp at hk; exact absurd hk h0
      | succ k =>
        have h1 : n / 10 < 10 ^ k := by
          rw [pow_succ] at hk
          omega
        have := ih (n / 10) k h1
        simp only [List.length_append, List.length_singleton]
        omega

theorem fmt.value_zeroPad (width n : Nat) : fmt.value (fmt.zeroPad width n) = n := by
  have hz : ∀ k : Nat, List.foldl (fun acc d => acc * 10 + (d - 48)) 0 (List.replicate k 48) = 0 := by
    intro k
    induction k with
    | zero => rfl
    | succ k ih => simp [List.replicate_succ, ih]
  have := fmt.value_digits n
  unfold fmt.value at this ⊢
  rw [fmt.zeroPad, List.foldl_append, hz, this]

theorem fmt.zeroPad_range (width n : Nat) : ∀ d ∈ fmt.zeroPad width n, 48 ≤ d ∧ d ≤ 57 := by
  intro d hd
  rcases List.mem_append.mp hd with h | h
  · have := (List.mem_replicate.mp h).2
    omega
  · exact fmt.digitsAux_range n n d h

theorem fmt.zeroPad_length (width n : Nat) :
    width ≤ (fmt.zeroPad width n).length ∧
    (n < 10 ^ width → (fmt.zeroPad width n).length = width) := by
  have hlen : (fmt.zeroPad width n).length
      = (width - (fmt.digits n).length) + (fmt.digits n).length := by
    simp [fmt.zeroPad]
  constructor
  · omega
  · intro h
    have := fmt.digitsAux_length n n width h
    unfold fmt.digits at hlen
    omega

/-- The text before the first separator and the text after it determine each other. -/
theorem append_cons_first (s : Nat) (l1 : Bytes) :
    ∀ (l2 r1 r2 : Bytes), s ∉ l1 → s ∉ l2 → l1 ++ s :: r1 = l2 ++ s :: r2 →
      l1 = l2 ∧ r1 = r2 := by
  induction l1 with
  | nil =>
    intro l2 r1 r2 _ h2 h
    cases l2 with
    | nil => simpa using h
    | cons y l2 =>
      simp only [List.nil_append, List.cons_append, List.cons.injEq] at h
      exact absurd (by simp [h.1]) h2
  | cons x l1 ih =>
    intro l2 r1 r2 h1 h2 h
    cases l2 with
    | nil =>
      simp only [List.nil_append, List.cons_append, List.cons.injEq] at h
      exact absurd (by simp [h.1]) h1
    | cons y l2 =>
      simp only [List.cons_append, List.cons.injEq] at h
      have h1r : s ∉ l1 := fun e => h1 (by simp [e])
      have h2r : s ∉ l2 := fun e => h2 (by simp [e])
      obtain ⟨i1, i2⟩ := ih l2 r1 r2 h1r h2r h.2
      exact ⟨by rw [h.1, i1], i2⟩

/-- The text after the last separator and the text before it determine each other. -/
theorem append_cons_last (s : Nat) (l1 l2 r1 r2 : Bytes) (h1 : s ∉ r1) (h2 : s ∉ r2)
    (h : l1 ++ s :: r1 = l2 ++ s :: r2) : l1 = l2 ∧ r1 = r2 := by
  have hr := congrArg List.reverse h
  simp only [List.reverse_append, List.reverse_cons, List.append_assoc,
    List.singleton_append] at hr
  obtain ⟨i1, i2⟩ := append_cons_first s r1.reverse r2.reverse l1.reverse l2.reverse
    (by simpa using h1) (by simpa using h2) hr
  exact ⟨List.reverse_injective i2, List.reverse_injective i1⟩

/-- With a negative index the sign takes the place of a separator: two identities share a
file name. -/
theorem BoltPartition.fileName_negative_index :
    BoltPartition.fileName { QueueName := stringBytes "q", Partition := -1234567 }
      = BoltPartition.fileName { QueueName := stringBytes "q-", Partition := 1234567 } := by
  decide

/-! ## The ids a request completes -/

/-- The completed ids are a leading run of the ids of the request: each of them is
completable when its turn comes, and the id that follows the run, if there is one, is not. -/
theorem completedIds_split (c : Codec) (ids : List Bytes) :
    ∀ b : Bucket, ∃ remaining,
      ids = completedIds c b ids ++ remaining ∧
      allCompletable c b (completedIds c b ids) ∧
      ∀ id post, remaining = id :: post →
        idStatus c (deleteAll b (completedIds c b ids)) id ≠ IdStatus.completable := by
  induction ids with
  | nil =>
    intro b
    refine ⟨[], by simp [completedIds], ?_, by simp⟩
    intro pre id post h
    simp [completedIds] at h
  | cons id ids ih =>
    intro b
    by_cases hs : idStatus c b id = IdStatus.completable
    · obtain ⟨remaining, h1, h2, h3⟩ := ih (Bucket.Delete b id)
      have hc : completedIds c b (id :: ids) = id :: completedIds c (Bucket.Delete b id) ids := by
        simp [completedIds, hs]
      refine ⟨remaining, ?_, ?_, ?_⟩
      · rw [hc, List.cons_append, ← h1]
      · rw [hc]
        exact (allCompletable_cons c b id _).mpr ⟨hs, h2⟩
      · intro id1 post he
        rw [hc, deleteAll_cons]
        exact h3 id1 post he
    · have hc : completedIds c b (id :: ids) = [] := by
        simp [completedIds, hs]
      refine ⟨id :: ids, by simp [hc], ?_, ?_⟩
      · rw [hc]
        intro pre id1 post h
        simp at h
      · intro id1 post he
        simp only [List.cons.injEq] at he
        rw [hc, ← he.1]
        simpa [deleteAll] using hs

/-! ## The queue registry -/

theorem Bucket.Get_Put (b : Bucket) (k v id : Bytes) :
    Bucket.Get (Bucket.Put b k v) id = if id = k then some v else Bucket.Get b id := by
  induction b with
  | nil =>
    by_cases h : id = k
    · simp [Bucket.Put, Bucket.Get, h]
    · have h1 : ¬ k = id := fun e => h e.symm
      simp [Bucket.Put, Bucket.Get, h, h1]
  | cons x b ih =>
    obtain ⟨k0, v0⟩ := x
    unfold Bucket.Put
    by_cases hlt : k < k0
    · rw [if_pos hlt]
      by_cases h : id = k
      · simp [Bucket.Get, h]
      · have h1 : ¬ k = id := fun e => h e.symm
        simp [Bucket.Get, h, h1]
    · rw [if_neg hlt]
      by_cases heq : k = k0
      · rw [if_pos heq]
        subst heq
        by_cases h : id = k
        · simp [Bucket.Get, h]
        · have h1 : ¬ k = id := fun e => h e.symm
          simp [Bucket.Get, h, h1]
      · rw [if_neg heq]
        by_cases h0 : k0 = id
        · have h : ¬ id = k := fun e => heq (by rw [← e, h0])
          simp [Bucket.Get, h0, h]
        · simp only [Bucket.Get, h0, if_false]
          exact ih

/-- Decoding into a record just declared reads back what the encoder wrote. -/
theorem QueueCodec.decode_encode (c : QueueCodec) (info : QueueInfo) :
    c.decode (c.encode info) = some info := by
  rw [QueueCodec.decode, c.decodeInto_encode]
  cases info with
  | mk name rt dt carried =>
    by_cases h1 : name = [] <;> by_cases h2 : rt = 0 <;> by_cases h3 : dt = 0 <;>
      by_cases h4 : carried = [] <;>
      simp [QueueInfo.gobInto, QueueInfo.zero, h1, h2, h3, h4]

/-- A record without a zero field is read back whole, whatever the destination holds. -/
theorem QueueInfo.gobInto_of_nonzero (dest stored : QueueInfo) (h1 : stored.Name ≠ [])
    (h2 : stored.ReserveTimeout ≠ 0) (h3 : stored.DeadTimeout ≠ 0) (h4 : stored.Carried ≠ []) :
    QueueInfo.gobInto dest stored = stored := by
  cases stored
  simp_all [QueueInfo.gobInto]

/-- Decoded into a zero-valued record, a stored record is read back whole. -/
theorem QueueInfo.gobInto_zero (stored : QueueInfo) :
    QueueInfo.gobInto QueueInfo.zero stored = stored := by
  cases stored with
  | mk name rt dt carried =>
    by_cases h1 : name = [] <;> by_cases h2 : rt = 0 <;> by_cases h3 : dt = 0 <;>
      by_cases h4 : carried = [] <;>
      simp [QueueInfo.gobInto, QueueInfo.zero, h1, h2, h3, h4]

/-- The registry reads the same record under a name when the bucket holds the same value
under it. -/
theorem BoltQueueStore.Get_congr (c : QueueCodec) (b1 b2 : BoltQueueStore) (bk1 bk2 : Bucket)
    (name : Bytes) (queue : QueueInfo) (hv : b1.validation = b2.validation)
    (h1 : b1.db.queue = some bk1) (h2 : b2.db.queue = some bk2)
    (hg : Bucket.Get bk1 name = Bucket.Get bk2 name) :
    BoltQueueStore.Get c b1 name queue = BoltQueueStore.Get c b2 name queue := by
  simp only [BoltQueueStore.Get, DB.Bucket, hv, h1, h2, hg]

/-- What `Get` returns on a name that passes validation, by what the bucket holds. -/
theorem BoltQueueStore.Get_of_bucket (c : QueueCodec) (b : BoltQueueStore) (bucket : Bucket)
    (name : Bytes) (queue : QueueInfo) (hb : b.db.queue = some bucket)
    (hv : b.validation.validateGet name = none) :
    (Bucket.Get bucket name = none →
      BoltQueueStore.Get c b name queue = (some Error.QueueNotExist, queue)) ∧
    (∀ info, Bucket.Get bucket name = some (c.encode info) →
      BoltQueueStore.Get c b name queue = (none, QueueInfo.gobInto queue info)) := by
  constructor
  · intro h
    simp [BoltQueueStore.Get, DB.Bucket, hb, hv, h]
  · intro info h
    simp [BoltQueueStore.Get, DB.Bucket, hb, hv, h, c.decodeInto_encode]

/-- One call keeps the bucket in step with the registry in the words of the spec: the
bucket holds, under each name, the encoding of the record stored under it. -/
theorem runQueueCall_view (c : QueueCodec) (update : QueueInfo → QueueInfo → QueueInfo)
    (b : BoltQueueStore) (bucket : Bucket) (view : Bytes → Option QueueInfo) (call : QueueCall)
    (hb : b.db.queue = some bucket)
    (hview : ∀ n, Bucket.Get bucket n = (view n).map c.encode) :
    ∃ bucket1, (runQueueCall c update b call).db.queue = some bucket1 ∧
      (runQueueCall c update b call).validation = b.validation ∧
      ∀ n, Bucket.Get bucket1 n = ((storedStep b.validation update view call) n).map c.encode := by
  cases call with
  | add info =>
    cases hval : b.validation.validateAdd info with
    | some err =>
      refine ⟨bucket, ?_, rfl, ?_⟩
      · simp [runQueueCall, BoltQueueStore.withDB, BoltQueueStore.Add, hval, hb]
      · simp [storedStep, hval, hview]
    | none =>
      cases hv : view info.Name with
      | some found =>
        have hg : Bucket.Get bucket info.Name = some (c.encode found) := by simp [hview, hv]
        refine ⟨bucket, ?_, rfl, ?_⟩
        · simp [runQueueCall, BoltQueueStore.withDB, BoltQueueStore.Add, hval, hb, DB.Bucket, hg]
        · simp [storedStep, hval, hv, hview]
      | none =>
        have hg : Bucket.Get bucket info.Name = none := by simp [hview, hv]
        by_cases hname : info.Name = []
        · refine ⟨bucket, ?_, rfl, ?_⟩
          · have hg0 : Bucket.Get bucket [] = none := by rw [← hname]; exact hg
            simp [runQueueCall, BoltQueueStore.withDB, BoltQueueStore.Add, hval, hb, DB.Bucket,
              hg0, hname]
          · simp [storedStep, hval, hv, hview, hname]
        · refine ⟨Bucket.Put bucket info.Name (c.encode info), ?_, rfl, ?_⟩
          · simp [runQueueCall, BoltQueueStore.withDB, BoltQueueStore.Add, hval, hb, DB.Bucket,
              hg, hname]
          · intro n
            by_cases hn : n = info.Name
            · subst hn
              simp [storedStep, hval, hv, hname, Bucket.Get_Put]
            · simp [storedStep, hval, hv, hname, Bucket.Get_Put, hn, Function.update_noteq hn,
                hview]
  | update info =>
    cases hv : view info.Name with
    | none =>
      have hg : Bucket.Get bucket info.Name = none := by simp [hview, hv]
      refine ⟨bucket, ?_, rfl, ?_⟩
      · cases hval : b.validation.validateUpdate info <;>
          simp [runQueueCall, BoltQueueStore.withDB, BoltQueueStore.Update, hval, hb, DB.Bucket, hg]
      · simp [storedStep, hv, hview]
    | some found =>
      have hg : Bucket.Get bucket info.Name = some (c.encode found) := by simp [hview, hv]
      by_cases hok : b.validation.validateUpdate info = none ∧ info.Name ≠ [] ∧
          (update found info).ReserveTimeout ≤ (update found info).DeadTimeout
      · obtain ⟨hval, hname, hle⟩ := hok
        refine ⟨Bucket.Put bucket info.Name (c.encode (update found info)), ?_, rfl, ?_⟩
        · simp [runQueueCall, BoltQueueStore.withDB, BoltQueueStore.Update, hval, hb, DB.Bucket,
            hg, c.decode_encode, not_lt.mpr hle, hname]
        · intro n
          by_cases hn : n = info.Name
          · subst hn
            simp [storedStep, hval, hv, hname, hle, Bucket.Get_Put]
          · simp [storedStep, hval, hv, hname, hle, Bucket.Get_Put, hn,
              Function.update_noteq hn, hview]
      · refine ⟨bucket, ?_, rfl, ?_⟩
        · cases hval : b.validation.validateUpdate info with
          | some err =>
            simp [runQueueCall, BoltQueueStore.withDB, BoltQueueStore.Update, hval, hb]
          | none =>
            by_cases hgt : (update found info).ReserveTimeout > (update found info).DeadTimeout
            · simp [runQueueCall, BoltQueueStore.withDB, BoltQueueStore.Update, hval, hb,
                DB.Bucket, hg, c.decode_encode, hgt]
            · have hname : info.Name = [] := by
                by_contra hne
                exact hok ⟨hval, hne, not_lt.mp hgt⟩
              have hg0 : Bucket.Get bucket [] = some (c.encode found) := by
                rw [← hname]; exact hg
              simp [runQueueCall, BoltQueueStore.withDB, BoltQueueStore.Update, hval, hb,
                DB.Bucket, hg0, c.decode_encode, hgt, hname]
        · simp [storedStep, hv, hok, hview]
  | delete name =>
    cases hval : b.validation.validateDelete name with
    | some err =>
      refine ⟨bucket, ?_, rfl, ?_⟩
      · simp [runQueueCall, BoltQueueStore.withDB, BoltQueueStore.Delete, hval, hb]
      · simp [storedStep, hval, hview]
    | none =>
      refine ⟨Bucket.Delete bucket name, ?_, rfl, ?_⟩
      · simp [runQueueCall, BoltQueueStore.withDB, BoltQueueStore.Delete, hval, hb, DB.Bucket]
      · intro n
        by_cases hn : n = name
        · subst hn
          simp [storedStep, hval, Bucket.Get_Delete]
        · simp [storedStep, hval, Bucket.Get_Delete, hn, Function.update_noteq hn, hview]

/-- A sequence of calls keeps the bucket in step with the registry in the words of the
spec. -/
theorem runQueueCalls_view (c : QueueCodec) (update : QueueInfo → QueueInfo → QueueInfo)
    (calls : List QueueCall) :
    ∀ (b : BoltQueueStore) (bucket : Bucket) (view : Bytes → Option QueueInfo),
      b.db.queue = some bucket → (∀ n, Bucket.Get bucket n = (view n).map c.encode) →
      ∃ bucket1, (runQueueCalls c update b calls).db.queue = some bucket1 ∧
        (runQueueCalls c update b calls).validation = b.validation ∧
        ∀ n, Bucket.Get bucket1 n
          = ((storedAfter b.validation update view calls) n).map c.encode := by
  induction calls with
  | nil =>
    intro b bucket view hb hview
    exact ⟨bucket, hb, rfl, hview⟩
  | cons call calls ih =>
    intro b bucket view hb hview
    obtain ⟨bucket1, h1, h2, h3⟩ := runQueueCall_view c update b bucket view call hb hview
    obtain ⟨bucket2, g1, g2, g3⟩ := ih (runQueueCall c update b call) bucket1
      (storedStep b.validation update view call) h1 h3
    refine ⟨bucket2, g1, g2.trans h2, ?_⟩
    intro n
    rw [g3 n, h2]
    rfl

/-! ## The keys of a reachable partition -/

theorem Bucket.keys_Put (b : Bucket) (k v : Bytes) (n : Nat) (h : ∀ kv ∈ b, kv.1.length = n)
    (hk : k.length = n) : ∀ kv ∈ Bucket.Put b k v, kv.1.length = n := by
  intro kv hkv
  rcases Bucket.mem_Put b k v kv hkv with h1 | h1
  · rw [h1]; exact hk
  · exact h kv h1

theorem Bucket.keys_Delete (b : Bucket) (k : Bytes) (n : Nat) (h : ∀ kv ∈ b, kv.1.length = n) :
    ∀ kv ∈ Bucket.Delete b k, kv.1.length = n := by
  intro kv hkv
  exact h kv (List.mem_filter.mp hkv).1

theorem produceItems_keys (c : Codec) (now : Nat → Time) (items : List Item) :
    ∀ st : ProduceState, (∀ kv ∈ st.bucket, kv.1.length = 27) →
      ∀ kv ∈ (produceItems c now items st).2.bucket, kv.1.length = 27 := by
  induction items with
  | nil => intro st h; simpa [produceItems] using h
  | cons item items ih =>
    intro st h
    simp only [produceItems]
    apply ih
    simp only [produceItem]
    exact Bucket.keys_Put _ _ _ 27 h (KSUID.String_length _)

theorem produceRequests_keys (c : Codec) (now : Nat → Time) (reqs : List ProduceRequest) :
    ∀ st : ProduceState, (∀ kv ∈ st.bucket, kv.1.length = 27) →
      ∀ kv ∈ (produceRequests c now reqs st).2.bucket, kv.1.length = 27 := by
  induction reqs with
  | nil => intro st h; simpa [produceRequests] using h
  | cons r reqs ih =>
    intro st h
    simp only [produceRequests]
    exact ih _ (produceItems_keys c now r.Items st h)

theorem markFirst_keys_length (c : Codec) (d : Time) (b : Bucket) (j n : Nat)
    (h : ∀ kv ∈ b, kv.1.length = n) : ∀ kv ∈ markFirst c d b j, kv.1.length = n := by
  intro kv hkv
  have hm : kv.1 ∈ (markFirst c d b j).map Prod.fst := List.mem_map_of_mem _ hkv
  rw [markFirst_keys] at hm
  obtain ⟨x, hx, he⟩ := List.mem_map.mp hm
  rw [← he]
  exact h x hx

theorem completeIds_keys (c : Codec) (n : Nat) (ids : List Bytes) :
    ∀ (b b1 : Bucket) (perr : Option Error), (∀ kv ∈ b, kv.1.length = n) →
      completeIds c ids b = .ok (b1, perr) → ∀ kv ∈ b1, kv.1.length = n := by
  induction ids with
  | nil =>
    intro b b1 perr h he
    simp only [completeIds, Except.ok.injEq, Prod.mk.injEq] at he
    exact he.1 ▸ h
  | cons id ids ih =>
    intro b b1 perr h he
    unfold completeIds at he
    split at he
    · simp only [Except.ok.injEq, Prod.mk.injEq] at he; exact he.1 ▸ h
    · split at he
      · simp only [Except.ok.injEq, Prod.mk.injEq] at he; exact he.1 ▸ h
      · split at he
        · simp at he
        · split at he
          · simp only [Except.ok.injEq, Prod.mk.injEq] at he; exact he.1 ▸ h
          · exact ih _ b1 perr (Bucket.keys_Delete b id n h) he

theorem completeRequests_keys (c : Codec) (n : Nat) (reqs : List CompleteRequest) :
    ∀ b : Bucket, (∀ kv ∈ b, kv.1.length = n) →
      ∀ kv ∈ (completeRequests c reqs b).2.1, kv.1.length = n := by
  induction reqs with
  | nil => intro b h; simpa [completeRequests] using h
  | cons r reqs ih =>
    intro b h
    unfold completeRequests
    split
    · exact h
    · rename_i b1 perr he
      exact ih b1 (completeIds_keys c n r.Ids b b1 perr h he)

theorem deleteLoop_keys (n : Nat) (ids : List Bytes) :
    ∀ (b b1 : Bucket), (∀ kv ∈ b, kv.1.length = n) → deleteLoop ids b = .ok b1 →
      ∀ kv ∈ b1, kv.1.length = n := by
  induction ids with
  | nil =>
    intro b b1 h he
    simp only [deleteLoop, Except.ok.injEq] at he
    exact he ▸ h
  | cons id ids ih =>
    intro b b1 h he
    unfold deleteLoop at he
    split at he
    · simp at he
    · exact ih _ b1 (Bucket.keys_Delete b id n h) he

theorem clearLoop_keys (c : Codec) (n : Nat) (rest : List (Bytes × Bytes)) :
    ∀ (b b1 : Bucket), (∀ kv ∈ b, kv.1.length = n) → clearLoop c rest b = .ok b1 →
      ∀ kv ∈ b1, kv.1.length = n := by
  induction rest with
  | nil =>
    intro b b1 h he
    simp only [clearLoop, Except.ok.injEq] at he
    exact he ▸ h
  | cons x rest ih =>
    intro b b1 h he
    obtain ⟨k, v⟩ := x
    unfold clearLoop at he
    split at he
    · simp at he
    · split at he
      · exact ih b b1 h he
      · exact ih _ b1 (Bucket.keys_Delete b k n h) he

/-- Every key of a reachable partition is an id the store has assigned: 27 bytes, the text
of a counter value. -/
theorem reachable_keys (c : Codec) (b : BoltPartition) (h : Reachable c b) :
    ∃ bucket, b.db.queue = some bucket ∧ ∀ kv ∈ bucket, kv.1.length = 27 := by
  induction h with
  | fresh uid => exact ⟨[], rfl, by simp⟩
  | @produce b now batch _ ih =>
    obtain ⟨bucket, hb, hk⟩ := ih
    refine ⟨_, ?_, produceRequests_keys c now batch.Requests
      { uid := b.uid, tick := 0, bucket := bucket } hk⟩
    simp [BoltPartition.Produce, DB.Bucket, hb]
  | @add b now items _ ih =>
    obtain ⟨bucket, hb, hk⟩ := ih
    refine ⟨_, ?_, produceItems_keys c now items
      { uid := b.uid, tick := 0, bucket := bucket } hk⟩
    simp [BoltPartition.Add, DB.Bucket, hb]
  | @reserve σ b batch opts hr ih =>
    obtain ⟨bucket, hb, hk⟩ := ih
    obtain ⟨bucket0, hb0, hwf⟩ := reachable_WF c b hr
    have hbe : bucket0 = bucket := by
      rw [hb] at hb0
      exact (Option.some.inj hb0).symm
    subst hbe
    obtain ⟨j, m, _, _, _, _, _, h2, _, _⟩ := Reserve_spec c b batch opts bucket0 hb hwf
    exact ⟨_, by simp [h2], markFirst_keys_length c opts.ReserveDeadline bucket0 j 27 hk⟩
  | @complete b batch _ ih =>
    obtain ⟨bucket, hb, hk⟩ := ih
    have hw := completeRequests_keys c 27 batch.Requests bucket hk
    cases he : (completeRequests c batch.Requests bucket).1 with
    | none => exact ⟨_, by simp [BoltPartition.Complete, DB.Bucket, hb, he], hw⟩
    | some e => exact ⟨bucket, by simp [BoltPartition.Complete, DB.Bucket, hb, he], hk⟩
  | @delete b ids _ ih =>
    obtain ⟨bucket, hb, hk⟩ := ih
    cases he : deleteLoop ids bucket with
    | error e => exact ⟨bucket, by simp [BoltPartition.Delete, DB.Bucket, hb, he], hk⟩
    | ok b1 =>
      exact ⟨b1, by simp [BoltPartition.Delete, DB.Bucket, hb, he],
        deleteLoop_keys 27 ids bucket b1 hk he⟩
  | @clear b destructive _ ih =>
    obtain ⟨bucket, hb, hk⟩ := ih
    cases destructive with
    | true => exact ⟨[], by simp [BoltPartition.Clear, hb], by simp⟩
    | false =>
      cases he : clearLoop c bucket bucket with
      | error e => exact ⟨bucket, by simp [BoltPartition.Clear, DB.Bucket, hb, he], hk⟩
      | ok b1 =>
        exact ⟨b1, by simp [BoltPartition.Clear, DB.Bucket, hb, he],
          clearLoop_keys c 27 bucket bucket b1 hk he⟩

/-- On a bucket whose keys are 27 bytes long no id is completable: an id that passes
`validateID` is 20 bytes long and so is not a key of the bucket. -/
theorem idStatus_of_keys (c : Codec) (b : Bucket) (h : ∀ kv ∈ b, kv.1.length = 27) (id : Bytes) :
    idStatus c b id ≠ IdStatus.completable := by
  intro hs
  obtain ⟨hv, v, hg, _⟩ := (idStatus_completable_iff c b id).mp hs
  have h20 := (validateID_iff id).mp hv
  have hm := Bucket.mem_of_Get b id v hg
  have h27 := h (id, v) hm
  simp only at h27
  omega

/-- On a bucket whose keys are 27 bytes long a batch completes no id. -/
theorem completedBatch_of_keys (c : Codec) (b : Bucket) (h : ∀ kv ∈ b, kv.1.length = 27)
    (reqs : List CompleteRequest) : completedBatch c b reqs = [] := by
  have hids : ∀ ids : List Bytes, completedIds c b ids = [] := by
    intro ids
    cases ids with
    | nil => rfl
    | cons id ids => simp [completedIds, idStatus_of_keys c b h id]
  induction reqs with
  | nil => rfl
  | cons r reqs ih => simp [completedBatch, hids, deleteAll, ih]

/-! ## Reserve: the claims -/

/-- C1: on a partition state with `M` unreserved items, a reserve call with batch total
`N` whose iterator takes each of the first `N` items offered to it returns no error, and
exactly `min N M` items go from unreserved to reserved, so never more than `N`. -/
theorem reserve_fills_min {σ : Type} (c : Codec) (b : BoltPartition) (batch : ReserveBatch σ)
    (opts : ReserveOptions) (bucket : Bucket) (N : Nat)
    (hb : b.db.queue = some bucket) (hwf : Bucket.WF c bucket)
    (hN : batch.Total = (N : Int)) (hacc : acceptsFirst batch.Next N batch.Iterator) :
    ∃ after, (BoltPartition.Reserve c b batch opts).err = none ∧
      (BoltPartition.Reserve c b batch opts).db.queue = some after ∧
      (becameReserved c bucket after).length
        = min N (bucket.filter (isUnreserved c)).length ∧
      (becameReserved c bucket after).length ≤ N := by
  obtain ⟨h1, h2⟩ := reserveLoop_accepting c batch opts bucket [] batch.Iterator 0 [] N
    (by simpa using hwf.1) hwf.2 (by simp [hN]) hacc
  simp only [List.nil_append] at h1 h2
  have hlen : (becameReserved c bucket (markFirst c opts.ReserveDeadline bucket N)).length
      = min N (bucket.filter (isUnreserved c)).length := by
    rw [becameReserved_markFirst c _ bucket N hwf]
    simp [firstUnreserved]
  refine ⟨markFirst c opts.ReserveDeadline bucket N, ?_, ?_, hlen, ?_⟩
  · simp [BoltPartition.Reserve, DB.Bucket, hb, h1]
  · simp [BoltPartition.Reserve, DB.Bucket, hb, h1, h2]
  · rw [hlen]; exact Nat.min_le_left _ _

/-- Witness of C1: two unreserved items, total 2, an iterator with two free slots. -/
theorem reserve_fills_min_witness :
    ∃ after, (BoltPartition.Reserve plainCodec samplePartition (slotBatch 2 2)
        { ReserveDeadline := 7, Limit := 0 }).err = none ∧
      (BoltPartition.Reserve plainCodec samplePartition (slotBatch 2 2)
        { ReserveDeadline := 7, Limit := 0 }).db.queue = some after ∧
      (becameReserved plainCodec sampleBucket after).length
        = min 2 (sampleBucket.filter (isUnreserved plainCodec)).length ∧
      (becameReserved plainCodec sampleBucket after).length ≤ 2 :=
  reserve_fills_min plainCodec samplePartition (slotBatch 2 2)
    { ReserveDeadline := 7, Limit := 0 } sampleBucket 2 rfl (by decide) rfl
    (fun _ => ⟨rfl, fun _ => ⟨rfl, trivial⟩⟩)

/-- C8: on a reachable partition, the items a reserve call moves from unreserved to
reserved are the first `j` unreserved entries in key order for some `j`, the iterator
takes exactly the items of these entries, and the items are handed to the iterator in
strictly ascending id order. -/
theorem reserve_takes_first_unreserved {σ : Type} (c : Codec) (b : BoltPartition)
    (batch : ReserveBatch σ) (opts : ReserveOptions) (h : Reachable c b) :
    ∃ bucket after j, b.db.queue = some bucket ∧
      (BoltPartition.Reserve c b batch opts).err = none ∧
      (BoltPartition.Reserve c b batch opts).db.queue = some after ∧
      becameReserved c bucket after = firstUnreserved c bucket j ∧
      (BoltPartition.Reserve c b batch opts).accepted = offered c opts.ReserveDeadline bucket j ∧
      (BoltPartition.Reserve c b batch opts).accepted.map (fun x => x.ID)
        = (firstUnreserved c bucket j).map Prod.fst ∧
      ((BoltPartition.Reserve c b batch opts).handed.map (fun h => h.1.ID)).Pairwise
        (fun x y => x < y) := by
  obtain ⟨bucket, hb, hwf⟩ := reachable_WF c b h
  obtain ⟨j, m, _, _, _, _, h1, h2, h3, _⟩ := Reserve_spec c b batch opts bucket hb hwf
  refine ⟨bucket, markFirst c opts.ReserveDeadline bucket j, j, hb, h1, by simp [h2],
    becameReserved_markFirst c _ bucket j hwf, h3, ?_,
    Reserve_handed_sorted c b batch opts bucket hb hwf⟩
  rw [h3]
  exact offered_ids c _ bucket j hwf.2

/-- Witness of C8: a partition after one `Produce`, reserved with total 2. -/
theorem reserve_takes_first_unreserved_witness :
    ∃ bucket after j, producedPartition.db.queue = some bucket ∧
      (BoltPartition.Reserve plainCodec producedPartition (slotBatch 2 2)
        { ReserveDeadline := 7, Limit := 0 }).err = none ∧
      (BoltPartition.Reserve plainCodec producedPartition (slotBatch 2 2)
        { ReserveDeadline := 7, Limit := 0 }).db.queue = some after ∧
      becameReserved plainCodec bucket after = firstUnreserved plainCodec bucket j ∧
      (BoltPartition.Reserve plainCodec producedPartition (slotBatch 2 2)
        { ReserveDeadline := 7, Limit := 0 }).accepted = offered plainCodec 7 bucket j ∧
      (BoltPartition.Reserve plainCodec producedPartition (slotBatch 2 2)
        { ReserveDeadline := 7, Limit := 0 }).accepted.map (fun x => x.ID)
        = (firstUnreserved plainCodec bucket j).map Prod.fst ∧
      ((BoltPartition.Reserve plainCodec producedPartition (slotBatch 2 2)
        { ReserveDeadline := 7, Limit := 0 }).handed.map (fun h => h.1.ID)).Pairwise
        (fun x y => x < y) :=
  reserve_takes_first_unreserved plainCodec producedPartition (slotBatch 2 2)
    { ReserveDeadline := 7, Limit := 0 } (Reachable.produce _ _ (Reachable.fresh _))

/-- C9: on a reachable partition, a reserve call leaves the keys of the bucket as they
were, and so the number of entries: it neither creates nor removes an entry. -/
theorem reserve_keeps_key_set {σ : Type} (c : Codec) (b : BoltPartition)
    (batch : ReserveBatch σ) (opts : ReserveOptions) (h : Reachable c b) :
    ∃ bucket after, b.db.queue = some bucket ∧
      (BoltPartition.Reserve c b batch opts).db.queue = some after ∧
      after.map Prod.fst = bucket.map Prod.fst ∧ after.length = bucket.length := by
  obtain ⟨bucket, hb, hwf⟩ := reachable_WF c b h
  obtain ⟨after, _, h2, _, h4, _, _⟩ := Reserve_frame_spec c b batch opts bucket hb hwf
  refine ⟨bucket, after, hb, h2, h4, ?_⟩
  have := congrArg List.length h4
  simpa using this

/-- Witness of C9: a partition after one `Produce`, reserved with total 2. -/
theorem reserve_keeps_key_set_witness :
    ∃ bucket after, producedPartition.db.queue = some bucket ∧
      (BoltPartition.Reserve plainCodec producedPartition (slotBatch 2 1)
        { ReserveDeadline := 7, Limit := 0 }).db.queue = some after ∧
      after.map Prod.fst = bucket.map Prod.fst ∧ after.length = bucket.length :=
  reserve_keeps_key_set plainCodec producedPartition (slotBatch 2 1)
    { ReserveDeadline := 7, Limit := 0 } (Reachable.produce _ _ (Reachable.fresh _))

/-- C10: a reserve call on a partition state leaves every entry whose key is not the id
of an item the iterator took exactly as it was stored; this covers the entries that were
already reserved and the entry of the item the iterator turned down. The record stored
for an item the iterator took is the previous record with `IsReserved` set and
`ReserveDeadline` replaced by `opts.ReserveDeadline`, every other field as before. -/
theorem reserve_frame {σ : Type} (c : Codec) (b : BoltPartition) (batch : ReserveBatch σ)
    (opts : ReserveOptions) (bucket : Bucket) (hb : b.db.queue = some bucket)
    (hwf : Bucket.WF c bucket) :
    ∃ after, (BoltPartition.Reserve c b batch opts).db.queue = some after ∧
      (∀ kv ∈ bucket, (∀ x ∈ (BoltPartition.Reserve c b batch opts).accepted, x.ID ≠ kv.1) →
        Bucket.Get after kv.1 = some kv.2) ∧
      (∀ kv ∈ bucket, isReserved c kv = true → Bucket.Get after kv.1 = some kv.2) ∧
      (∀ h ∈ (BoltPartition.Reserve c b batch opts).handed, h.2 = false →
        ∃ v, Bucket.Get bucket h.1.ID = some v ∧ Bucket.Get after h.1.ID = some v) ∧
      (∀ x ∈ (BoltPartition.Reserve c b batch opts).accepted, ∃ v old,
        Bucket.Get bucket x.ID = some v ∧ c.decode v = some old ∧ old.IsReserved = false ∧
        Bucket.Get after x.ID = some (c.encode x) ∧ c.decode (c.encode x) = some x ∧
        x = { old with IsReserved := true, ReserveDeadline := opts.ReserveDeadline }) := by
  obtain ⟨after, _, h2, hwfa, _, hkeep, hacc⟩ := Reserve_frame_spec c b batch opts bucket hb hwf
  have hsorted := Reserve_handed_sorted c b batch opts bucket hb hwf
  obtain ⟨j, m, _, _, _, _, _, _, _, h4⟩ := Reserve_spec c b batch opts bucket hb hwf
  refine ⟨after, h2, ?_, ?_, ?_, ?_⟩
  · intro kv hkv hne
    exact Bucket.Get_of_mem after hwfa.1 kv (hkeep kv hkv hne)
  · intro kv hkv hres
    apply Bucket.Get_of_mem after hwfa.1 kv
    apply hkeep kv hkv
    intro x hx hxk
    obtain ⟨v, old, hmem, hd, hun, _, _⟩ := hacc x hx
    have heq := Bucket.eq_of_key_eq bucket hwf.1 (x.ID, v) kv hmem hkv hxk
    rw [heq] at hun
    unfold isReserved at hres
    unfold isUnreserved at hun
    cases hdk : c.decode kv.2 with
    | none => simp [hdk] at hres
    | some item => simp [hdk] at hres hun; simp [hres] at hun
  · intro h hh hfalse
    have hmemo : h.1 ∈ offered c opts.ReserveDeadline bucket m := by
      rw [← h4]; exact List.mem_map_of_mem _ hh
    obtain ⟨kv, old, hkv, hd, hxe⟩ := mem_offered c _ bucket m h.1 hmemo
    have hmem : kv ∈ bucket := (firstUnreserved_sublist c bucket m).subset hkv
    obtain ⟨item, hd1, hid⟩ := entryOK_decode c kv (hwf.2 kv hmem)
    rw [hd] at hd1
    have hxid : h.1.ID = kv.1 := by rw [hxe, Item.reserve_ID, Option.some.inj hd1, hid]
    have hpw : (BoltPartition.Reserve c b batch opts).handed.Pairwise
        (fun a b => a.1.ID ≠ b.1.ID) :=
      (List.pairwise_map.mp hsorted).imp (fun hlt => ne_of_lt hlt)
    have hsym : Symmetric (fun a b : Item × Bool => a.1.ID ≠ b.1.ID) :=
      fun a b hab => fun e => hab e.symm
    refine ⟨kv.2, ?_, ?_⟩
    · rw [hxid]; exact Bucket.Get_of_mem bucket hwf.1 kv hmem
    · rw [hxid]
      apply Bucket.Get_of_mem after hwfa.1 kv
      apply hkeep kv hmem
      intro x hx hxk
      unfold ReserveResult.accepted at hx
      rcases List.mem_map.mp hx with ⟨h1, hh1, rfl⟩
      have hh1' := List.mem_filter.mp hh1
      have hne : h1 ≠ h := by
        intro e
        rw [e, hfalse] at hh1'
        simp at hh1'
      exact hpw.forall hsym hh1'.1 hh hne (by rw [hxk, hxid])
  · intro x hx
    obtain ⟨v, old, hmem, hd, hun, hafter, hxe⟩ := hacc x hx
    refine ⟨v, old, Bucket.Get_of_mem bucket hwf.1 _ hmem, hd, ?_,
      Bucket.Get_of_mem after hwfa.1 _ hafter, c.decode_encode x, hxe⟩
    simpa [isUnreserved, hd] using hun

/-- Witness of C10: the sample partition, reserved with total 2 by an iterator with one
free slot, which takes `a` and turns `c` down. -/
theorem reserve_frame_witness :
    ∃ after, (BoltPartition.Reserve plainCodec samplePartition (slotBatch 2 1)
        { ReserveDeadline := 7, Limit := 0 }).db.queue = some after ∧
      (∀ kv ∈ sampleBucket, (∀ x ∈ (BoltPartition.Reserve plainCodec samplePartition
          (slotBatch 2 1) { ReserveDeadline := 7, Limit := 0 }).accepted, x.ID ≠ kv.1) →
        Bucket.Get after kv.1 = some kv.2) ∧
      (∀ kv ∈ sampleBucket, isReserved plainCodec kv = true →
        Bucket.Get after kv.1 = some kv.2) ∧
      (∀ h ∈ (BoltPartition.Reserve plainCodec samplePartition (slotBatch 2 1)
          { ReserveDeadline := 7, Limit := 0 }).handed, h.2 = false →
        ∃ v, Bucket.Get sampleBucket h.1.ID = some v ∧ Bucket.Get after h.1.ID = some v) ∧
      (∀ x ∈ (BoltPartition.Reserve plainCodec samplePartition (slotBatch 2 1)
          { ReserveDeadline := 7, Limit := 0 }).accepted, ∃ v old,
        Bucket.Get sampleBucket x.ID = some v ∧ plainCodec.decode v = some old ∧
        old.IsReserved = false ∧
        Bucket.Get after x.ID = some (plainCodec.encode x) ∧
        plainCodec.decode (plainCodec.encode x) = some x ∧
        x = { old with IsReserved := true, ReserveDeadline := 7 }) :=
  reserve_frame plainCodec samplePartition (slotBatch 2 1)
    { ReserveDeadline := 7, Limit := 0 } sampleBucket rfl (by decide)


/-! ## Complete: the claims -/

/-- C7: on a partition whose values decode, `Complete` returns no error and commits the
working bucket, and the `Err` field of each request is decided by the first id of the
request that fails, the ids before it having been completed: invalid option when that id
is ill-formed, invalid option when it is well-formed but absent, conflict when it is
present but not reserved; when no id fails the field is left as it was passed in. -/
theorem complete_records_first_failure (c : Codec) (b : BoltPartition)
    (batch : Batch CompleteRequest) (bucket : Bucket) (hb : b.db.queue = some bucket)
    (hdec : Bucket.Decodable c bucket) :
    (BoltPartition.Complete c b batch).err = none ∧
    (BoltPartition.Complete c b batch).db.queue
      = some (completeRequests c batch.Requests bucket).2.1 ∧
    errInvalidID.kind = ErrorKind.invalidOption ∧ errNotExist.kind = ErrorKind.invalidOption ∧
    errNotReserved.kind = ErrorKind.conflict ∧
    ∀ before r rest, batch.Requests = before ++ r :: rest →
      ∃ before1 r1 rest1,
        (BoltPartition.Complete c b batch).requests = before1 ++ r1 :: rest1 ∧
        before1.length = before.length ∧ r1.Ids = r.Ids ∧
        (allCompletable c (completeRequests c before bucket).2.1 r.Ids → r1.Err = r.Err) ∧
        ∀ pre id post, r.Ids = pre ++ id :: post →
          allCompletable c (completeRequests c before bucket).2.1 pre →
          (BoltPartition.validateID id ≠ none → r1.Err = some errInvalidID) ∧
          (BoltPartition.validateID id = none →
            Bucket.Get (deleteAll (completeRequests c before bucket).2.1 pre) id = none →
            r1.Err = some errNotExist) ∧
          (∀ v, BoltPartition.validateID id = none →
            Bucket.Get (deleteAll (completeRequests c before bucket).2.1 pre) id = some v →
            isReserved c (id, v) = false → r1.Err = some errNotReserved) := by
  have hdone := completeRequests_spec c batch.Requests bucket hdec
  refine ⟨?_, ?_, rfl, rfl, rfl, ?_⟩
  · simp [BoltPartition.Complete, DB.Bucket, hb, hdone.1]
  · simp [BoltPartition.Complete, DB.Bucket, hb, hdone.1]
  · intro before r rest hsplit
    obtain ⟨perr, before1, rest1, h1, h2, h3⟩ :=
      Complete_request_view c b batch bucket hb hdec before r rest hsplit
    have hdecB := completeRequests_Decodable c before bucket hdec
    obtain ⟨perr1, g1, g2, g3⟩ := completeIds_spec c r.Ids _ hdecB
    rw [h1] at g1
    have hp : perr1 = perr := by
      simp only [Except.ok.injEq, Prod.mk.injEq, true_and] at g1
      exact g1.symm
    subst hp
    refine ⟨before1, _, rest1, h2, h3, rfl, ?_, ?_⟩
    · intro hall
      simp [g2 hall]
    · intro pre id post hids hpre
      refine ⟨?_, ?_, ?_⟩
      · intro hv
        have hs : idStatus c (deleteAll (completeRequests c before bucket).2.1 pre) id
            = IdStatus.illFormed := by
          unfold idStatus
          cases hvv : BoltPartition.validateID id with
          | none => exact absurd hvv hv
          | some e => rfl
        have := g3 pre id post hids hpre (by rw [hs]; decide)
        rw [hs] at this
        simp [this, IdStatus.error]
      · intro hv hg
        have hs : idStatus c (deleteAll (completeRequests c before bucket).2.1 pre) id
            = IdStatus.absent := by
          simp [idStatus, hv, hg]
        have := g3 pre id post hids hpre (by rw [hs]; decide)
        rw [hs] at this
        simp [this, IdStatus.error]
      · intro v hv hg hr
        have hs : idStatus c (deleteAll (completeRequests c before bucket).2.1 pre) id
            = IdStatus.notReserved := by
          simp [idStatus, hv, hg, hr]
        have := g3 pre id post hids hpre (by rw [hs]; decide)
        rw [hs] at this
        simp [this, IdStatus.error]

/-- Witness of C7: two reserved items under 20-byte ids, one request listing the first
id, an ill-formed id and the second id. -/
theorem complete_records_first_failure_witness :
    (BoltPartition.Complete plainCodec samplePartition20
      { Requests := [{ Ids := [sampleID 1, notAKsuid, sampleID 2], Err := none }] }).err = none ∧
    (BoltPartition.Complete plainCodec samplePartition20
      { Requests := [{ Ids := [sampleID 1, notAKsuid, sampleID 2], Err := none }] }).db.queue
      = some (completeRequests plainCodec
          [{ Ids := [sampleID 1, notAKsuid, sampleID 2], Err := none }] sampleBucket20).2.1 ∧
    errInvalidID.kind = ErrorKind.invalidOption ∧ errNotExist.kind = ErrorKind.invalidOption ∧
    errNotReserved.kind = ErrorKind.conflict ∧
    ∀ before r rest,
      [({ Ids := [sampleID 1, notAKsuid, sampleID 2], Err := none } : CompleteRequest)]
        = before ++ r :: rest →
      ∃ before1 r1 rest1,
        (BoltPartition.Complete plainCodec samplePartition20
          { Requests := [{ Ids := [sampleID 1, notAKsuid, sampleID 2], Err := none }] }).requests
          = before1 ++ r1 :: rest1 ∧
        before1.length = before.length ∧ r1.Ids = r.Ids ∧
        (allCompletable plainCodec (completeRequests plainCodec before sampleBucket20).2.1 r.Ids →
          r1.Err = r.Err) ∧
        ∀ pre id post, r.Ids = pre ++ id :: post →
          allCompletable plainCodec (completeRequests plainCodec before sampleBucket20).2.1 pre →
          (BoltPartition.validateID id ≠ none → r1.Err = some errInvalidID) ∧
          (BoltPartition.validateID id = none →
            Bucket.Get (deleteAll (completeRequests plainCodec before sampleBucket20).2.1 pre) id
              = none →
            r1.Err = some errNotExist) ∧
          (∀ v, BoltPartition.validateID id = none →
            Bucket.Get (deleteAll (completeRequests plainCodec before sampleBucket20).2.1 pre) id
              = some v →
            isReserved plainCodec (id, v) = false → r1.Err = some errNotReserved) :=
  complete_records_first_failure plainCodec samplePartition20
    { Requests := [{ Ids := [sampleID 1, notAKsuid, sampleID 2], Err := none }] }
    sampleBucket20 rfl (by decide)

/-- C6: on a partition whose values decode, when the ids of the batch are pairwise
distinct and the ids of one request all pass `validateID`, are all present and are all
reserved, `Complete` returns no error, every id of that request is absent from the
committed bucket, and the `Err` field of the request is left as it was passed in (unset
for a request that came in without an error). -/
theorem complete_deletes_reserved (c : Codec) (b : BoltPartition)
    (batch : Batch CompleteRequest) (bucket : Bucket) (hb : b.db.queue = some bucket)
    (hdec : Bucket.Decodable c bucket)
    (before : List CompleteRequest) (r : CompleteRequest) (rest : List CompleteRequest)
    (hsplit : batch.Requests = before ++ r :: rest)
    (hnodup : (allIds batch.Requests).Nodup)
    (hall : ∀ id ∈ r.Ids, BoltPartition.validateID id = none ∧
      ∃ v, Bucket.Get bucket id = some v ∧ isReserved c (id, v) = true) :
    (BoltPartition.Complete c b batch).err = none ∧
    ∃ after before1 r1 rest1, (BoltPartition.Complete c b batch).db.queue = some after ∧
      (∀ id ∈ r.Ids, Bucket.Get after id = none) ∧
      (BoltPartition.Complete c b batch).requests = before1 ++ r1 :: rest1 ∧
      before1.length = before.length ∧ r1.Ids = r.Ids ∧ r1.Err = r.Err ∧
      (r.Err = none → r1.Err = none) := by
  obtain ⟨herr, hq⟩ := Complete_commits c b batch bucket hb hdec
  obtain ⟨perr, before1, rest1, h1, h2, h3⟩ :=
    Complete_request_view c b batch bucket hb hdec before r rest hsplit
  have hdecB := completeRequests_Decodable c before bucket hdec
  have hB := (completeRequests_spec c before bucket hdec).2
  rw [hsplit, allIds_append, List.nodup_append] at hnodup
  obtain ⟨_, hnd2, hdisj⟩ := hnodup
  have hndr : r.Ids.Nodup := by
    simp only [allIds] at hnd2
    exact (List.nodup_append.mp hnd2).1
  have hallB : allCompletable c (completeRequests c before bucket).2.1 r.Ids := by
    intro pre id post hids
    have hmem : id ∈ r.Ids := by rw [hids]; simp
    obtain ⟨hv, v, hg, hr⟩ := hall id hmem
    have hnpre : id ∉ pre := by
      rw [hids] at hndr
      have := (List.nodup_append.mp hndr).2.2
      intro hin
      exact this hin (by simp)
    have hnbefore : id ∉ completedBatch c bucket before := by
      intro hin
      have h1 := completedBatch_subset c before bucket id hin
      exact hdisj h1 (by simp [allIds, hmem])
    rw [idStatus_completable_iff]
    refine ⟨hv, v, ?_, hr⟩
    rw [Bucket.Get_deleteAll, hB, Bucket.Get_deleteAll]
    simp [hnpre, hnbefore, hg]
  obtain ⟨perr1, g1, g2, _⟩ := completeIds_spec c r.Ids _ hdecB
  rw [h1] at g1
  have hp : perr = none := by
    simp only [Except.ok.injEq, Prod.mk.injEq, true_and] at g1
    rw [g1]; exact g2 hallB
  subst hp
  refine ⟨herr, _, before1, _, rest1, hq, ?_, h2, h3, rfl, by simp, by simp⟩
  intro id hid
  rw [Bucket.Get_deleteAll, hsplit, completedBatch_append]
  have : id ∈ completedBatch c (deleteAll bucket (completedBatch c bucket before)) (r :: rest) := by
    simp only [completedBatch, List.mem_append]
    left
    rw [← hB, completedIds_of_all c r.Ids _ hallB]
    exact hid
  simp [this]

/-- Witness of C6: two reserved items under 20-byte ids, completed by one request. -/
theorem complete_deletes_reserved_witness :
    (BoltPartition.Complete plainCodec samplePartition20
      { Requests := [{ Ids := [sampleID 1, sampleID 2], Err := none }] }).err = none ∧
    ∃ after before1 r1 rest1,
      (BoltPartition.Complete plainCodec samplePartition20
        { Requests := [{ Ids := [sampleID 1, sampleID 2], Err := none }] }).db.queue
        = some after ∧
      (∀ id ∈ [sampleID 1, sampleID 2], Bucket.Get after id = none) ∧
      (BoltPartition.Complete plainCodec samplePartition20
        { Requests := [{ Ids := [sampleID 1, sampleID 2], Err := none }] }).requests
        = before1 ++ r1 :: rest1 ∧
      before1.length = ([] : List CompleteRequest).length ∧
      r1.Ids = [sampleID 1, sampleID 2] ∧ r1.Err = none ∧
      ((none : Option Error) = none → r1.Err = none) :=
  complete_deletes_reserved plainCodec samplePartition20
    { Requests := [{ Ids := [sampleID 1, sampleID 2], Err := none }] } sampleBucket20 rfl
    (by decide) [] { Ids := [sampleID 1, sampleID 2], Err := none } [] rfl (by decide)
    (by decide)

/-- C2: on every partition reachable from an empty bucket through produce, add, reserve,
complete, delete and clear, `Complete` returns no error and commits the bucket as it was:
every key of such a partition is a 27-byte id, which `validateID` rejects, and an id that
passes `validateID` is not a key. So every item whose id is listed only in requests that
end with a recorded error is still present after the call, its stored record unchanged. -/
theorem complete_keeps_items_of_failed_requests (c : Codec) (b : BoltPartition)
    (batch : Batch CompleteRequest) (h : Reachable c b) :
    ∃ bucket, b.db.queue = some bucket ∧
      (BoltPartition.Complete c b batch).err = none ∧
      (BoltPartition.Complete c b batch).db.queue = some bucket ∧
      ∀ (id v : Bytes), Bucket.Get bucket id = some v →
        (∀ r ∈ (BoltPartition.Complete c b batch).requests, id ∈ r.Ids → r.Err ≠ none) →
        ∃ after, (BoltPartition.Complete c b batch).db.queue = some after ∧
          Bucket.Get after id = some v := by
  obtain ⟨bucket, hb, hk⟩ := reachable_keys c b h
  obtain ⟨bucket0, hb0, hwf⟩ := reachable_WF c b h
  have hbe : bucket0 = bucket := by
    rw [hb] at hb0
    exact (Option.some.inj hb0).symm
  subst hbe
  obtain ⟨h1, h2⟩ := Complete_commits c b batch bucket0 hb (Bucket.WF_Decodable c bucket0 hwf)
  rw [completedBatch_of_keys c bucket0 hk] at h2
  have h3 : (BoltPartition.Complete c b batch).db.queue = some bucket0 := by
    simpa [deleteAll] using h2
  exact ⟨bucket0, hb, h1, h3, fun id v hg _ => ⟨bucket0, h3, hg⟩⟩

/-- Witness of C2, scenario S3: three items produced, the first two reserved, and one
request with the id of the first item, an ill-formed id and the id of the second item.
The request ends with the invalid option error and both items are still stored. -/
theorem complete_keeps_items_of_failed_requests_witness :
    (∃ bucket, reservedPartition.db.queue = some bucket ∧
      (BoltPartition.Complete plainCodec reservedPartition
        { Requests := [{ Ids := [producedID1, notAKsuid, producedID2], Err := none }] }).err
        = none ∧
      (BoltPartition.Complete plainCodec reservedPartition
        { Requests := [{ Ids := [producedID1, notAKsuid, producedID2], Err := none }] }).db.queue
        = some bucket ∧
      ∀ (id v : Bytes), Bucket.Get bucket id = some v →
        (∀ r ∈ (BoltPartition.Complete plainCodec reservedPartition
            { Requests := [{ Ids := [producedID1, notAKsuid, producedID2], Err := none }] }).requests,
          id ∈ r.Ids → r.Err ≠ none) →
        ∃ after, (BoltPartition.Complete plainCodec reservedPartition
            { Requests := [{ Ids := [producedID1, notAKsuid, producedID2],
                             Err := none }] }).db.queue = some after ∧
          Bucket.Get after id = some v) ∧
    (BoltPartition.Complete plainCodec reservedPartition
      { Requests := [{ Ids := [producedID1, notAKsuid, producedID2], Err := none }] }).requests
      = [{ Ids := [producedID1, notAKsuid, producedID2], Err := some errInvalidID }] ∧
    reservedIds = [producedID1, producedID2] ∧
    (reservedPartition.db.queue.map (fun bk => bk.map Prod.fst))
      = some [producedID1, producedID2, producedID3] :=
  ⟨complete_keeps_items_of_failed_requests plainCodec reservedPartition
      { Requests := [{ Ids := [producedID1, notAKsuid, producedID2], Err := none }] }
      (Reachable.reserve (slotBatch 2 2) { ReserveDeadline := 7, Limit := 0 }
        (Reachable.produce _ _ (Reachable.fresh _))),
    by decide, by decide, by decide⟩

/-! ## The ids the store assigns -/

/-- C3, what the code does: every id that the loop of `Produce` and `Add` stamps on an
item is the 27-byte text of the counter, and `validateID`, which takes 20-byte ids
only, rejects it. -/
theorem produced_id_fails_validation (c : Codec) (now : Nat → Time) (items : List Item)
    (st : ProduceState) :
    ∀ x ∈ (produceItems c now items st).1,
      x.ID.length = 27 ∧ BoltPartition.validateID x.ID = some "invalid storage id" := by
  induction items generalizing st with
  | nil => intro x hx; simp [produceItems] at hx
  | cons item items ih =>
    intro x hx
    simp only [produceItems, List.mem_cons] at hx
    rcases hx with h | h
    · subst h
      have hl : (produceItem c now st item).1.ID.length = 27 := by
        simp only [produceItem]
        exact KSUID.String_length _
      refine ⟨hl, ?_⟩
      simp [BoltPartition.validateID, ksuid.FromBytes, ksuid.byteLength, hl]
    · exact ih _ x h

/-- Witness of C3: the first item produced on a fresh partition whose counter is zero. -/
theorem produced_id_fails_validation_witness :
    (sampleItem producedID1 false "a").ID.length = 27 ∧
      BoltPartition.validateID (sampleItem producedID1 false "a").ID
        = some "invalid storage id" :=
  produced_id_fails_validation plainCodec (fun n => (n : Int)) [sampleItem [] false "a"]
    { uid := { timestamp := 0, payload := 0 }, tick := 0, bucket := [] }
    (sampleItem producedID1 false "a") (by decide)

/-- C4, what the code does at its witness: three items produced on a fresh partition, two
reserved with deadline 7, `Complete` called with the two ids that were handed out. The
request gets an invalid-option error, nothing is deleted, and `Stats` on a zeroed record
reports a total of 3 with 2 reserved. -/
theorem complete_rejects_handed_ids :
    reservedIds = [producedID1, producedID2] ∧
    (BoltPartition.Complete plainCodec reservedPartition
      { Requests := [{ Ids := reservedIds, Err := none }] }).err = none ∧
    (BoltPartition.Complete plainCodec reservedPartition
      { Requests := [{ Ids := reservedIds, Err := none }] }).requests
      = [{ Ids := reservedIds, Err := some errInvalidID }] ∧
    completedPartition = reservedPartition ∧
    (BoltPartition.Stats plainCodec 10 completedPartition zeroStats).1 = none ∧
    (BoltPartition.Stats plainCodec 10 completedPartition zeroStats).2.Total = 3 ∧
    (BoltPartition.Stats plainCodec 10 completedPartition zeroStats).2.TotalReserved = 2 := by
  decide

/-- C5, what the code does on an item of its own: the first item of `producedPartition`
is present and not reserved, and a request that lists its id gets an invalid-option
error, not a conflict; the item stays. -/
theorem complete_unreserved_gets_invalid_option :
    (∃ v, Bucket.Get (producedPartition.db.queue.getD []) producedID1 = some v ∧
      isUnreserved plainCodec (producedID1, v) = true) ∧
    (BoltPartition.Complete plainCodec producedPartition
      { Requests := [{ Ids := [producedID1], Err := none }] }).requests
      = [{ Ids := [producedID1], Err := some errInvalidID }] ∧
    errInvalidID.kind = ErrorKind.invalidOption ∧
    (BoltPartition.Complete plainCodec producedPartition
      { Requests := [{ Ids := [producedID1], Err := none }] }).db = producedPartition.db := by
  refine ⟨⟨plainCodec.encode { sampleItem producedID1 false "a" with CreatedAt := 0 }, ?_, ?_⟩,
    ?_, ?_, ?_⟩ <;> decide

/-! ## List: the claims -/

/-- C12, what the code does at limit 0: on the sample partition, which holds three
items, `List` from the start with `Limit = 0` appends one item, not none. The first
entry is appended before the limit is looked at. -/
theorem list_limit_zero_appends_one :
    BoltPartition.List plainCodec samplePartition [] { Pivot := none, Limit := 0 }
      = (none, [sampleItem [1] false "a"]) ∧
    ((0 : Int) < (BoltPartition.List plainCodec samplePartition []
      { Pivot := none, Limit := 0 }).2.length) := by
  decide

/-- C13, what the code does for a pivot that is no key: the pivot `sampleID 0` passes
`validateID`, is the key of no entry of the bucket and is below both keys; `List`
returns no error and appends both items. -/
theorem list_absent_pivot_succeeds :
    BoltPartition.validateID (sampleID 0) = none ∧
    Bucket.Get sampleBucket20 (sampleID 0) = none ∧
    BoltPartition.List plainCodec samplePartition20 []
        { Pivot := some (sampleID 0), Limit := 10 }
      = (none, [sampleItem (sampleID 1) true "a", sampleItem (sampleID 2) true "b"]) := by
  decide

/-- C14, what the code does at its witness: five items produced on a fresh partition,
`List` with the id of the third item as pivot and limit 10. The pivot is the key of an
entry, but it is a 27-byte id, `validateID` rejects it, and `List` returns an
invalid-option error and appends nothing. -/
theorem list_pivot_of_produced_item :
    (producedFive.db.queue.map (fun bucket => bucket.map Prod.fst)
      = some [stringBytes "000000000000000000000000001", stringBytes "000000000000000000000000002",
              producedID3, stringBytes "000000000000000000000000004",
              stringBytes "000000000000000000000000005"]) ∧
    BoltPartition.List plainCodec producedFive [] { Pivot := some producedID3, Limit := 10 }
      = (some errInvalidID, []) ∧
    errInvalidID.kind = ErrorKind.invalidOption := by
  decide

/-! ## Clear and Delete: the claims -/

/-- C15: on a partition state, the non-destructive `Clear` returns no error; every item
that was reserved is still stored under its key with the same bytes, no item that was
unreserved remains, and what remains is the bucket without its unreserved entries. -/
theorem clear_keeps_reserved (c : Codec) (b : BoltPartition) (bucket : Bucket)
    (hb : b.db.queue = some bucket) (hwf : Bucket.WF c bucket) :
    (BoltPartition.Clear c b false).1 = none ∧
    ∃ after, (BoltPartition.Clear c b false).2.queue = some after ∧
      (∀ kv ∈ bucket, isReserved c kv = true → Bucket.Get after kv.1 = some kv.2) ∧
      (∀ kv ∈ bucket, isUnreserved c kv = true → Bucket.Get after kv.1 = none) ∧
      (∀ kv ∈ after, kv ∈ bucket ∧ isReserved c kv = true) := by
  have hdec := Bucket.WF_Decodable c bucket hwf
  have hclear := clearLoop_spec c bucket bucket hdec
  refine ⟨by simp [BoltPartition.Clear, DB.Bucket, hb, hclear],
    deleteAll bucket ((bucket.filter (isUnreserved c)).map Prod.fst),
    by simp [BoltPartition.Clear, DB.Bucket, hb, hclear], ?_, ?_, ?_⟩
  · intro kv hkv hres
    rw [Bucket.Get_deleteAll]
    have hnot : kv.1 ∉ (bucket.filter (isUnreserved c)).map Prod.fst := by
      intro hin
      rcases List.mem_map.mp hin with ⟨kv1, hkv1, hk⟩
      have hmem1 := (List.mem_filter.mp hkv1).1
      have hun := (List.mem_filter.mp hkv1).2
      have heq := Bucket.eq_of_key_eq bucket hwf.1 kv1 kv hmem1 hkv hk
      rw [heq] at hun
      unfold isReserved at hres
      unfold isUnreserved at hun
      cases hd : c.decode kv.2 with
      | none => simp [hd] at hres
      | some item => simp [hd] at hres hun; simp [hres] at hun
    simp [hnot, Bucket.Get_of_mem bucket hwf.1 kv hkv]
  · intro kv hkv hun
    rw [Bucket.Get_deleteAll]
    have hin : kv.1 ∈ (bucket.filter (isUnreserved c)).map Prod.fst :=
      List.mem_map_of_mem _ (List.mem_filter.mpr ⟨hkv, hun⟩)
    simp [hin]
  · intro kv hkv
    rw [deleteAll_eq_filter] at hkv
    obtain ⟨hmem, hk⟩ := List.mem_filter.mp hkv
    refine ⟨hmem, ?_⟩
    have hnot : kv.1 ∉ (bucket.filter (isUnreserved c)).map Prod.fst := by simpa using hk
    have hsome := hdec kv hmem
    cases hd : c.decode kv.2 with
    | none => simp [hd] at hsome
    | some item =>
      cases hr : item.IsReserved with
      | true => simp [isReserved, hd, hr]
      | false =>
        exfalso
        apply hnot
        exact List.mem_map_of_mem _ (List.mem_filter.mpr ⟨hmem, by simp [isUnreserved, hd, hr]⟩)

/-- Witness of C15: the sample partition, with `a` and `c` unreserved and `b` reserved. -/
theorem clear_keeps_reserved_witness :
    (BoltPartition.Clear plainCodec samplePartition false).1 = none ∧
    ∃ after, (BoltPartition.Clear plainCodec samplePartition false).2.queue = some after ∧
      (∀ kv ∈ sampleBucket, isReserved plainCodec kv = true →
        Bucket.Get after kv.1 = some kv.2) ∧
      (∀ kv ∈ sampleBucket, isUnreserved plainCodec kv = true →
        Bucket.Get after kv.1 = none) ∧
      (∀ kv ∈ after, kv ∈ sampleBucket ∧ isReserved plainCodec kv = true) :=
  clear_keeps_reserved plainCodec samplePartition sampleBucket rfl (by decide)

/-- C16: when the destructive `Clear` returns no error, the `queue` bucket exists and is
empty, and `Stats` on a zeroed record then returns no error and leaves the record zero,
so `Total = 0`. -/
theorem clear_destructive_empties (c : Codec) (b : BoltPartition) (now : Time)
    (h : (BoltPartition.Clear c b true).1 = none) :
    (BoltPartition.Clear c b true).2.queue = some [] ∧
    BoltPartition.Stats c now { uid := b.uid, db := (BoltPartition.Clear c b true).2 } zeroStats
      = (none, zeroStats) ∧
    (BoltPartition.Stats c now { uid := b.uid, db := (BoltPartition.Clear c b true).2 }
      zeroStats).2.Total = 0 := by
  cases hq : b.db.queue with
  | none => simp [BoltPartition.Clear, hq] at h
  | some bucket =>
    have hc : (BoltPartition.Clear c b true).2 = { queue := some [] } := by
      simp [BoltPartition.Clear, hq]
    rw [hc]
    refine ⟨rfl, ?_, ?_⟩ <;>
      simp [BoltPartition.Stats, DB.Bucket, statsLoop, statsAverages, zeroStats]

/-- Witness of C16: the sample partition, which holds reserved and unreserved items. -/
theorem clear_destructive_empties_witness :
    (BoltPartition.Clear plainCodec samplePartition true).2.queue = some [] ∧
    BoltPartition.Stats plainCodec 10
        { uid := samplePartition.uid, db := (BoltPartition.Clear plainCodec samplePartition true).2 }
        zeroStats
      = (none, zeroStats) ∧
    (BoltPartition.Stats plainCodec 10
        { uid := samplePartition.uid, db := (BoltPartition.Clear plainCodec samplePartition true).2 }
        zeroStats).2.Total = 0 :=
  clear_destructive_empties plainCodec samplePartition 10 (by decide)

/-- C17: a `Delete` whose list holds an id that does not pass `validateID` returns an
invalid-option error and leaves the engine file as it was: no id of the list is
removed, the well-formed ones before the bad id included. -/
theorem delete_invalid_id_aborts (b : BoltPartition) (bucket : Bucket) (ids : List Bytes)
    (hb : b.db.queue = some bucket)
    (hbad : ∃ id ∈ ids, BoltPartition.validateID id ≠ none) :
    (BoltPartition.Delete b ids).1 = some errInvalidID ∧
    errInvalidID.kind = ErrorKind.invalidOption ∧
    (BoltPartition.Delete b ids).2 = b.db := by
  have h := deleteLoop_invalid ids bucket hbad
  simp [BoltPartition.Delete, DB.Bucket, hb, h, Error.kind, errInvalidID]

/-- Witness of C17: the id of the first item, then an ill-formed id. -/
theorem delete_invalid_id_aborts_witness :
    (BoltPartition.Delete samplePartition20 [sampleID 1, notAKsuid]).1 = some errInvalidID ∧
    errInvalidID.kind = ErrorKind.invalidOption ∧
    (BoltPartition.Delete samplePartition20 [sampleID 1, notAKsuid]).2 = samplePartition20.db :=
  delete_invalid_id_aborts samplePartition20 sampleBucket20 [sampleID 1, notAKsuid] rfl
    ⟨notAKsuid, by decide, by decide⟩

/-- C18: a `Delete` whose ids all pass `validateID` returns no error; the bucket it
commits is the old one without the entries whose key is listed, so that no listed id is
present afterwards, reserved or not, an id that was absent is passed over in silence,
and every entry whose key is not listed is still there with the same bytes. -/
theorem delete_valid_ids (b : BoltPartition) (bucket : Bucket) (ids : List Bytes)
    (hb : b.db.queue = some bucket)
    (hv : ∀ id ∈ ids, BoltPartition.validateID id = none) :
    (BoltPartition.Delete b ids).1 = none ∧
    ∃ after, (BoltPartition.Delete b ids).2.queue = some after ∧
      after = bucket.filter (fun kv => decide (kv.1 ∉ ids)) ∧
      (∀ id ∈ ids, Bucket.Get after id = none) ∧
      (∀ kv ∈ bucket, kv.1 ∉ ids → kv ∈ after) ∧
      (∀ id, id ∉ ids → Bucket.Get after id = Bucket.Get bucket id) := by
  have h := deleteLoop_spec ids bucket hv
  refine ⟨by simp [BoltPartition.Delete, DB.Bucket, hb, h], deleteAll bucket ids,
    by simp [BoltPartition.Delete, DB.Bucket, hb, h], deleteAll_eq_filter ids bucket, ?_, ?_, ?_⟩
  · intro id hid
    simp [Bucket.Get_deleteAll, hid]
  · intro kv hkv hnot
    rw [deleteAll_eq_filter]
    exact List.mem_filter.mpr ⟨hkv, by simpa using hnot⟩
  · intro id hid
    simp [Bucket.Get_deleteAll, hid]

/-- Witness of C18: the id of the first item, which is reserved, and an id that is
absent. -/
theorem delete_valid_ids_witness :
    (BoltPartition.Delete samplePartition20 [sampleID 1, sampleID 3]).1 = none ∧
    ∃ after, (BoltPartition.Delete samplePartition20 [sampleID 1, sampleID 3]).2.queue
        = some after ∧
      after = sampleBucket20.filter (fun kv => decide (kv.1 ∉ [sampleID 1, sampleID 3])) ∧
      (∀ id ∈ [sampleID 1, sampleID 3], Bucket.Get after id = none) ∧
      (∀ kv ∈ sampleBucket20, kv.1 ∉ [sampleID 1, sampleID 3] → kv ∈ after) ∧
      (∀ id, id ∉ [sampleID 1, sampleID 3] → Bucket.Get after id = Bucket.Get sampleBucket20 id) :=
  delete_valid_ids samplePartition20 sampleBucket20 [sampleID 1, sampleID 3] rfl (by decide)

/-! ## Stats: the claims -/

/-- A single term out of range: one reserved item whose deadline lies `2 ^ 64` nanoseconds
before `now = 0`. `Time.Sub` saturates, and `Stats` reports `-(2 ^ 63)` as the average
reserved age, while `reserve_deadline - now` is `-(2 ^ 64)`. -/
theorem stats_saturates_reserved_age :
    (BoltPartition.Stats plainCodec 0 expiredPartition zeroStats).1 = none ∧
    (BoltPartition.Stats plainCodec 0 expiredPartition zeroStats).2.TotalReserved = 1 ∧
    (BoltPartition.Stats plainCodec 0 expiredPartition zeroStats).2.AverageReservedAge
      = -(2 ^ 63) ∧
    Int.tdiv (reservedTerms 0 (decodeAll plainCodec
      [([1], plainCodec.encode { sampleItem [1] true "a" with ReserveDeadline := -(2 ^ 64) })])).sum
      1 = -(2 ^ 64) := by
  decide

/-- Within the range of a 64-bit duration: on a partition whose values decode, when every
term `now - created_at` and every term `reserve_deadline - now` of a reserved entry lies
in that range, and so does every running sum of these terms, `Stats` on a zeroed record
returns no error, sets `Total` to the number of entries and `TotalReserved` to the number
of reserved ones; when `Total` is not 0, `AverageAge` is the sum of the ages divided by
`Total`, the quotient truncated toward zero; when `TotalReserved` is not 0,
`AverageReservedAge` is the sum of the terms `reserve_deadline - now`, negative ones
included, divided by `TotalReserved`; on an empty partition the record stays zero. -/
theorem stats_averages (c : Codec) (now : Time) (b : BoltPartition) (bucket : Bucket)
    (hb : b.db.queue = some bucket) (hdec : Bucket.Decodable c bucket)
    (hlen : (bucket.length : Int) < 2 ^ 63)
    (hage : sumsFit 0 (ageTerms now (decodeAll c bucket)))
    (hres : sumsFit 0 (reservedTerms now (decodeAll c bucket))) :
    (BoltPartition.Stats c now b zeroStats).1 = none ∧
    (BoltPartition.Stats c now b zeroStats).2.Total = bucket.length ∧
    (BoltPartition.Stats c now b zeroStats).2.TotalReserved
      = ((decodeAll c bucket).filter (fun item => item.IsReserved)).length ∧
    ((BoltPartition.Stats c now b zeroStats).2.Total ≠ 0 →
      (BoltPartition.Stats c now b zeroStats).2.AverageAge
        = Int.tdiv (ageTerms now (decodeAll c bucket)).sum
            (BoltPartition.Stats c now b zeroStats).2.Total) ∧
    ((BoltPartition.Stats c now b zeroStats).2.TotalReserved ≠ 0 →
      (BoltPartition.Stats c now b zeroStats).2.AverageReservedAge
        = Int.tdiv (reservedTerms now (decodeAll c bucket)).sum
            (BoltPartition.Stats c now b zeroStats).2.TotalReserved) ∧
    (bucket = [] → (BoltPartition.Stats c now b zeroStats).2 = zeroStats) := by
  have hloop := statsLoop_spec c now bucket zeroStats hdec (by simp [zeroStats])
    (by simpa [zeroStats] using hlen) (by simp [zeroStats])
    (by simpa [zeroStats] using hlen) (by simpa [zeroStats] using hage)
    (by simpa [zeroStats] using hres)
  have hz : fitsInt64 (0 : Int) := by decide
  have hfa : fitsInt64 (ageTerms now (decodeAll c bucket)).sum := by
    simpa using sumsFit_sum _ 0 hz hage
  have hfr : fitsInt64 (reservedTerms now (decodeAll c bucket)).sum := by
    simpa using sumsFit_sum _ 0 hz hres
  have hstats : BoltPartition.Stats c now b zeroStats
      = (none, statsAverages
          { Total := bucket.length,
            TotalReserved := ((decodeAll c bucket).filter (fun item => item.IsReserved)).length,
            AverageAge := (ageTerms now (decodeAll c bucket)).sum,
            AverageReservedAge := (reservedTerms now (decodeAll c bucket)).sum,
            ProduceWaiting := 0, ReserveWaiting := 0, CompleteWaiting := 0,
            ReserveBlocked := 0 }) := by
    simp only [BoltPartition.Stats, DB.Bucket, hb, hloop]
    simp [zeroStats]
  rw [hstats]
  simp only [statsAverages_Total, statsAverages_TotalReserved]
  refine ⟨trivial, trivial, trivial, ?_, ?_, ?_⟩
  · intro h0
    have hpos : (0 : Int) < bucket.length := by
      have : (0 : Int) ≤ bucket.length := Int.ofNat_nonneg _
      omega
    rw [statsAverages_AverageAge _ h0]
    exact wrapInt64_of_fits _ (fitsInt64_tdiv _ _ hfa hpos)
  · intro h0
    have hpos : (0 : Int)
        < ((decodeAll c bucket).filter (fun item => item.IsReserved)).length := by
      have : (0 : Int) ≤ ((decodeAll c bucket).filter (fun item => item.IsReserved)).length :=
        Int.ofNat_nonneg _
      omega
    rw [statsAverages_AverageReservedAge _ h0]
    exact wrapInt64_of_fits _ (fitsInt64_tdiv _ _ hfr hpos)
  · intro he
    subst he
    simp [statsAverages, decodeAll, ageTerms, reservedTerms, zeroStats]

/-- The sample partition at `now = 10`, where every sum is in range. -/
theorem stats_averages_witness :
    (BoltPartition.Stats plainCodec 10 samplePartition zeroStats).1 = none ∧
    (BoltPartition.Stats plainCodec 10 samplePartition zeroStats).2.Total = sampleBucket.length ∧
    (BoltPartition.Stats plainCodec 10 samplePartition zeroStats).2.TotalReserved
      = ((decodeAll plainCodec sampleBucket).filter (fun item => item.IsReserved)).length ∧
    ((BoltPartition.Stats plainCodec 10 samplePartition zeroStats).2.Total ≠ 0 →
      (BoltPartition.Stats plainCodec 10 samplePartition zeroStats).2.AverageAge
        = Int.tdiv (ageTerms 10 (decodeAll plainCodec sampleBucket)).sum
            (BoltPartition.Stats plainCodec 10 samplePartition zeroStats).2.Total) ∧
    ((BoltPartition.Stats plainCodec 10 samplePartition zeroStats).2.TotalReserved ≠ 0 →
      (BoltPartition.Stats plainCodec 10 samplePartition zeroStats).2.AverageReservedAge
        = Int.tdiv (reservedTerms 10 (decodeAll plainCodec sampleBucket)).sum
            (BoltPartition.Stats plainCodec 10 samplePartition zeroStats).2.TotalReserved) ∧
    (sampleBucket = [] →
      (BoltPartition.Stats plainCodec 10 samplePartition zeroStats).2 = zeroStats) :=
  stats_averages plainCodec 10 samplePartition sampleBucket rfl (by decide) (by decide)
    (by decide) (by decide)

/-- C20: two unreserved items are produced at instant 0 on a new partition and `Stats` is
called on a zeroed record at `now = 2 ^ 62`. Both ages are `2 ^ 62` nanoseconds, within the
range of a duration, and their sum divided by the number of entries is `2 ^ 62`; `Stats`
counts two entries and reports `AverageAge = -(2 ^ 62)`, the sum of the ages having
wrapped around in the 64-bit field it is accumulated in. -/
theorem stats_average_age_wraps :
    Reachable plainCodec agedPartition ∧
    (∃ bucket, agedPartition.db.queue = some bucket ∧
      ageTerms (2 ^ 62) (decodeAll plainCodec bucket) = [2 ^ 62, 2 ^ 62] ∧
      fitsInt64 (2 ^ 62) ∧
      Int.tdiv (ageTerms (2 ^ 62) (decodeAll plainCodec bucket)).sum 2 = 2 ^ 62) ∧
    (BoltPartition.Stats plainCodec (2 ^ 62) agedPartition zeroStats).1 = none ∧
    (BoltPartition.Stats plainCodec (2 ^ 62) agedPartition zeroStats).2.Total = 2 ∧
    (BoltPartition.Stats plainCodec (2 ^ 62) agedPartition zeroStats).2.TotalReserved = 0 ∧
    (BoltPartition.Stats plainCodec (2 ^ 62) agedPartition zeroStats).2.AverageAge
      = -(2 ^ 62) := by
  refine ⟨Reachable.produce _ _ (Reachable.fresh _), ?_, by decide, by decide, by decide,
    by decide⟩
  exact ⟨_, rfl, by decide, by decide, by decide⟩

/-! ## Produce and Add: the claims -/

/-- C11: on a partition state none of whose keys is above the text of the counter (a
partition opened on a new file is one), for every sequence of `Produce` and `Add` calls
that does not take the counter past its last value `2 ^ 160 - 1`, the ids assigned are
strictly increasing in the order they are assigned under byte-wise comparison, hence
pairwise distinct, and `List` from the start with a limit that covers the bucket returns
the items that were there followed by the new ones in the order their ids were
assigned. -/
theorem produced_ids_increase (c : Codec) (b : BoltPartition) (bucket : Bucket)
    (ws : List WriteCall) (limit : Int)
    (hb : b.db.queue = some bucket) (hwf : Bucket.WF c bucket)
    (hkeys : ∀ kv ∈ bucket, kv.1 ≤ stringBytes b.uid.String)
    (hwrap : b.uid.toNat + suppliedCount ws < 2 ^ 160)
    (hlimit : ((bucket.length + (runCalls c b ws).2.length : Nat) : Int) ≤ limit) :
    ((runCalls c b ws).2).Pairwise (fun x y => x < y) ∧
    (runCalls c b ws).2.Nodup ∧
    (BoltPartition.List c (runCalls c b ws).1 [] { Pivot := none, Limit := limit }).1 = none ∧
    (BoltPartition.List c (runCalls c b ws).1 [] { Pivot := none, Limit := limit }).2.map
        (fun x => x.ID)
      = bucket.map Prod.fst ++ (runCalls c b ws).2 := by
  obtain ⟨h1, _, entries, h3, h4, h5⟩ := runCalls_spec c ws b bucket hb hkeys hwrap
  have hok : ∀ kv ∈ bucket ++ entries, entryOK c kv = true := by
    intro kv hkv
    rcases List.mem_append.mp hkv with h | h
    · exact hwf.2 kv h
    · exact h5 kv h
  have hdec : Bucket.Decodable c (bucket ++ entries) := by
    intro kv hkv
    obtain ⟨item, hd, _⟩ := entryOK_decode c kv (hok kv hkv)
    simp [hd]
  have hlen : (bucket ++ entries).length ≤ (max 1 limit).toNat := by
    have : entries.length = (runCalls c b ws).2.length := by rw [← h4]; simp
    simp only [List.length_append, this]
    omega
  have hlist := List_from_start c (runCalls c b ws).1 (bucket ++ entries) [] limit h3 hdec
  rw [List.take_of_length_le hlen] at hlist
  refine ⟨h1, h1.imp (fun h => ne_of_lt h), by rw [hlist], ?_⟩
  rw [hlist]
  simp only [List.nil_append]
  rw [decodeAll_ids c _ hok, List.map_append, h4]

/-- Witness of C11: a partition opened on a new file, a `Produce` of two items, then an
`Add` of one. -/
theorem produced_ids_increase_witness :
    ((runCalls plainCodec freshPartition sampleCalls).2).Pairwise (fun x y => x < y) ∧
    (runCalls plainCodec freshPartition sampleCalls).2.Nodup ∧
    (BoltPartition.List plainCodec (runCalls plainCodec freshPartition sampleCalls).1 []
      { Pivot := none, Limit := 10 }).1 = none ∧
    (BoltPartition.List plainCodec (runCalls plainCodec freshPartition sampleCalls).1 []
      { Pivot := none, Limit := 10 }).2.map (fun x => x.ID)
      = ([] : Bucket).map Prod.fst ++ (runCalls plainCodec freshPartition sampleCalls).2 :=
  produced_ids_increase plainCodec freshPartition [] sampleCalls 10 rfl (by decide)
    (by decide) (by decide) (by decide)

/-- C19: on a partition whose values decode and none of whose keys is above the text of
the counter, for a `Produce` or an `Add` that does not take the counter past its last
value: the items as stored carry the reference, encoding, kind, payload, attempts,
max_attempts, dead_deadline, is_reserved and reserve_deadline that were supplied, the
`n`-th of them has the `n`-th clock reading of the call as its created_at, the bucket
grows by the number of items supplied, and `List` from the start with a limit that
covers the bucket returns the items that were there followed by the stored ones. -/
theorem produce_round_trip (c : Codec) (b : BoltPartition) (bucket : Bucket) (w : WriteCall)
    (limit : Int) (hb : b.db.queue = some bucket) (hdec : Bucket.Decodable c bucket)
    (hkeys : ∀ kv ∈ bucket, kv.1 ≤ stringBytes b.uid.String)
    (hwrap : b.uid.toNat + w.supplied.length < 2 ^ 160)
    (hlimit : ((bucket.length + w.supplied.length : Nat) : Int) ≤ limit) :
    List.Forall₂ Item.sameSupplied w.supplied (runCall c b w).2 ∧
    (runCall c b w).2.map (fun x => x.CreatedAt) = (List.range w.supplied.length).map w.now ∧
    ∃ after, (runCall c b w).1.db.queue = some after ∧
      after.length = bucket.length + w.supplied.length ∧
      BoltPartition.List c (runCall c b w).1 [] { Pivot := none, Limit := limit }
        = (none, decodeAll c bucket ++ (runCall c b w).2) := by
  obtain ⟨_, h2, _, _, _, h6, h7⟩ := runCall_spec c b bucket w hb hkeys hwrap
  have hl : (runCall c b w).2.length = w.supplied.length := h6.length_eq.symm
  have hdec1 : Bucket.Decodable c
      (bucket ++ (runCall c b w).2.map (fun x => (x.ID, c.encode x))) := by
    intro kv hkv
    rcases List.mem_append.mp hkv with h | h
    · exact hdec kv h
    · rcases List.mem_map.mp h with ⟨x, _, rfl⟩
      simp [c.decode_encode]
  have hlen : (bucket ++ (runCall c b w).2.map (fun x => (x.ID, c.encode x))).length
      ≤ (max 1 limit).toNat := by
    simp only [List.length_append, List.length_map, hl]
    omega
  have hlist := List_from_start c (runCall c b w).1 _ [] limit h2 hdec1
  rw [List.take_of_length_le hlen, decodeAll_append, decodeAll_encoded] at hlist
  refine ⟨h6, h7, _, h2, by simp [hl], ?_⟩
  simpa using hlist

/-- Witness of C19: the partition that holds three produced items, and an `Add` of one
reserved item. -/
theorem produce_round_trip_witness :
    List.Forall₂ Item.sameSupplied
      (WriteCall.add (fun n => (n : Int) + 5) [sampleItem [] true "c"]).supplied
      (runCall plainCodec producedPartition
        (WriteCall.add (fun n => (n : Int) + 5) [sampleItem [] true "c"])).2 ∧
    (runCall plainCodec producedPartition
        (WriteCall.add (fun n => (n : Int) + 5) [sampleItem [] true "c"])).2.map
        (fun x => x.CreatedAt)
      = (List.range (WriteCall.add (fun n => (n : Int) + 5)
          [sampleItem [] true "c"]).supplied.length).map
          (WriteCall.add (fun n => (n : Int) + 5) [sampleItem [] true "c"]).now ∧
    ∃ after, (runCall plainCodec producedPartition
        (WriteCall.add (fun n => (n : Int) + 5) [sampleItem [] true "c"])).1.db.queue
        = some after ∧
      after.length = (producedPartition.db.queue.getD []).length
        + (WriteCall.add (fun n => (n : Int) + 5) [sampleItem [] true "c"]).supplied.length ∧
      BoltPartition.List plainCodec (runCall plainCodec producedPartition
          (WriteCall.add (fun n => (n : Int) + 5) [sampleItem [] true "c"])).1 []
          { Pivot := none, Limit := 10 }
        = (none, decodeAll plainCodec (producedPartition.db.queue.getD [])
            ++ (runCall plainCodec producedPartition
              (WriteCall.add (fun n => (n : Int) + 5) [sampleItem [] true "c"])).2) :=
  produce_round_trip plainCodec producedPartition (producedPartition.db.queue.getD [])
    (WriteCall.add (fun n => (n : Int) + 5) [sampleItem [] true "c"]) 10
    (by decide) (by decide) (by decide) (by decide) (by decide)

/-- C30: `ParseID` applied to `BuildStorageID(queue, id)` succeeds and leaves exactly
`queue` and `id` in the storage id when neither contains the byte `~`, and fails with the
format error, leaving the storage id as it was, when either of them contains `~`. -/
theorem parse_build_storage_id (queue id : Bytes) (out : StorageID) :
    (tilde ∉ queue ∧ tilde ∉ id →
      MockBackend.ParseID (MockBackend.BuildStorageID queue id) out
        = (none, { Queue := queue, ID := id })) ∧
    (tilde ∈ queue ∨ tilde ∈ id →
      MockBackend.ParseID (MockBackend.BuildStorageID queue id) out
        = (some errStorageIDFormat, out)) := by
  constructor
  · rintro ⟨hq, hi⟩
    have h : bytes.Split (MockBackend.BuildStorageID queue id) tilde = [queue, id] := by
      simp only [MockBackend.BuildStorageID, List.append_assoc, List.singleton_append]
      rw [bytes.Split_append queue id tilde hq, bytes.Split_of_not_mem id tilde hi]
    simp [MockBackend.ParseID, h]
  · intro h
    apply MockBackend.ParseID_of_length
    rw [bytes.Split_length]
    have hc : 0 < queue.count tilde + id.count tilde := by
      rcases h with h | h
      · have := List.count_pos_iff.mpr h
        omega
      · have := List.count_pos_iff.mpr h
        omega
    simp only [MockBackend.BuildStorageID, List.count_append, List.count_singleton_self]
    omega

theorem parse_build_storage_id_witness :
    MockBackend.ParseID (MockBackend.BuildStorageID (stringBytes "orders") (stringBytes "0001"))
        { Queue := [], ID := [] }
      = (none, { Queue := stringBytes "orders", ID := stringBytes "0001" }) ∧
    MockBackend.ParseID (MockBackend.BuildStorageID (stringBytes "or~ders") (stringBytes "0001"))
        { Queue := [], ID := [] }
      = (some errStorageIDFormat, { Queue := [], ID := [] }) :=
  ⟨(parse_build_storage_id (stringBytes "orders") (stringBytes "0001") ⟨[], []⟩).1
      ⟨by decide, by decide⟩,
    (parse_build_storage_id (stringBytes "or~ders") (stringBytes "0001") ⟨[], []⟩).2
      (Or.inl (by decide))⟩

/-- Counterexample to C29: with a nil `Body` on the left and a non-empty `Body` on the right,
every other field equal, `l.Compare(r)` is true and `r.Compare(l)` is false. -/
theorem compare_not_symmetric :
    QueueItem.Compare (sampleQueueItem none) (sampleQueueItem (some [1])) = true ∧
    QueueItem.Compare (sampleQueueItem (some [1])) (sampleQueueItem none) = false ∧
    ¬ ∀ l r : QueueItem, QueueItem.Compare l r = QueueItem.Compare r l := by
  refine ⟨by decide, by decide, fun h => ?_⟩
  have := h (sampleQueueItem none) (sampleQueueItem (some [1]))
  revert this
  decide

/-- C29, amended: `l.Compare(r) = r.Compare(l)` for all items `l` and `r`, except when one
of them has a nil `Body` and the other a non-empty `Body`. -/
theorem compare_symmetric (l r : QueueItem)
    (hl : ¬ (l.Body = none ∧ r.Body.getD [] ≠ []))
    (hr : ¬ (r.Body = none ∧ l.Body.getD [] ≠ [])) :
    QueueItem.Compare l r = QueueItem.Compare r l := by
  have ht : ∀ t u : Int, (Time.Compare t u ≠ 0) ↔ t ≠ u := by
    intro t u
    unfold Time.Compare
    rcases lt_trichotomy t u with h | h | h
    · simp [h, ne_of_lt h]
    · subst h
      simp
    · simp [h, not_lt_of_gt h, ne_of_gt h]
  have ht2 : ∀ t u : Int, (Time.Compare t u ≠ 0) ↔ (Time.Compare u t ≠ 0) := by
    intro t u
    rw [ht, ht]
    exact ne_comm
  unfold QueueItem.Compare
  by_cases h1 : l.ID = r.ID
  swap
  · simp [h1, Ne.symm h1]
  by_cases h2 : l.IsReserved = r.IsReserved
  swap
  · simp [h2, Ne.symm h2]
  by_cases h3 : Time.Compare l.DeadDeadline r.DeadDeadline = 0
  swap
  · have := (ht2 _ _).mp h3
    simp [h3, this]
  by_cases h4 : Time.Compare l.ReserveDeadline r.ReserveDeadline = 0
  swap
  · have := (ht2 _ _).mp h4
    simp [h4, this]
  have h3r : Time.Compare r.DeadDeadline l.DeadDeadline = 0 := by
    by_contra hc
    exact (ht2 _ _).mp hc h3
  have h4r : Time.Compare r.ReserveDeadline l.ReserveDeadline = 0 := by
    by_contra hc
    exact (ht2 _ _).mp hc h4
  by_cases h5 : l.Attempts = r.Attempts
  swap
  · simp [h5, Ne.symm h5]
  by_cases h6 : l.Reference = r.Reference
  swap
  · simp [h6, Ne.symm h6]
  by_cases h7 : l.Encoding = r.Encoding
  swap
  · simp [h7, Ne.symm h7]
  by_cases h8 : l.Kind = r.Kind
  swap
  · simp [h8, Ne.symm h8]
  simp only [h1, h2, h3, h4, h3r, h4r, h5, h6, h7, h8, ne_eq, not_true_eq_false, if_false]
  cases hlb : l.Body <;> cases hrb : r.Body <;>
    simp_all [bytes.Equal, eq_comm]

theorem compare_symmetric_witness :
    QueueItem.Compare (sampleQueueItem (some [1])) (sampleQueueItem (some [2]))
      = QueueItem.Compare (sampleQueueItem (some [2])) (sampleQueueItem (some [1])) ∧
    QueueItem.Compare (sampleQueueItem none) (sampleQueueItem (some []))
      = QueueItem.Compare (sampleQueueItem (some [])) (sampleQueueItem none) :=
  ⟨compare_symmetric _ _ (by decide) (by decide), compare_symmetric _ _ (by decide) (by decide)⟩

/-- C25: for a partition with a non-negative index the file name is the queue name, `-`,
decimal digits that stand for the index, at least six of them and exactly six when the
index is below `10^6`, and `.db`; two partition identities with non-negative indexes that
have the same file name are the same identity; and the file name of a partition whose
queue name does not begin with `~` is not the name of the registry file. -/
theorem partition_file_name (i j : PartitionInfo) :
    (0 ≤ i.Partition →
      ∃ digits : Bytes,
        BoltPartition.fileName i = i.QueueName ++ [45] ++ digits ++ stringBytes ".db" ∧
        (∀ d ∈ digits, 48 ≤ d ∧ d ≤ 57) ∧ (fmt.value digits : Int) = i.Partition ∧
        6 ≤ digits.length ∧ (i.Partition < 10 ^ 6 → digits.length = 6)) ∧
    (0 ≤ i.Partition → 0 ≤ j.Partition →
      BoltPartition.fileName i = BoltPartition.fileName j → i = j) ∧
    (i.QueueName.head? ≠ some tilde → BoltPartition.fileName i ≠ BoltQueueStore.fileName) := by
  have hd06 : ∀ n : Int, 0 ≤ n → fmt.d06 n = fmt.zeroPad 6 n.toNat := by
    intro n hn
    simp [fmt.d06, not_lt.mpr hn]
  have hdb : stringBytes ".db" = [46, 100, 98] := by decide
  have hnot : ∀ n : Nat, (45 : Nat) ∉ fmt.zeroPad 6 n ++ stringBytes ".db" := by
    intro n hm
    rcases List.mem_append.mp hm with h | h
    · have := fmt.zeroPad_range 6 n 45 h
      omega
    · rw [hdb] at h
      simp at h
  refine ⟨fun hi => ?_, fun hi hj h => ?_, fun hq h => ?_⟩
  · refine ⟨fmt.zeroPad 6 i.Partition.toNat, ?_, fmt.zeroPad_range 6 _, ?_,
      (fmt.zeroPad_length 6 _).1, fun hlt => (fmt.zeroPad_length 6 _).2 ?_⟩
    · simp [BoltPartition.fileName, hd06 _ hi]
    · rw [fmt.value_zeroPad]
      exact Int.toNat_of_nonneg hi
    · omega
  · simp only [BoltPartition.fileName, hd06 _ hi, hd06 _ hj, List.append_assoc,
      List.singleton_append] at h
    obtain ⟨h1, h2⟩ := append_cons_last 45 _ _ _ _ (hnot _) (hnot _) h
    have h3 := List.append_cancel_right h2
    have h4 : i.Partition.toNat = j.Partition.toNat := by
      have := congrArg fmt.value h3
      rwa [fmt.value_zeroPad, fmt.value_zeroPad] at this
    have h5 : i.Partition = j.Partition := by omega
    cases i
    cases j
    simp_all
  · have hreg : BoltQueueStore.fileName = tilde :: stringBytes "queue-storage.db" := by decide
    rw [hreg] at h
    cases hn : i.QueueName with
    | nil =>
      simp [BoltPartition.fileName, hn, tilde] at h
    | cons c rest =>
      simp only [BoltPartition.fileName, hn, List.cons_append, List.cons.injEq] at h
      apply hq
      simp [hn, h.1]

theorem partition_file_name_witness :
    (∃ digits : Bytes,
        BoltPartition.fileName { QueueName := stringBytes "orders", Partition := 7 }
          = stringBytes "orders" ++ [45] ++ digits ++ stringBytes ".db" ∧
        (∀ d ∈ digits, 48 ≤ d ∧ d ≤ 57) ∧ (fmt.value digits : Int) = 7 ∧
        6 ≤ digits.length ∧ ((7 : Int) < 10 ^ 6 → digits.length = 6)) ∧
    BoltPartition.fileName { QueueName := stringBytes "orders", Partition := 7 }
      = stringBytes "orders-000007.db" ∧
    BoltPartition.fileName { QueueName := stringBytes "orders", Partition := 7 }
      ≠ BoltPartition.fileName { QueueName := stringBytes "orders", Partition := 8 } ∧
    BoltPartition.fileName { QueueName := stringBytes "orders", Partition := 7 }
      ≠ BoltQueueStore.fileName :=
  ⟨(partition_file_name { QueueName := stringBytes "orders", Partition := 7 }
      { QueueName := stringBytes "orders", Partition := 8 }).1 (by decide),
    by decide,
    fun h => absurd ((partition_file_name { QueueName := stringBytes "orders", Partition := 7 }
      { QueueName := stringBytes "orders", Partition := 8 }).2.1 (by decide) (by decide) h)
      (by decide),
    (partition_file_name { QueueName := stringBytes "orders", Partition := 7 }
      { QueueName := stringBytes "orders", Partition := 8 }).2.2 (by decide)⟩

/-- C28: in every partition reachable from an empty bucket through produce, add, reserve,
complete, delete and clear, the bucket exists and the value of each entry decodes to an
item whose `ID` is the key of the entry; so a `Put` at `item.ID`, the write of reserve,
replaces the value of that entry and leaves the keys of the bucket as they were. -/
theorem reachable_key_is_item_id (c : Codec) (b : BoltPartition) (h : Reachable c b) :
    ∃ bucket, b.db.queue = some bucket ∧
      ∀ kv ∈ bucket, ∃ item, c.decode kv.2 = some item ∧ item.ID = kv.1 ∧
        ∀ w : Bytes, (Bucket.Put bucket item.ID w).map Prod.fst = bucket.map Prod.fst ∧
          Bucket.Get (Bucket.Put bucket item.ID w) kv.1 = some w := by
  obtain ⟨bucket, hb, hs, hok⟩ := reachable_WF c b h
  refine ⟨bucket, hb, fun kv hkv => ?_⟩
  obtain ⟨item, hd, hid⟩ := entryOK_decode c kv (hok kv hkv)
  refine ⟨item, hd, hid, fun w => ?_⟩
  obtain ⟨pre, rest, hsplit⟩ := List.append_of_mem hkv
  obtain ⟨k, v⟩ := kv
  simp only at hid
  subst hsplit
  have hlt := keys_lt_of_sorted pre k v rest hs
  rw [hid, Bucket.Put_mid pre k v w rest hlt]
  refine ⟨by simp, ?_⟩
  have hs2 : ((pre ++ (k, w) :: rest).map Prod.fst).Pairwise (fun x y => x < y) := by
    simpa using hs
  exact Bucket.Get_of_mem _ hs2 (k, w) (by simp)

/-- Witness of C28: the partition after one `Produce` of three items and a reserve of two of
them. -/
theorem reachable_key_is_item_id_witness :
    ∃ bucket, reservedPartition.db.queue = some bucket ∧
      ∀ kv ∈ bucket, ∃ item, plainCodec.decode kv.2 = some item ∧ item.ID = kv.1 ∧
        ∀ w : Bytes, (Bucket.Put bucket item.ID w).map Prod.fst = bucket.map Prod.fst ∧
          Bucket.Get (Bucket.Put bucket item.ID w) kv.1 = some w :=
  reachable_key_is_item_id plainCodec reservedPartition
    (Reachable.reserve (slotBatch 2 2) { ReserveDeadline := 7, Limit := 0 }
      (Reachable.produce _ _ (Reachable.fresh _)))

/-- C26: on a partition whose values decode, `Complete` returns no error and commits the
bucket it was given minus the ids the batch completes; the ids a request completes are
the leading ids of the request up to its first failing id: the request is taken on the
bucket the requests before it have left, each completed id passes validation, is present
when its turn comes and holds a reserved item, and the id that follows them, if any, fails
one of these tests; the ids from there on are not removed on behalf of this request, and
the requests after it are processed on the bucket this one leaves. -/
theorem complete_removes_leading_ids (c : Codec) (b : BoltPartition)
    (batch : Batch CompleteRequest) (bucket : Bucket) (hb : b.db.queue = some bucket)
    (hdec : Bucket.Decodable c bucket) :
    (BoltPartition.Complete c b batch).err = none ∧
    (BoltPartition.Complete c b batch).db.queue
      = some (bucket.filter
          (fun kv => decide (kv.1 ∉ completedBatch c bucket batch.Requests))) ∧
    ∀ before r rest, batch.Requests = before ++ r :: rest →
      ∃ done remaining,
        r.Ids = done ++ remaining ∧
        completedBatch c bucket batch.Requests
          = completedBatch c bucket before ++ done ++
            completedBatch c (deleteAll bucket (completedBatch c bucket before ++ done)) rest ∧
        (∀ pre id post, done = pre ++ id :: post →
          BoltPartition.validateID id = none ∧
          ∃ v item,
            Bucket.Get (deleteAll bucket (completedBatch c bucket before ++ pre)) id = some v ∧
            c.decode v = some item ∧ item.IsReserved = true) ∧
        (∀ id post, remaining = id :: post →
          ¬ (BoltPartition.validateID id = none ∧
            ∃ v item,
              Bucket.Get (deleteAll bucket (completedBatch c bucket before ++ done)) id = some v ∧
              c.decode v = some item ∧ item.IsReserved = true)) := by
  obtain ⟨h1, h2⟩ := Complete_commits c b batch bucket hb hdec
  refine ⟨h1, by rw [h2, deleteAll_eq_filter], ?_⟩
  intro before r rest hsplit
  have hst : ∀ (bk : Bucket) (id : Bytes), idStatus c bk id = IdStatus.completable ↔
      (BoltPartition.validateID id = none ∧
        ∃ v item, Bucket.Get bk id = some v ∧ c.decode v = some item ∧ item.IsReserved = true) := by
    intro bk id
    rw [idStatus_completable_iff]
    constructor
    · rintro ⟨hv, v, hg, hr⟩
      unfold isReserved at hr
      cases hd : c.decode v with
      | none => simp [hd] at hr
      | some item =>
        simp only [hd] at hr
        exact ⟨hv, v, item, hg, hd, by simpa using hr⟩
    · rintro ⟨hv, v, item, hg, hd, hr⟩
      exact ⟨hv, v, hg, by simp [isReserved, hd, hr]⟩
  obtain ⟨remaining, g1, g2, g3⟩ :=
    completedIds_split c r.Ids (deleteAll bucket (completedBatch c bucket before))
  refine ⟨completedIds c (deleteAll bucket (completedBatch c bucket before)) r.Ids, remaining,
    g1, ?_, ?_, ?_⟩
  · rw [hsplit, completedBatch_append]
    simp only [completedBatch, deleteAll_append, List.append_assoc]
  · intro pre id post hd
    have := g2 pre id post hd
    rw [← deleteAll_append] at this
    exact (hst _ _).mp this
  · intro id post he hc
    have := g3 id post he
    rw [← deleteAll_append] at this
    exact this ((hst _ _).mpr hc)

/-- Witness of C26: one request with the id of the first item, an ill-formed id and the id
of the second item, both items reserved. -/
theorem complete_removes_leading_ids_witness :
    (BoltPartition.Complete plainCodec samplePartition20
      { Requests := [{ Ids := [sampleID 1, notAKsuid, sampleID 2], Err := none }] }).err = none ∧
    (BoltPartition.Complete plainCodec samplePartition20
      { Requests := [{ Ids := [sampleID 1, notAKsuid, sampleID 2], Err := none }] }).db.queue
      = some (sampleBucket20.filter (fun kv => decide (kv.1 ∉ completedBatch plainCodec
          sampleBucket20 [{ Ids := [sampleID 1, notAKsuid, sampleID 2], Err := none }]))) ∧
    completedBatch plainCodec sampleBucket20
      [{ Ids := [sampleID 1, notAKsuid, sampleID 2], Err := none }] = [sampleID 1] :=
  ⟨(complete_removes_leading_ids plainCodec samplePartition20
      { Requests := [{ Ids := [sampleID 1, notAKsuid, sampleID 2], Err := none }] }
      sampleBucket20 rfl (by decide)).1,
    (complete_removes_leading_ids plainCodec samplePartition20
      { Requests := [{ Ids := [sampleID 1, notAKsuid, sampleID 2], Err := none }] }
      sampleBucket20 rfl (by decide)).2.1,
    by decide⟩

/-- C27: on an engine file that already has the `queue` bucket, the lazy open of a
partition instance whose handle is not open fails with the error that wraps the engine's
`ErrBucketExists`, leaves the handle nil and the file as it was, and every operation
called on that instance returns this error without running; the lazy open of the registry
on such a file succeeds and hands out the file with its bucket. On a file that does not
exist the lazy open of a partition succeeds and creates the empty bucket. -/
theorem reopen_partition_bucket_exists (uid : KSUID) (bucket : Bucket) :
    BoltPartition.getDB none (FileState.present { queue := some bucket })
      = (.error (errCreatingBucket bolt.ErrBucketExists), none,
          FileState.present { queue := some bucket }) ∧
    (∀ (α : Type) (op : BoltPartition → Option Error × α),
      BoltPartition.call uid none (FileState.present { queue := some bucket }) op
        = (some (errCreatingBucket bolt.ErrBucketExists), none)) ∧
    BoltQueueStore.getDB none (FileState.present { queue := some bucket })
      = (.ok { queue := some bucket }, FileState.present { queue := some bucket }) ∧
    BoltPartition.getDB none FileState.absent
      = (.ok { queue := some [] }, some { queue := some [] },
          FileState.present { queue := some [] }) := by
  refine ⟨rfl, fun α op => rfl, ?_, rfl⟩
  simp [BoltQueueStore.getDB, bolt.Open, bolt.CreateBucket]

/-- C21: on a registry that holds a record under `info.Name`, for an `info` that passes
the validation of `update`: when the record merged from the stored one and `info` has its
reserve timeout above its dead timeout, `Update` fails with an invalid option error and
leaves the engine file as it was, so that a later `Get` of the name decodes the record that
was stored, into whatever record the caller passes, and returns exactly it into a
zero-valued one; otherwise `Update` succeeds and stores the encoding of the merged record
under the name, a later `Get` decodes the merged record, and what is stored under every
other name stays as it was. -/
theorem update_checks_timeouts (c : QueueCodec) (update : QueueInfo → QueueInfo → QueueInfo)
    (b : BoltQueueStore) (bucket : Bucket) (info found : QueueInfo)
    (hb : b.db.queue = some bucket) (hval : b.validation.validateUpdate info = none)
    (hname : info.Name ≠ [])
    (hget : Bucket.Get bucket info.Name = some (c.encode found)) :
    ((update found info).ReserveTimeout > (update found info).DeadTimeout →
      BoltQueueStore.Update c update b info = (some errReserveTimeout, b.db) ∧
      errReserveTimeout.kind = ErrorKind.invalidOption ∧
      (b.validation.validateGet info.Name = none →
        (∀ queue : QueueInfo,
          BoltQueueStore.Get c (b.withDB (BoltQueueStore.Update c update b info).2) info.Name
            queue = (none, QueueInfo.gobInto queue found)) ∧
        BoltQueueStore.Get c (b.withDB (BoltQueueStore.Update c update b info).2) info.Name
          QueueInfo.zero = (none, found))) ∧
    ((update found info).ReserveTimeout ≤ (update found info).DeadTimeout →
      BoltQueueStore.Update c update b info
        = (none, { queue := some (Bucket.Put bucket info.Name (c.encode (update found info))) }) ∧
      (b.validation.validateGet info.Name = none →
        (∀ queue : QueueInfo,
          BoltQueueStore.Get c (b.withDB (BoltQueueStore.Update c update b info).2) info.Name
            queue = (none, QueueInfo.gobInto queue (update found info))) ∧
        BoltQueueStore.Get c (b.withDB (BoltQueueStore.Update c update b info).2) info.Name
          QueueInfo.zero = (none, update found info)) ∧
      ∀ other, other ≠ info.Name →
        Bucket.Get (Bucket.Put bucket info.Name (c.encode (update found info))) other
          = Bucket.Get bucket other) := by
  constructor
  · intro hgt
    have hU : BoltQueueStore.Update c update b info = (some errReserveTimeout, b.db) := by
      simp [BoltQueueStore.Update, DB.Bucket, hb, hval, hget, c.decode_encode, hgt]
    refine ⟨hU, rfl, fun hv => ?_⟩
    rw [hU]
    have hq : ∀ queue : QueueInfo,
        BoltQueueStore.Get c (b.withDB b.db) info.Name queue
          = (none, QueueInfo.gobInto queue found) := fun queue =>
      (BoltQueueStore.Get_of_bucket c (b.withDB b.db) bucket info.Name queue hb hv).2 found hget
    refine ⟨hq, ?_⟩
    rw [hq QueueInfo.zero, QueueInfo.gobInto_zero]
  · intro hle
    have hU : BoltQueueStore.Update c update b info
        = (none, { queue := some (Bucket.Put bucket info.Name (c.encode (update found info))) }) := by
      simp [BoltQueueStore.Update, DB.Bucket, hb, hval, hget, c.decode_encode, not_lt.mpr hle,
        hname]
    refine ⟨hU, fun hv => ?_, fun other ho => ?_⟩
    · rw [hU]
      have hq : ∀ queue : QueueInfo,
          BoltQueueStore.Get c
              (b.withDB { queue := some (Bucket.Put bucket info.Name
                (c.encode (update found info))) }) info.Name queue
            = (none, QueueInfo.gobInto queue (update found info)) := fun queue =>
        (BoltQueueStore.Get_of_bucket c (b.withDB _) _ info.Name queue rfl hv).2 _
          (by simp [Bucket.Get_Put])
      refine ⟨hq, ?_⟩
      rw [hq QueueInfo.zero, QueueInfo.gobInto_zero]
    · simp [Bucket.Get_Put, ho]

/-- Witness of C21, scenario S7: the queue `q` is stored with timeouts 30s and 60s; the
update with reserve timeout 90s fails and `Get` still returns 30s and 60s. -/
theorem update_checks_timeouts_witness :
    BoltQueueStore.Update plainQueueCodec QueueInfo.Update sampleRegistry sampleUpdate
      = (some errReserveTimeout, sampleRegistry.db) ∧
    errReserveTimeout.kind = ErrorKind.invalidOption ∧
    (sampleRegistry.validation.validateGet (stringBytes "q") = none →
      (∀ queue : QueueInfo,
        BoltQueueStore.Get plainQueueCodec
          (sampleRegistry.withDB (BoltQueueStore.Update plainQueueCodec QueueInfo.Update
            sampleRegistry sampleUpdate).2) (stringBytes "q") queue
          = (none, QueueInfo.gobInto queue sampleQueue)) ∧
      BoltQueueStore.Get plainQueueCodec
        (sampleRegistry.withDB (BoltQueueStore.Update plainQueueCodec QueueInfo.Update
          sampleRegistry sampleUpdate).2) (stringBytes "q") QueueInfo.zero
        = (none, sampleQueue)) :=
  (update_checks_timeouts plainQueueCodec QueueInfo.Update sampleRegistry
    [(stringBytes "q", plainQueueCodec.encode sampleQueue)]
    sampleUpdate sampleQueue (by decide) (by decide) (by decide) (by decide)).1 (by decide)

/-- C22: for an `info` that passes the validation of `add`: when the registry holds a value
under `info.Name`, `Add` fails with an invalid option error and leaves the engine file as it
was; when it holds none and the name is not empty, `Add` succeeds and stores the encoding of
`info` under the name, a later `Get` decodes `info`, into whatever record the caller passes,
and returns exactly it into a zero-valued one, and what is stored under every other name,
and what `Get` returns for it, stays as it was. -/
theorem add_rejects_present_name (c : QueueCodec) (b : BoltQueueStore) (bucket : Bucket)
    (info : QueueInfo) (hb : b.db.queue = some bucket)
    (hval : b.validation.validateAdd info = none) :
    (Bucket.Get bucket info.Name ≠ none →
      BoltQueueStore.Add c b info = (some errQueueExists, b.db) ∧
      errQueueExists.kind = ErrorKind.invalidOption) ∧
    (Bucket.Get bucket info.Name = none → info.Name ≠ [] →
      BoltQueueStore.Add c b info
        = (none, { queue := some (Bucket.Put bucket info.Name (c.encode info)) }) ∧
      (b.validation.validateGet info.Name = none →
        (∀ queue : QueueInfo,
          BoltQueueStore.Get c (b.withDB (BoltQueueStore.Add c b info).2) info.Name queue
            = (none, QueueInfo.gobInto queue info)) ∧
        BoltQueueStore.Get c (b.withDB (BoltQueueStore.Add c b info).2) info.Name QueueInfo.zero
          = (none, info)) ∧
      ∀ other, other ≠ info.Name →
        Bucket.Get (Bucket.Put bucket info.Name (c.encode info)) other = Bucket.Get bucket other ∧
        ∀ queue : QueueInfo,
          BoltQueueStore.Get c (b.withDB (BoltQueueStore.Add c b info).2) other queue
            = BoltQueueStore.Get c b other queue) := by
  constructor
  · intro hp
    have hs : (Bucket.Get bucket info.Name).isSome = true := by
      cases h : Bucket.Get bucket info.Name with
      | none => exact absurd h hp
      | some v => rfl
    exact ⟨by simp [BoltQueueStore.Add, DB.Bucket, hb, hval, hs], rfl⟩
  · intro hn hname
    have hA : BoltQueueStore.Add c b info
        = (none, { queue := some (Bucket.Put bucket info.Name (c.encode info)) }) := by
      simp [BoltQueueStore.Add, DB.Bucket, hb, hval, hn, hname]
    refine ⟨hA, fun hv => ?_, fun other ho => ?_⟩
    · rw [hA]
      have hq : ∀ queue : QueueInfo,
          BoltQueueStore.Get c
              (b.withDB { queue := some (Bucket.Put bucket info.Name (c.encode info)) })
              info.Name queue
            = (none, QueueInfo.gobInto queue info) := fun queue =>
        (BoltQueueStore.Get_of_bucket c (b.withDB _) _ info.Name queue rfl hv).2 _
          (by simp [Bucket.Get_Put])
      refine ⟨hq, ?_⟩
      rw [hq QueueInfo.zero, QueueInfo.gobInto_zero]
    · have hg : Bucket.Get (Bucket.Put bucket info.Name (c.encode info)) other
          = Bucket.Get bucket other := by
        simp [Bucket.Get_Put, ho]
      refine ⟨hg, fun queue => ?_⟩
      rw [hA]
      exact BoltQueueStore.Get_congr c (b.withDB _) b _ bucket other queue rfl rfl hb hg

/-- Witness of C22: `add` of the queue `q` on a registry that holds it, and `add` of a queue
`r` that it does not hold. -/
theorem add_rejects_present_name_witness :
    (BoltQueueStore.Add plainQueueCodec sampleRegistry sampleQueue
        = (some errQueueExists, sampleRegistry.db) ∧
      errQueueExists.kind = ErrorKind.invalidOption) ∧
    BoltQueueStore.Add plainQueueCodec sampleRegistry otherQueue
      = (none, { queue := some (Bucket.Put [(stringBytes "q", plainQueueCodec.encode sampleQueue)]
          (stringBytes "r") (plainQueueCodec.encode otherQueue)) }) ∧
    BoltQueueStore.Get plainQueueCodec
        (sampleRegistry.withDB (BoltQueueStore.Add plainQueueCodec sampleRegistry otherQueue).2)
        (stringBytes "q") QueueInfo.zero
      = (none, sampleQueue) :=
  ⟨(add_rejects_present_name plainQueueCodec sampleRegistry
      [(stringBytes "q", plainQueueCodec.encode sampleQueue)] sampleQueue (by decide)
      (by decide)).1 (by decide),
    ((add_rejects_present_name plainQueueCodec sampleRegistry
      [(stringBytes "q", plainQueueCodec.encode sampleQueue)] otherQueue
      (by decide) (by decide)).2 (by decide) (by decide)).1,
    by decide⟩

/-- C24: for a name that passes the validation of `delete`, `Delete` succeeds whether the
registry holds a value under the name or not; afterwards nothing is stored under the name,
a `Get` of the name returns the queue-not-exist sentinel and leaves the caller's record as
it was, and what is stored under every other name, and what `Get` returns for it, stays as
it was. -/
theorem delete_any_name (c : QueueCodec) (b : BoltQueueStore) (bucket : Bucket) (name : Bytes)
    (hb : b.db.queue = some bucket) (hval : b.validation.validateDelete name = none) :
    BoltQueueStore.Delete b name = (none, { queue := some (Bucket.Delete bucket name) }) ∧
    Bucket.Get (Bucket.Delete bucket name) name = none ∧
    (b.validation.validateGet name = none →
      ∀ queue : QueueInfo,
        BoltQueueStore.Get c (b.withDB (BoltQueueStore.Delete b name).2) name queue
          = (some Error.QueueNotExist, queue)) ∧
    ∀ other, other ≠ name →
      Bucket.Get (Bucket.Delete bucket name) other = Bucket.Get bucket other ∧
      ∀ queue : QueueInfo,
        BoltQueueStore.Get c (b.withDB (BoltQueueStore.Delete b name).2) other queue
          = BoltQueueStore.Get c b other queue := by
  have hD : BoltQueueStore.Delete b name
      = (none, { queue := some (Bucket.Delete bucket name) }) := by
    simp [BoltQueueStore.Delete, DB.Bucket, hb, hval]
  have hg : Bucket.Get (Bucket.Delete bucket name) name = none := by
    simp [Bucket.Get_Delete]
  refine ⟨hD, hg, fun hv queue => ?_, fun other ho => ?_⟩
  · rw [hD]
    exact (BoltQueueStore.Get_of_bucket c (b.withDB _) _ name queue rfl hv).1 hg
  · have hg2 : Bucket.Get (Bucket.Delete bucket name) other = Bucket.Get bucket other := by
      simp [Bucket.Get_Delete, ho]
    refine ⟨hg2, fun queue => ?_⟩
    rw [hD]
    exact BoltQueueStore.Get_congr c (b.withDB _) b _ bucket other queue rfl rfl hb hg2

/-- Witness of C24: `delete` of the queue `q` that the registry holds, and `delete` of a
name it does not hold. -/
theorem delete_any_name_witness :
    (BoltQueueStore.Delete sampleRegistry (stringBytes "q")
        = (none, { queue := some (Bucket.Delete
            [(stringBytes "q", plainQueueCodec.encode sampleQueue)] (stringBytes "q")) }) ∧
      BoltQueueStore.Get plainQueueCodec
        (sampleRegistry.withDB (BoltQueueStore.Delete sampleRegistry (stringBytes "q")).2)
        (stringBytes "q") QueueInfo.zero = (some Error.QueueNotExist, QueueInfo.zero)) ∧
    BoltQueueStore.Delete sampleRegistry (stringBytes "r")
      = (none, { queue := some (Bucket.Delete
          [(stringBytes "q", plainQueueCodec.encode sampleQueue)] (stringBytes "r")) }) ∧
    BoltQueueStore.Get plainQueueCodec
      (sampleRegistry.withDB (BoltQueueStore.Delete sampleRegistry (stringBytes "r")).2)
      (stringBytes "q") QueueInfo.zero = (none, sampleQueue) :=
  ⟨⟨(delete_any_name plainQueueCodec sampleRegistry
        [(stringBytes "q", plainQueueCodec.encode sampleQueue)] (stringBytes "q") (by decide)
        (by decide)).1,
      (delete_any_name plainQueueCodec sampleRegistry
        [(stringBytes "q", plainQueueCodec.encode sampleQueue)] (stringBytes "q") (by decide)
        (by decide)).2.2.1 (by decide) QueueInfo.zero⟩,
    (delete_any_name plainQueueCodec sampleRegistry
      [(stringBytes "q", plainQueueCodec.encode sampleQueue)] (stringBytes "r") (by decide)
      (by decide)).1,
    by decide⟩

/-- Counterexample to C23: the queue `z` is added with both timeouts zero; a `Get` of `z`
into a record that holds the name `old` and the timeouts 5s and 6s succeeds and leaves the
name `z` with the timeouts 5s and 6s in it, which is not the record stored under `z`, the
only record ever stored. -/
theorem get_keeps_caller_fields :
    storedAfter specValidation QueueInfo.Update (fun _ => none)
        [QueueCall.add zeroTimeoutsQueue] (stringBytes "z") = some zeroTimeoutsQueue ∧
    BoltQueueStore.Get plainQueueCodec
        (runQueueCalls plainQueueCodec QueueInfo.Update freshRegistry
          [QueueCall.add zeroTimeoutsQueue]) (stringBytes "z") staleRecord
      = (none, { Name := stringBytes "z", ReserveTimeout := seconds 5,
                 DeadTimeout := seconds 6, Carried := [] }) ∧
    (BoltQueueStore.Get plainQueueCodec
        (runQueueCalls plainQueueCodec QueueInfo.Update freshRegistry
          [QueueCall.add zeroTimeoutsQueue]) (stringBytes "z") staleRecord).2
      ≠ zeroTimeoutsQueue := by
  decide

/-- C23, amended: on the registry that a sequence of `add`, `update` and `delete` calls has
built from an empty one, `Get` of a name that passes its validation decodes the record most
recently stored under the name by `add` or `update` into the caller's record: each field
whose stored value is not zero is returned as stored and each field stored as zero keeps
the value the caller's record had, so that `Get` returns exactly the stored record into a
zero-valued record and whenever the stored record has no zero field; when no record is
stored under the name `Get` returns the queue-not-exist sentinel and leaves the caller's
record as it was; and `Update` with a valid `info` whose name has no record returns the
queue-not-exist sentinel and leaves the engine file as it was. -/
theorem get_decodes_last_stored (c : QueueCodec) (update : QueueInfo → QueueInfo → QueueInfo)
    (v : QueuesValidation) (calls : List QueueCall) (name : Bytes)
    (hv : v.validateGet name = none) :
    (∀ queue : QueueInfo,
      BoltQueueStore.Get c
          (runQueueCalls c update { validation := v, db := { queue := some [] } } calls) name
          queue
        = (match storedAfter v update (fun _ => none) calls name with
            | some info => (none, QueueInfo.gobInto queue info)
            | none => (some Error.QueueNotExist, queue))) ∧
    BoltQueueStore.Get c
        (runQueueCalls c update { validation := v, db := { queue := some [] } } calls) name
        QueueInfo.zero
      = (match storedAfter v update (fun _ => none) calls name with
          | some info => (none, info)
          | none => (some Error.QueueNotExist, QueueInfo.zero)) ∧
    (∀ (queue info : QueueInfo), storedAfter v update (fun _ => none) calls name = some info →
      info.Name ≠ [] → info.ReserveTimeout ≠ 0 → info.DeadTimeout ≠ 0 → info.Carried ≠ [] →
      BoltQueueStore.Get c
          (runQueueCalls c update { validation := v, db := { queue := some [] } } calls) name
          queue
        = (none, info)) ∧
    ∀ info : QueueInfo, v.validateUpdate info = none →
      storedAfter v update (fun _ => none) calls info.Name = none →
      BoltQueueStore.Update c update
          (runQueueCalls c update { validation := v, db := { queue := some [] } } calls) info
        = (some Error.QueueNotExist,
            (runQueueCalls c update { validation := v, db := { queue := some [] } } calls).db) := by
  obtain ⟨bucket1, h1, h2, h3⟩ := runQueueCalls_view c update calls
    { validation := v, db := { queue := some [] } } [] (fun _ => none) rfl
    (by intro n; simp [Bucket.Get])
  simp only at h2 h3
  have hv1 : (runQueueCalls c update { validation := v, db := { queue := some [] } }
      calls).validation.validateGet name = none := by rw [h2]; exact hv
  have hq : ∀ queue : QueueInfo,
      BoltQueueStore.Get c
          (runQueueCalls c update { validation := v, db := { queue := some [] } } calls) name
          queue
        = (match storedAfter v update (fun _ => none) calls name with
            | some info => (none, QueueInfo.gobInto queue info)
            | none => (some Error.QueueNotExist, queue)) := by
    intro queue
    obtain ⟨g1, g2⟩ := BoltQueueStore.Get_of_bucket c _ bucket1 name queue h1 hv1
    cases hs : storedAfter v update (fun _ => none) calls name with
    | none => exact g1 (by rw [h3, hs]; rfl)
    | some info => exact g2 info (by rw [h3, hs]; rfl)
  refine ⟨hq, ?_, ?_, ?_⟩
  · rw [hq QueueInfo.zero]
    cases hs : storedAfter v update (fun _ => none) calls name with
    | none => rfl
    | some info => simp only [QueueInfo.gobInto_zero]
  · intro queue info hs n1 n2 n3 n4
    rw [hq queue, hs]
    simp only [QueueInfo.gobInto_of_nonzero queue info n1 n2 n3 n4]
  · intro info hval hs
    have hg : Bucket.Get bucket1 info.Name = none := by rw [h3, hs]; rfl
    simp [BoltQueueStore.Update, DB.Bucket, h1, h2, hval, hg]

/-- Witness of C23: after `add` of `q`, `add` of `r`, an `update` of `q` that raises its
dead timeout and `delete` of `r`, `Get` of `q` into a zero-valued record returns the merged
record, `Get` of `r` returns the sentinel, and so does an `Update` of `r`. -/
theorem get_decodes_last_stored_witness :
    BoltQueueStore.Get plainQueueCodec
        (runQueueCalls plainQueueCodec QueueInfo.Update freshRegistry sampleQueueCalls)
        (stringBytes "q") QueueInfo.zero
      = (none, { Name := stringBytes "q", ReserveTimeout := seconds 30,
                 DeadTimeout := seconds 120, Carried := [] }) ∧
    BoltQueueStore.Get plainQueueCodec
        (runQueueCalls plainQueueCodec QueueInfo.Update freshRegistry sampleQueueCalls)
        (stringBytes "r") staleRecord
      = (some Error.QueueNotExist, staleRecord) ∧
    BoltQueueStore.Update plainQueueCodec QueueInfo.Update
        (runQueueCalls plainQueueCodec QueueInfo.Update freshRegistry sampleQueueCalls) otherQueue
      = (some Error.QueueNotExist,
          (runQueueCalls plainQueueCodec QueueInfo.Update freshRegistry sampleQueueCalls).db) :=
  ⟨(get_decodes_last_stored plainQueueCodec QueueInfo.Update specValidation sampleQueueCalls
      (stringBytes "q") (by decide)).2.1.trans (by decide),
    ((get_decodes_last_stored plainQueueCodec QueueInfo.Update specValidation sampleQueueCalls
      (stringBytes "r") (by decide)).1 staleRecord).trans (by decide),
    (get_decodes_last_stored plainQueueCodec QueueInfo.Update specValidation sampleQueueCalls
      (stringBytes "r") (by decide)).2.2.2 otherQueue (by decide) (by decide)⟩

end Querator
